import Mathlib

/-!
# dhorn: `utf_traits`, `utf_iterator` and `utf_output_iterator` (include/dhorn/utf.h)

A shallow embedding of the UTF-8/16/32 codec traits and of the two iterator adapters built on
them, followed by the properties proved about them.

Conventions of the embedding

* A storage unit (`char`, `char16_t`, `char32_t`) and a code point (`char32_t`) are natural
  numbers holding the bit pattern of the unit.  `utf_traits<char>` only ever looks at a `char`
  through `&` with a constant below `0x100`, so the signedness of `char` has no influence on any
  result and the bit pattern is all that matters.  `static_cast<char_type>(e)` is `e % 2^w`.
* An input iterator (`InputItr`, `Itr` of `utf_iterator`) is an index into the list of units it
  ranges over: `begin` is index `0`, `end` is the length of the list.  Reading a unit outside the
  list, stepping past `end` or before `begin` is undefined behaviour in C++ and is `none` here.
* An output iterator (`Itr` of `write`, of `utf_output_iterator`) is any state with the two
  operations `*pos = v` and `++pos`; `std::back_inserter` and a raw pointer into memory are the
  two instances used.
-/

namespace dhorn

/-! ## Iterators -/

/-- The two operations `write` performs on its output iterator. -/
structure OutputItr (σ : Type) where
  /-- The store `*pos = v`. -/
  assign : σ → Nat → σ
  /-- The step `++pos`. -/
  incr : σ → σ

/-- The statement pair `*pos = v; ++pos;`. -/
def OutputItr.put {σ : Type} (I : OutputItr σ) (pos : σ) (v : Nat) : σ :=
  I.incr (I.assign pos v)

/-- The iterator `std::back_inserter(container)`: a store appends, a step does nothing. -/
def back_inserter : OutputItr (List Nat) where
  assign := fun s v => s ++ [v]
  incr := fun s => s

/-- Memory seen through a raw pointer: the unit held at every address. -/
abbrev Mem := Nat → Nat

/-- A raw pointer `CharTy*` used as output iterator: the memory together with the address. -/
def raw_pointer : OutputItr (Mem × Nat) where
  assign := fun p v => (Function.update p.1 p.2 v, p.2)
  incr := fun p => (p.1, p.2 + 1)

/-- The units of memory `m` at the addresses `0 .. n-1`, as a sequence. -/
def Mem.view (m : Mem) (n : Nat) : List Nat := (List.range n).map m

/-- The read `*pos` of an input iterator at index `pos` of the sequence `s`. -/
def deref (s : List Nat) (pos : Nat) : Option Nat := s[pos]?

/-- The call `std::advance(pos, n)`, which must not step past the end of `s`. -/
def advance (s : List Nat) (pos n : Nat) : Option Nat :=
  if pos + n ≤ s.length then some (pos + n) else none

/-! ## `utf_traits<char>` -/

namespace utf_traits_char

def max_code_point_size : Nat := 4

/-- The overload `code_point_size(char_type ch)`. -/
def code_point_size (ch : Nat) : Nat :=
  if ch &&& 0x80 = 0x00 then 1
  else if ch &&& 0xE0 = 0xC0 then 2
  else if ch &&& 0xF0 = 0xE0 then 3 else 4

/-- The overload `code_point_size(char32_t ch)`. -/
def code_point_size_char32 (ch : Nat) : Nat :=
  if ch ≤ 0x00007F then 1
  else if ch ≤ 0x0007FF then 2
  else if ch ≤ 0x00FFFF then 3 else 4

def is_initial_code_unit (ch : Nat) : Bool := (ch &&& 0xC0) != 0x80

def next (s : List Nat) (pos : Nat) : Option Nat := do
  let u ← deref s pos
  advance s pos (code_point_size u)

/-- One arm of the `switch` of `read`: `result = (result << 6) | (*pos & 0x3F); ++pos;`. -/
def read_unit (s : List Nat) (st : Nat × Nat) : Option (Nat × Nat) := do
  let u ← deref s st.2
  pure (((st.1 <<< 6) % 2 ^ 32) ||| (u &&& 0x3F), st.2 + 1)

def read (s : List Nat) (pos : Nat) : Option (Nat × Nat) := do
  let value ← deref s pos
  let size := code_point_size value
  -- The first mask has '0's in the highest 'size' bits
  let result := value &&& (0xFF >>> size)
  let pos := pos + 1
  match size with
  | 4 => do
    let st ← read_unit s (result, pos)
    let st ← read_unit s st
    read_unit s st
  | 3 => do
    let st ← read_unit s (result, pos)
    read_unit s st
  | 2 => read_unit s (result, pos)
  | _ => pure (result, pos)

def prefixes : List Nat := [0x00, 0x00, 0xC0, 0xE0, 0xF0]
def bitCounts : List Nat := [0, 7, 5, 4, 3]
def masks : List Nat := [0x00, 0x7F, 0x1F, 0x0F, 0x07]

/-- One arm of the `switch` of `write`:
`shift -= 6; *pos = static_cast<char_type>(((ch >> shift) & mask) | prefix); ++pos;`
with the constant `mask = 0x3F` and `prefix = 0x80`. The state is `(pos, shift)`. -/
def write_unit {σ : Type} (I : OutputItr σ) (ch : Nat) (st : σ × Nat) : σ × Nat :=
  let shift := st.2 - 6
  (I.put st.1 ((((ch >>> shift) &&& 0x3F) ||| 0x80) % 256), shift)

def write {σ : Type} (I : OutputItr σ) (pos : σ) (ch : Nat) : σ :=
  let size := code_point_size_char32 ch
  let pfx := prefixes.getD size 0
  let mask := masks.getD size 0
  let shift := 6 * (size - 1)
  let pos := I.put pos ((((ch >>> shift) &&& mask) ||| pfx) % 256)
  match size with
  | 4 => (write_unit I ch (write_unit I ch (write_unit I ch (pos, shift)))).1
  | 3 => (write_unit I ch (write_unit I ch (pos, shift))).1
  | 2 => (write_unit I ch (pos, shift)).1
  | _ => pos

end utf_traits_char

/-! ## `utf_traits<char16_t>` -/

namespace utf_traits_char16_t

def max_code_point_size : Nat := 2

/-- The overload `code_point_size(char_type ch)`. -/
def code_point_size (ch : Nat) : Nat :=
  if ch &&& 0xF800 ≠ 0xD800 then 1 else 2

/-- The overload `code_point_size(char32_t ch)`. -/
def code_point_size_char32 (ch : Nat) : Nat :=
  if ch ≤ 0x00FFFF then 1 else 2

def is_initial_code_unit (ch : Nat) : Bool := (ch &&& 0xFC00) != 0xDC00

def next (s : List Nat) (pos : Nat) : Option Nat := do
  let u ← deref s pos
  advance s pos (code_point_size u)

def read (s : List Nat) (pos : Nat) : Option (Nat × Nat) := do
  let value ← deref s pos
  if code_point_size value = 2 then
    let result := (value &&& 0x03FF) <<< 10
    let pos := pos + 1
    let low ← deref s pos
    let result := result ||| (low &&& 0x03FF)
    let pos := pos + 1
    let result := (result + 0x00010000) % 2 ^ 32
    pure (result, pos)
  else
    let result := value
    let pos := pos + 1
    pure (result, pos)

def write {σ : Type} (I : OutputItr σ) (pos : σ) (ch : Nat) : σ :=
  if code_point_size_char32 ch = 1 then
    I.put pos (ch % 2 ^ 16)
  else
    let ch := (ch + 2 ^ 32 - 0x00010000) % 2 ^ 32
    let pos := I.put pos ((0xD800 ||| ((ch >>> 10) &&& 0x03FF)) % 2 ^ 16)
    I.put pos ((0xDC00 ||| (ch &&& 0x03FF)) % 2 ^ 16)

end utf_traits_char16_t

/-! ## `utf_traits<char32_t>` -/

namespace utf_traits_char32_t

def max_code_point_size : Nat := 1

/-- Both overloads of `code_point_size` take a `char32_t` and return 1. -/
def code_point_size (_ch : Nat) : Nat := 1

def is_initial_code_unit (_ch : Nat) : Bool := true

def next (s : List Nat) (pos : Nat) : Option Nat :=
  advance s pos 1

def read (s : List Nat) (pos : Nat) : Option (Nat × Nat) := do
  let result ← deref s pos
  let pos := pos + 1
  pure (result, pos)

def write {σ : Type} (I : OutputItr σ) (pos : σ) (ch : Nat) : σ :=
  I.put pos ch

end utf_traits_char32_t

/-! ## The traits as a template argument -/

/-- The character types `utf_traits` is specialised for. -/
inductive CharTy where
  | char
  | char16_t
  | char32_t
  deriving DecidableEq, Repr

/-- The members of a `utf_traits` specialisation. -/
structure Traits where
  max_code_point_size : Nat
  /-- The overload `code_point_size(char_type)`. -/
  code_point_size : Nat → Nat
  /-- The overload `code_point_size(char32_t)`. -/
  code_point_size_char32 : Nat → Nat
  is_initial_code_unit : Nat → Bool
  next : List Nat → Nat → Option Nat
  read : List Nat → Nat → Option (Nat × Nat)
  write : {σ : Type} → OutputItr σ → σ → Nat → σ

/-- The specialisation `utf_traits<CharTy>`. -/
def utf_traits : CharTy → Traits
  | .char =>
    { max_code_point_size := utf_traits_char.max_code_point_size
      code_point_size := utf_traits_char.code_point_size
      code_point_size_char32 := utf_traits_char.code_point_size_char32
      is_initial_code_unit := utf_traits_char.is_initial_code_unit
      next := utf_traits_char.next
      read := utf_traits_char.read
      write := utf_traits_char.write }
  | .char16_t =>
    { max_code_point_size := utf_traits_char16_t.max_code_point_size
      code_point_size := utf_traits_char16_t.code_point_size
      code_point_size_char32 := utf_traits_char16_t.code_point_size_char32
      is_initial_code_unit := utf_traits_char16_t.is_initial_code_unit
      next := utf_traits_char16_t.next
      read := utf_traits_char16_t.read
      write := utf_traits_char16_t.write }
  | .char32_t =>
    { max_code_point_size := utf_traits_char32_t.max_code_point_size
      code_point_size := utf_traits_char32_t.code_point_size
      code_point_size_char32 := utf_traits_char32_t.code_point_size
      is_initial_code_unit := utf_traits_char32_t.is_initial_code_unit
      next := utf_traits_char32_t.next
      read := utf_traits_char32_t.read
      write := utf_traits_char32_t.write }

/-- The units `Traits::write` stores for `ch`, in order: what it appends through a
`std::back_inserter` to an empty container. -/
def Traits.units (T : Traits) (ch : Nat) : List Nat := T.write back_inserter [] ch

/-! ## `utf_iterator` -/

/-- The class `utf_iterator<Itr, Traits>`: its only member is the underlying iterator `_itr`. -/
structure utf_iterator where
  itr : Nat
  deriving DecidableEq, Repr

namespace utf_iterator

/-- The member `operator!=`. -/
def ne (a other : utf_iterator) : Bool := a.itr != other.itr

/-- The member `operator==`. -/
def eq (a other : utf_iterator) : Bool := !(ne a other)

/-- The member `operator*`. -/
def deref (T : Traits) (s : List Nat) (it : utf_iterator) : Option Nat :=
  (T.read s it.itr).map Prod.fst

/-- The member `operator++()`. -/
def pre_increment (T : Traits) (s : List Nat) (it : utf_iterator) : Option utf_iterator :=
  (T.next s it.itr).map utf_iterator.mk

/-- The member `operator++(int)`: the returned copy, then the iterator itself. -/
def post_increment (T : Traits) (s : List Nat) (it : utf_iterator) :
    Option (utf_iterator × utf_iterator) :=
  let copy := it
  (pre_increment T s it).map (fun it => (copy, it))

/-- The loop `do { --_itr; } while (!Traits::is_initial_code_unit(*_itr));` on the underlying
iterator. Stepping before the beginning of the sequence is undefined. -/
def retreat (T : Traits) (s : List Nat) : Nat → Option Nat
  | 0 => none
  | p + 1 =>
    match dhorn.deref s p with
    | none => none
    | some u => if T.is_initial_code_unit u then some p else retreat T s p

/-- The member `operator--()`. -/
def pre_decrement (T : Traits) (s : List Nat) (it : utf_iterator) : Option utf_iterator :=
  (retreat T s it.itr).map utf_iterator.mk

/-- The member `operator--(int)`: the returned copy, then the iterator itself. -/
def post_decrement (T : Traits) (s : List Nat) (it : utf_iterator) :
    Option (utf_iterator × utf_iterator) :=
  let copy := it
  (pre_decrement T s it).map (fun it => (copy, it))

end utf_iterator

/-! ## `utf_output_iterator` -/

/-- The class `utf_output_iterator<CharTy, Itr, Traits>`: its only member is the wrapped output
iterator `_itr`. -/
structure utf_output_iterator (σ : Type) where
  itr : σ

namespace utf_output_iterator

variable {σ : Type}

/-- The member `operator*`. -/
def deref (it : utf_output_iterator σ) : utf_output_iterator σ := it

/-- The member `operator++()`. -/
def pre_increment (it : utf_output_iterator σ) : utf_output_iterator σ := it

/-- The member `operator++(int)`. -/
def post_increment (it : utf_output_iterator σ) : utf_output_iterator σ := it

/-- The member `operator=(char32_t value)`. -/
def assign (T : Traits) (I : OutputItr σ) (it : utf_output_iterator σ) (value : Nat) :
    utf_output_iterator σ :=
  { itr := T.write I it.itr value }

end utf_output_iterator

/-! ## Traversals used by the properties -/

/-- A code point: a value of `[0, 0x10FFFF]` outside the surrogate range `[0xD800, 0xDFFF]`. -/
def valid_code_point (cp : Nat) : Prop := cp ≤ 0x10FFFF ∧ ¬ (0xD800 ≤ cp ∧ cp ≤ 0xDFFF)

instance (cp : Nat) : Decidable (valid_code_point cp) :=
  inferInstanceAs (Decidable (cp ≤ 0x10FFFF ∧ ¬ (0xD800 ≤ cp ∧ cp ≤ 0xDFFF)))

/-- The loop `for (cp : str) *itr++ = cp;` on an output adapter. -/
def output_all {σ : Type} (T : Traits) (I : OutputItr σ) (it : utf_output_iterator σ)
    (str : List Nat) : utf_output_iterator σ :=
  str.foldl (fun it cp => (it.post_increment.deref).assign T I cp) it

/-- Dereference, then increment, `n` times: the code points read and the final iterator. -/
def walk (T : Traits) (s : List Nat) : Nat → utf_iterator → Option (List Nat × utf_iterator)
  | 0, it => some ([], it)
  | n + 1, it => do
    let cp ← it.deref T s
    let it ← it.pre_increment T s
    let r ← walk T s n it
    pure (cp :: r.1, r.2)

/-- The loop `for (; itr != end; ++itr) out.push_back(*itr);`, cut off after `fuel` rounds. -/
def collect_forward (T : Traits) (s : List Nat) (last : utf_iterator) :
    Nat → utf_iterator → Option (List Nat)
  | 0, _ => none
  | fuel + 1, it =>
    if it.ne last then do
      let cp ← it.deref T s
      let it ← it.pre_increment T s
      let r ← collect_forward T s last fuel it
      pure (cp :: r)
    else some []

/-- The loop `while (itr != begin) { --itr; out.push_back(*itr); }`, cut off after `fuel`
rounds. -/
def collect_backward (T : Traits) (s : List Nat) (first : utf_iterator) :
    Nat → utf_iterator → Option (List Nat)
  | 0, _ => none
  | fuel + 1, it =>
    if it.ne first then do
      let it ← it.pre_decrement T s
      let cp ← it.deref T s
      let r ← collect_backward T s first fuel it
      pure (cp :: r)
    else some []

/-- The sequence `s` holds the units `l` from index `pos` on. -/
def HoldsAt (s : List Nat) (pos : Nat) (l : List Nat) : Prop :=
  ∀ i, i < l.length → deref s (pos + i) = l[i]?

instance (s : List Nat) (pos : Nat) (l : List Nat) : Decidable (HoldsAt s pos l) :=
  inferInstanceAs (Decidable (∀ i, i < l.length → deref s (pos + i) = l[i]?))

/-- What the adapters rely on for one code point `cp` under the traits `T`: how its units are
stored, told apart, and read back. -/
structure Traits.Regular (T : Traits) (cp : Nat) : Prop where
  write_eq : ∀ {σ : Type} (I : OutputItr σ) (pos : σ),
    T.write I pos cp = (T.units cp).foldl I.put pos
  length_eq : (T.units cp).length = T.code_point_size_char32 cp
  lead : ∃ u rest, T.units cp = u :: rest ∧ T.code_point_size u = T.code_point_size_char32 cp ∧
    T.is_initial_code_unit u = true ∧ ∀ r ∈ rest, T.is_initial_code_unit r = false
  read_eq : ∀ s pos, HoldsAt s pos (T.units cp) →
    T.read s pos = some (cp, pos + (T.units cp).length)
  next_eq : ∀ s pos, HoldsAt s pos (T.units cp) →
    T.next s pos = some (pos + (T.units cp).length)

/-! ## Reference definitions of the UTF-8 byte layout -/

/-- A well-formed UTF-8 lead byte: `0xxxxxxx`, `110xxxxx`, `1110xxxx` or `11110xxx`. -/
def well_formed_lead (b : Nat) : Prop :=
  b < 0x80 ∨ (0xC0 ≤ b ∧ b < 0xE0) ∨ (0xE0 ≤ b ∧ b < 0xF0) ∨ (0xF0 ≤ b ∧ b < 0xF8)

instance (b : Nat) : Decidable (well_formed_lead b) :=
  inferInstanceAs (Decidable
    (b < 0x80 ∨ (0xC0 ≤ b ∧ b < 0xE0) ∨ (0xE0 ≤ b ∧ b < 0xF0) ∨ (0xF0 ≤ b ∧ b < 0xF8)))

/-- The payload of a well-formed lead byte: its low 7, 5, 4 or 3 bits. -/
def lead_payload (b : Nat) : Nat :=
  if b < 0x80 then b % 2 ^ 7
  else if b < 0xE0 then b % 2 ^ 5
  else if b < 0xF0 then b % 2 ^ 4
  else b % 2 ^ 3

/-- The reference value of a UTF-8 sequence: the payload bits of the lead byte followed by the
low 6 bits of each following byte, in order. -/
def reference_decode (b0 : Nat) (following : List Nat) : Nat :=
  following.foldl (fun acc b => acc * 2 ^ 6 + b % 2 ^ 6) (lead_payload b0)

/-- The byte `b` has the lead pattern of an `n`-byte sequence:
`0xxxxxxx`, `110xxxxx`, `1110xxxx`, `11110xxx` for `n = 1, 2, 3, 4`. -/
def lead_pattern (n b : Nat) : Prop :=
  b < 0x100 ∧
    ((n = 1 ∧ b &&& 0x80 = 0x00) ∨ (n = 2 ∧ b &&& 0xE0 = 0xC0) ∨
     (n = 3 ∧ b &&& 0xF0 = 0xE0) ∨ (n = 4 ∧ b &&& 0xF8 = 0xF0))

instance (n b : Nat) : Decidable (lead_pattern n b) :=
  inferInstanceAs (Decidable (b < 0x100 ∧
    ((n = 1 ∧ b &&& 0x80 = 0x00) ∨ (n = 2 ∧ b &&& 0xE0 = 0xC0) ∨
     (n = 3 ∧ b &&& 0xF0 = 0xE0) ∨ (n = 4 ∧ b &&& 0xF8 = 0xF0))))

/-- The byte `b` has the continuation form `10xxxxxx`. -/
def continuation_form (b : Nat) : Prop := b < 0x100 ∧ b &&& 0xC0 = 0x80

instance (b : Nat) : Decidable (continuation_form b) :=
  inferInstanceAs (Decidable (b < 0x100 ∧ b &&& 0xC0 = 0x80))

/-! ## Iterator categories -/

/-- The iterator category tags of the standard header `<iterator>`. -/
inductive iterator_tag where
  | input_iterator_tag
  | output_iterator_tag
  | forward_iterator_tag
  | bidirectional_iterator_tag
  | random_access_iterator_tag
  deriving DecidableEq, Repr

/-- The depth of a tag in the inheritance chain `input_iterator_tag`, `forward_iterator_tag`,
`bidirectional_iterator_tag`, `random_access_iterator_tag`; `output_iterator_tag` is in no
chain. -/
def iterator_tag.depth : iterator_tag → Option Nat
  | .input_iterator_tag => some 0
  | .forward_iterator_tag => some 1
  | .bidirectional_iterator_tag => some 2
  | .random_access_iterator_tag => some 3
  | .output_iterator_tag => none

/-- The trait `std::is_base_of<Base, Derived>::value` on the category tags. -/
def is_base_of (base derived : iterator_tag) : Bool :=
  match base.depth, derived.depth with
  | some b, some d => decide (b ≤ d)
  | _, _ => decide (base = derived)

/-- The alias `std::common_type_t<A, B>` on the category tags: the one of the two the other
converts to, and no type at all (a compile error) when neither converts. -/
def common_type (a b : iterator_tag) : Option iterator_tag :=
  if is_base_of a b then some a else if is_base_of b a then some b else none

namespace utf_iterator

/-- The `static_assert` of the class on the category of `Itr`. -/
def static_assert_holds (itr_category : iterator_tag) : Bool :=
  is_base_of .forward_iterator_tag itr_category

/-- The member type `iterator_category`, given the category of `Itr`. -/
def iterator_category (itr_category : iterator_tag) : Option iterator_tag :=
  common_type .bidirectional_iterator_tag itr_category

/-- The `std::enable_if_t` condition on `operator--()` and `operator--(int)`, with the default
`Category = iterator_category`. -/
def decrement_enabled (itr_category : iterator_tag) : Bool :=
  match iterator_category itr_category with
  | some category => is_base_of .bidirectional_iterator_tag category
  | none => false

end utf_iterator

/-! ## Code-point boundaries and cursor movements -/

/-- The position just after the first `k` code points of `L` in the concatenation of their
encodings: the first unit of the code point that follows, or one past the end. -/
def boundary (T : Traits) (L : List Nat) (k : Nat) : Nat :=
  ((L.take k).flatMap T.units).length

/-- The position `p` is a code-point boundary of the encoding of `L`. -/
def is_boundary (T : Traits) (L : List Nat) (p : Nat) : Prop :=
  ∃ k, k ≤ L.length ∧ p = boundary T L k

instance (T : Traits) (L : List Nat) (p : Nat) : Decidable (is_boundary T L p) :=
  decidable_of_iff (∃ k, k < L.length + 1 ∧ p = boundary T L k)
    (exists_congr fun _ => and_congr Nat.lt_succ_iff Iff.rfl)

/-- A movement of the cursor. -/
inductive cursor_op where
  | increment
  | decrement
  deriving DecidableEq, Repr

/-- One movement on the sequence `s`: `++itr` is only done while `itr` is not at the end, and
`--itr` only while `itr` is not at the beginning. -/
def apply_op (T : Traits) (s : List Nat) (it : utf_iterator) : cursor_op → Option utf_iterator
  | .increment => if it.ne { itr := s.length } then it.pre_increment T s else some it
  | .decrement => if it.ne { itr := 0 } then it.pre_decrement T s else some it

/-- A sequence of movements, in order. -/
def apply_ops (T : Traits) (s : List Nat) : List cursor_op → utf_iterator → Option utf_iterator
  | [], it => some it
  | op :: ops, it => (apply_op T s it op).bind (apply_ops T s ops)

/-! ## Statements on iterators and their outcome -/

namespace utf_iterator

/-- The member `operator*` as a statement: the value it returns and the iterator it leaves.
The member is `const` and hands a copy of `_itr` to `Traits::read`. -/
def star (T : Traits) (s : List Nat) (it : utf_iterator) : Option (Nat × utf_iterator) :=
  (T.read s it.itr).map (fun r => (r.1, it))

end utf_iterator

/-- The two variables after `auto copy = itr;`. -/
structure copied where
  itr : utf_iterator
  copy : utf_iterator
  deriving DecidableEq, Repr

namespace copied

/-- The statement `auto copy = itr;`. -/
def make (itr : utf_iterator) : copied := { itr := itr, copy := itr }

/-- The statement `++copy;`. -/
def increment_copy (T : Traits) (s : List Nat) (v : copied) : Option copied :=
  (v.copy.pre_increment T s).map (fun c => { itr := v.itr, copy := c })

/-- The statement `--copy;`. -/
def decrement_copy (T : Traits) (s : List Nat) (v : copied) : Option copied :=
  (v.copy.pre_decrement T s).map (fun c => { itr := v.itr, copy := c })

end copied

/-- How a call ends: it returns a value, or it throws an exception that carries the offending
value. -/
inductive Outcome (α : Type) where
  | returned (value : α)
  | threw (bad_value : Nat)
  deriving DecidableEq, Repr

/-- A call of `Traits::read`. No member of `utf_traits` contains a `throw` expression, so a
call that is defined returns. -/
def Traits.read_call (T : Traits) (s : List Nat) (pos : Nat) : Option (Outcome (Nat × Nat)) :=
  (T.read s pos).map Outcome.returned

/-- A call of `Traits::write`. No member of `utf_traits` contains a `throw` expression, so
the call returns. -/
def Traits.write_call {σ : Type} (T : Traits) (I : OutputItr σ) (pos : σ) (ch : Nat) :
    Outcome σ :=
  Outcome.returned (T.write I pos ch)

/-! ## The traits of an adapter -/

/-- The size in bytes of a character type. -/
def CharTy.sizeof : CharTy → Nat
  | .char => 1
  | .char16_t => 2
  | .char32_t => 4

/-- The template argument `Traits` of `utf_iterator<Itr, Traits>`: the explicit argument when
one is given, else the default `utf_traits<typename std::iterator_traits<Itr>::value_type>`. -/
def utf_iterator.traits_of (value_type : CharTy) (explicit : Option Traits) : Traits :=
  match explicit with
  | some T => T
  | none => utf_traits value_type

/-- An adapter object together with the traits of its type. -/
structure adapter where
  traits : Traits
  base : utf_iterator

namespace adapter

/-- The constructor `utf_iterator(Itr itr)` of `utf_iterator<Itr, Traits>`. -/
def make (value_type : CharTy) (explicit : Option Traits) (itr : Nat) : adapter :=
  { traits := utf_iterator.traits_of value_type explicit, base := { itr := itr } }

/-- One movement of the adapter; `operator++` and `operator--` return `utf_iterator&`, an
object of the same type. -/
def apply (s : List Nat) (a : adapter) (op : cursor_op) : Option adapter :=
  (apply_op a.traits s a.base op).map (fun b => { traits := a.traits, base := b })

/-- A sequence of movements of the adapter, in order. -/
def run (s : List Nat) : List cursor_op → adapter → Option adapter
  | [], a => some a
  | op :: ops, a => (apply s a op).bind (run s ops)

end adapter

/-! ## Byte-swapped units -/

/-- The byte swap of a 16-bit unit as the tests write it: `highByte = ch & 0xFF00`,
`lowByte = ch & 0x00FF`, `static_cast<char16_t>((highByte >> 8) | (lowByte << 8))`. -/
def byte_swap16 (ch : Nat) : Nat :=
  let highByte := ch &&& 0xFF00
  let lowByte := ch &&& 0x00FF
  ((highByte >>> 8) ||| (lowByte <<< 8)) % 2 ^ 16

/-- The byte swap of a 32-bit unit as the tests write it:
`static_cast<char32_t>((byte0 << 24) | (byte1 << 8) | (byte2 >> 8) | (byte3 >> 24))`. -/
def byte_swap32 (ch : Nat) : Nat :=
  let byte0 := ch &&& 0x000000FF
  let byte1 := ch &&& 0x0000FF00
  let byte2 := ch &&& 0x00FF0000
  let byte3 := ch &&& 0xFF000000
  ((((byte0 <<< 24) % 2 ^ 32) ||| ((byte1 <<< 8) % 2 ^ 32) ||| (byte2 >>> 8) |||
    (byte3 >>> 24))) % 2 ^ 32

/-- Modelled from the spec: the output position of a byte-swapped encoding, which is missing
from the sources (only the tests name `utf_16be` and `utf_32be`). A unit composed in host
order has its bytes swapped by `swap` when it is stored. -/
def swapping {σ : Type} (swap : Nat → Nat) (I : OutputItr σ) : OutputItr σ where
  assign := fun pos v => I.assign pos (swap v)
  incr := I.incr

namespace utf_16be

/-- Modelled from the spec: `code_point_size` of the big-endian UTF-16 traits, missing from
the sources: the unit is byte-swapped before interpretation. -/
def code_point_size (ch : Nat) : Nat := utf_traits_char16_t.code_point_size (byte_swap16 ch)

/-- Modelled from the spec: `is_initial_code_unit` of the big-endian UTF-16 traits, missing
from the sources: the unit is byte-swapped before interpretation. -/
def is_initial_code_unit (ch : Nat) : Bool :=
  utf_traits_char16_t.is_initial_code_unit (byte_swap16 ch)

/-- Modelled from the spec: `next` of the big-endian UTF-16 traits, missing from the sources:
move forward by the unit count of the unit at `pos`. -/
def next (s : List Nat) (pos : Nat) : Option Nat := do
  let u ← deref s pos
  advance s pos (code_point_size u)

/-- Modelled from the spec: `read` of the big-endian UTF-16 traits, missing from the sources:
the native decode, with every unit byte-swapped as it is read. -/
def read (s : List Nat) (pos : Nat) : Option (Nat × Nat) := do
  let value ← (deref s pos).map byte_swap16
  if utf_traits_char16_t.code_point_size value = 2 then
    let result := (value &&& 0x03FF) <<< 10
    let pos := pos + 1
    let low ← (deref s pos).map byte_swap16
    let result := result ||| (low &&& 0x03FF)
    let pos := pos + 1
    let result := (result + 0x00010000) % 2 ^ 32
    pure (result, pos)
  else
    let result := value
    let pos := pos + 1
    pure (result, pos)

/-- Modelled from the spec: `write` of the big-endian UTF-16 traits, missing from the
sources: each unit is composed in host order, then stored with its bytes swapped. -/
def write {σ : Type} (I : OutputItr σ) (pos : σ) (ch : Nat) : σ :=
  utf_traits_char16_t.write (swapping byte_swap16 I) pos ch

end utf_16be

namespace utf_32be

/-- Modelled from the spec: `next` of the big-endian UTF-32 traits, missing from the sources:
move forward by one unit. -/
def next (s : List Nat) (pos : Nat) : Option Nat :=
  advance s pos 1

/-- Modelled from the spec: `read` of the big-endian UTF-32 traits, missing from the sources:
the unit is byte-swapped, then passed through. -/
def read (s : List Nat) (pos : Nat) : Option (Nat × Nat) := do
  let result ← (deref s pos).map byte_swap32
  let pos := pos + 1
  pure (result, pos)

/-- Modelled from the spec: `write` of the big-endian UTF-32 traits, missing from the
sources: the unit is stored with its bytes swapped. -/
def write {σ : Type} (I : OutputItr σ) (pos : σ) (ch : Nat) : σ :=
  utf_traits_char32_t.write (swapping byte_swap32 I) pos ch

end utf_32be

/-- Modelled from the spec: the traits of the explicit big-endian UTF-16 encoding, missing
from the sources, on a little-endian host as the tests assume. -/
def utf_16be_traits : Traits where
  max_code_point_size := utf_traits_char16_t.max_code_point_size
  code_point_size := utf_16be.code_point_size
  code_point_size_char32 := utf_traits_char16_t.code_point_size_char32
  is_initial_code_unit := utf_16be.is_initial_code_unit
  next := utf_16be.next
  read := utf_16be.read
  write := utf_16be.write

/-- Modelled from the spec: the traits of the explicit big-endian UTF-32 encoding, missing
from the sources, on a little-endian host as the tests assume. -/
def utf_32be_traits : Traits where
  max_code_point_size := utf_traits_char32_t.max_code_point_size
  code_point_size := utf_traits_char32_t.code_point_size
  code_point_size_char32 := utf_traits_char32_t.code_point_size
  is_initial_code_unit := utf_traits_char32_t.is_initial_code_unit
  next := utf_32be.next
  read := utf_32be.read
  write := utf_32be.write

/-! ## Counting the steps of a backward walk, and comparing unit sequences -/

/-- The loop of `operator--()` with a counter: the position reached and the number of times
`--_itr` was executed. -/
def utf_iterator.retreat_count (T : Traits) (s : List Nat) : Nat → Option (Nat × Nat)
  | 0 => none
  | p + 1 =>
    match dhorn.deref s p with
    | none => none
    | some u =>
      if T.is_initial_code_unit u then some (p, 1)
      else (retreat_count T s p).map (fun r => (r.1, r.2 + 1))

/-- The algorithm `std::lexicographical_compare` with `std::less` on two unit sequences, the
units compared as unsigned values. -/
def lexicographical_compare : List Nat → List Nat → Bool
  | _, [] => false
  | [], _ :: _ => true
  | x :: xs, y :: ys => if x < y then true else if y < x then false
    else lexicographical_compare xs ys

/-! ## `array_reference` (experimental/array_reference.h) -/

/-- The exceptions of the standard library that the experimental headers throw. -/
inductive std_exception where
  | out_of_range
  | invalid_argument
  deriving DecidableEq, Repr

/-- The number of values of `std::size_t`, a type of 64 bits. -/
def size_type_modulus : Nat := 2 ^ 64

/-- The conversion of a signed value to `std::size_t`: reduction modulo `2 ^ 64`. -/
def to_size_type (d : Int) : Nat := (d % (2 : Int) ^ 64).toNat

/-- An `array_reference<Ty>`: the member `_ptr` as the offset of its target in the storage,
counted in elements, and the member `_size`. -/
structure array_reference where
  _ptr : Int
  _size : Nat
  deriving DecidableEq, Repr

namespace array_reference

/-- The member `data()`. -/
def data (r : array_reference) : Int := r._ptr

/-- The member `size()`. -/
def size (r : array_reference) : Nat := r._size

/-- The member `at(pos)` on storage `m`: the outcome of the call, an exception or the element,
and the object after the call. No statement of the body assigns to a member. -/
def at_ {α : Type} (m : Int → α) (r : array_reference) (pos : Nat) :
    Except std_exception α × array_reference :=
  if pos ≥ r._size then (Except.error std_exception.out_of_range, r)
  else (Except.ok (m (r._ptr + pos)), r)

/-- The member `operator+=(delta)`: `none` where the `assert` fails. The subtraction from
`_size` is done in `std::size_t`. -/
def plus_assign (r : array_reference) (delta : Int) : Option array_reference :=
  if delta < 0 ∨ to_size_type delta ≤ r._size then
    some { _ptr := r._ptr + delta, _size := to_size_type (r._size - delta) }
  else none

/-- The member `operator-=(delta)`: `none` where the `assert` fails. The addition to `_size`
is done in `std::size_t`. -/
def minus_assign (r : array_reference) (delta : Int) : Option array_reference :=
  if delta > 0 ∨ to_size_type (-delta) ≤ r._size then
    some { _ptr := r._ptr - delta, _size := to_size_type (r._size + delta) }
  else none

/-- The member `operator++()`. -/
def pre_increment (r : array_reference) : Option array_reference :=
  r.plus_assign 1

/-- The member `operator++(int)`: the copy that is returned and the object after the call. -/
def post_increment (r : array_reference) : Option (array_reference × array_reference) :=
  let copy := r
  r.pre_increment.map (fun r1 => (copy, r1))

/-- The member `operator--()`. -/
def pre_decrement (r : array_reference) : Option array_reference :=
  r.minus_assign 1

/-- The member `operator--(int)`: the copy that is returned and the object after the call. -/
def post_decrement (r : array_reference) : Option (array_reference × array_reference) :=
  let copy := r
  r.pre_decrement.map (fun r1 => (copy, r1))

/-- The member `operator+(delta)`: `+=` on a copy, which is returned. -/
def plus (r : array_reference) (delta : Int) : Option array_reference :=
  let copy := r
  copy.plus_assign delta

/-- The member `operator-(delta)`: `-=` on a copy, which is returned. -/
def minus (r : array_reference) (delta : Int) : Option array_reference :=
  let copy := r
  copy.minus_assign delta

/-- The address one past the last element, `_ptr + _size`, as `end()` computes it. -/
def end_offset (r : array_reference) : Int := r._ptr + r._size

end array_reference

/-! ## `numeric_cast` (experimental/numeric.h) at the integer types -/

/-- An integer type used as `NumericType`: its signedness and its width in bits. -/
structure NumericType where
  is_signed : Bool
  bits : Nat
  deriving DecidableEq, Repr

namespace NumericType

/-- The value `std::numeric_limits<NumericType>::min()`. -/
def min (T : NumericType) : Int :=
  if T.is_signed then -(2 : Int) ^ (T.bits - 1) else 0

/-- The value `std::numeric_limits<NumericType>::max()`. -/
def max (T : NumericType) : Int :=
  if T.is_signed then (2 : Int) ^ (T.bits - 1) - 1 else (2 : Int) ^ T.bits - 1

/-- The type in which an arithmetic expression on operands of the type is evaluated: `int`,
of 32 bits, for a type narrower than `int`. -/
def promoted (T : NumericType) : NumericType :=
  if T.bits < 32 then { is_signed := true, bits := 32 } else T

/-- The conversion of a value to the type, by an assignment or a `static_cast`: reduction
modulo `2 ^ bits` for an unsigned type; for a signed type the value where the type holds it
and `none`, no defined value, elsewhere. -/
def convert (T : NumericType) (x : Int) : Option Int :=
  if T.is_signed then (if T.min ≤ x ∧ x ≤ T.max then some x else none)
  else some (x % (2 : Int) ^ T.bits)

/-- The value of an arithmetic expression on operands of the type whose exact result is `x`:
it is evaluated in the promoted type, where signed overflow is undefined (`none`) and
unsigned arithmetic wraps. -/
def arith (T : NumericType) (x : Int) : Option Int :=
  T.promoted.convert x

end NumericType

/-- The widths of the integer types of the platform: 8, 16, 32 and 64 bits. -/
def NumericType.is_standard (T : NumericType) : Prop :=
  T.bits = 8 ∨ T.bits = 16 ∨ T.bits = 32 ∨ T.bits = 64

instance (T : NumericType) : Decidable T.is_standard :=
  inferInstanceAs (Decidable (T.bits = 8 ∨ T.bits = 16 ∨ T.bits = 32 ∨ T.bits = 64))

/-- The type `intmax_t`, of 64 bits. -/
def intmax_t : NumericType := { is_signed := true, bits := 64 }

namespace details

/-- The character `*str` of a C string held as the list of its characters: the terminator
`0` at the end of the list. -/
def char_at (s : List Nat) (str : Nat) : Nat := s.getD str 0

/-- The function `negate`: `-val` for a signed type, an exception for an unsigned one. -/
def negate (T : NumericType) (val : Int) : Option (Except std_exception Int) :=
  if T.is_signed then ((T.arith (-val)).bind T.convert).map Except.ok
  else some (Except.error std_exception.invalid_argument)

/-- The function `is_digit`: `'0'` is 48 and `'9'` is 57. -/
def is_digit (ch : Nat) : Bool := ch ≥ 48 && ch ≤ 57

/-- The loop of `skip_digits` on the characters from `str` on. -/
def skip_digits_from : List Nat → Nat → Nat
  | [], str => str
  | ch :: rest, str => if is_digit ch then skip_digits_from rest (str + 1) else str

/-- The function `skip_digits`. -/
def skip_digits (s : List Nat) (str : Nat) : Nat :=
  skip_digits_from (s.drop str) str

/-- The function `to_digit<NumericType>`: `static_cast<NumericType>(ch - '0')`. -/
def to_digit (T : NumericType) (ch : Nat) : Option Int :=
  T.convert ((ch : Int) - 48)

/-- The function `is_sign`: `'+'` is 43 and `'-'` is 45. -/
def is_sign (ch : Nat) : Bool := ch == 43 || ch == 45

/-- The function `skip_sign`. -/
def skip_sign (s : List Nat) (str : Nat) : Nat :=
  if is_sign (char_at s str) then str + 1 else str

/-- The function `is_decimal`: `'.'` is 46. -/
def is_decimal (ch : Nat) : Bool := ch == 46

/-- The function `skip_decimal`. -/
def skip_decimal (s : List Nat) (str : Nat) : Nat :=
  if is_decimal (char_at s str) then str + 1 else str

/-- The function `is_exponential`: `'e'` is 101 and `'E'` is 69. -/
def is_exponential (ch : Nat) : Bool := ch == 101 || ch == 69

/-- The loop of `read_integer_value` on the characters from `front` on; `back` is `none` for
`nullptr`. The result is the final `front` and `*value`. -/
def read_integer_value_from (T : NumericType) (back : Option Nat) :
    List Nat → Nat → Int → Option (Nat × Int)
  | [], front, value => some (front, value)
  | ch :: rest, front, value =>
    if some front ≠ back ∧ is_digit ch = true then
      match (T.arith (value * 10)).bind (fun m =>
          (to_digit T ch).bind (fun dg => (T.arith (m + dg)).bind T.convert)) with
      | none => none
      | some v => read_integer_value_from T back rest (front + 1) v
    else some (front, value)

/-- The function `read_integer_value`. -/
def read_integer_value (T : NumericType) (s : List Nat) (front : Nat) (back : Option Nat)
    (value : Int) : Option (Nat × Int) :=
  read_integer_value_from T back (s.drop front) front value

/-- The second loop of `read_fractional_value`, on the number `back - front` of characters
left: the final `*value` and `nonZero`. -/
def read_fractional_loop (T : NumericType) (s : List Nat) (front : Nat) :
    Nat → Int → Bool → Option (Int × Bool)
  | 0, value, nonZero => some (value, nonZero)
  | n + 1, value, nonZero =>
    match (to_digit T (char_at s (front + n))).bind (fun dg =>
        (T.arith (value + dg)).bind (fun x => (T.arith (x.tdiv 10)).bind T.convert)) with
    | none => none
    | some v => read_fractional_loop T s front n v (nonZero || char_at s (front + n) != 48)

/-- The function `read_fractional_value`: the final `*value` and `*isNonZero`. -/
def read_fractional_value (T : NumericType) (s : List Nat) (front : Nat) (back : Option Nat)
    (value : Int) (isNonZero : Bool) : Option (Int × Bool) :=
  let back1 := match back with
    | none => skip_digits s front
    | some b => b
  (read_fractional_loop T s front (back1 - front) value false).map
    (fun r => (r.1, isNonZero || r.2))

end details

/-- The locals of `numeric_cast` that its last statements use. -/
structure numeric_cast_locals where
  integer_part : Int
  fractional_part : Int
  fractionNonZero : Bool
  deriving DecidableEq, Repr

/-- The exponent that `numeric_cast` reads at `str`, as an `intmax_t`: 0 where no `e` or `E`
stands there. -/
def numeric_cast_exponent (s : List Nat) (str : Nat) : Option Int :=
  if details.is_exponential (details.char_at s str) then
    let str1 := str + 1
    let isExponentNegative := details.char_at s str1 == 45
    let str2 := details.skip_sign s str1
    match details.read_integer_value intmax_t s str2 none 0 with
    | none => none
    | some r =>
      if isExponentNegative then (intmax_t.arith (-r.2)).bind intmax_t.convert
      else some r.2
  else some 0

/-- The function `numeric_cast<NumericType>` up to the computation of `result`: the values of
`integer_part`, `fractional_part` and `fractionNonZero`. The pointers are offsets into the
string; `pow power` stands for `static_cast<NumericType>(std::pow(static_cast<NumericType>(10),
power))` of the platform, `none` where that conversion has no defined value. -/
def numeric_cast_parts (T : NumericType) (pow : Nat → Option Int) (s : List Nat) :
    Option numeric_cast_locals :=
  let integer_start := details.skip_sign s 0
  let integer_end := details.skip_digits s integer_start
  let fraction_start := details.skip_decimal s integer_end
  let fraction_end := details.skip_digits s fraction_start
  match numeric_cast_exponent s fraction_end with
  | none => none
  | some exponent =>
    if exponent ≥ 0 then
      match details.read_integer_value T s integer_start (some integer_end) 0 with
      | none => none
      | some r1 =>
        let fraction_shift := fraction_start + exponent.toNat
        if fraction_shift > fraction_end then
          match details.read_integer_value T s fraction_start (some fraction_end) r1.2 with
          | none => none
          | some r2 =>
            let power := fraction_shift - fraction_end
            match pow power with
            | none => none
            | some p =>
              ((T.arith (r2.2 * p)).bind T.convert).map (fun v =>
                { integer_part := v, fractional_part := 0, fractionNonZero := false })
        else
          match details.read_integer_value T s fraction_start (some fraction_shift) r1.2 with
          | none => none
          | some r2 =>
            (details.read_fractional_value T s fraction_shift (some fraction_end) 0 false).map
              (fun f => { integer_part := r2.2, fractional_part := f.1, fractionNonZero := f.2 })
    else
      match details.read_fractional_value T s fraction_start (some fraction_end) 0 false with
      | none => none
      | some f1 =>
        let shift := (-exponent).toNat
        if integer_start + shift > integer_end then
          match details.read_fractional_value T s integer_start (some integer_end) f1.1 f1.2 with
          | none => none
          | some f2 =>
            let power := integer_start + shift - integer_end
            match pow power with
            | none => none
            | some p =>
              if p = 0 then none
              else ((T.arith (f2.1.tdiv p)).bind T.convert).map (fun v =>
                { integer_part := 0, fractional_part := v, fractionNonZero := f2.2 })
        else
          let integer_shift := integer_end - shift
          match details.read_integer_value T s integer_start (some integer_shift) 0 with
          | none => none
          | some r1 =>
            (details.read_fractional_value T s integer_shift (some integer_end) f1.1 f1.2).map
              (fun f => { integer_part := r1.2, fractional_part := f.1, fractionNonZero := f.2 })

/-- The function `numeric_cast<NumericType>(str)` at an integer type: `none` where the
behaviour is undefined, an exception, or the value returned. -/
def numeric_cast (T : NumericType) (pow : Nat → Option Int) (s : List Nat) :
    Option (Except std_exception Int) :=
  match numeric_cast_parts T pow s with
  | none => none
  | some v =>
    match (T.arith (v.integer_part + v.fractional_part)).bind T.convert with
    | none => none
    | some result =>
      if details.char_at s 0 == 45 && (v.integer_part != 0 || v.fractionNonZero) then
        details.negate T result
      else some (Except.ok result)

/-- The decimal value of a sequence of digit characters, the leftmost the most significant. -/
def decimal_value (digits : List Nat) : Nat :=
  digits.foldl (fun acc ch => acc * 10 + (ch - 48)) 0

/-! ## Bitwise arithmetic -/

namespace Bits

theorem and_shiftLeft_mask (x m j : Nat) : x &&& (m <<< j) = ((x >>> j) &&& m) <<< j := by
  apply Nat.eq_of_testBit_eq
  intro i
  simp only [Nat.testBit_and, Nat.testBit_shiftLeft, Nat.testBit_shiftRight]
  by_cases h : j ≤ i
  · have e : j + (i - j) = i := by omega
    simp [h, e]
  · simp [h]

theorem and_field (x j k : Nat) : x &&& ((2 ^ k - 1) <<< j) = (x / 2 ^ j % 2 ^ k) * 2 ^ j := by
  rw [and_shiftLeft_mask, Nat.and_pow_two_sub_one_eq_mod, Nat.shiftRight_eq_div_pow,
    Nat.shiftLeft_eq]

theorem or_field (p j a : Nat) (h : a < 2 ^ j) : (p * 2 ^ j) ||| a = p * 2 ^ j + a := by
  rw [Nat.mul_comm, Nat.mul_add_lt_is_or h]

theorem and_0x80 (x : Nat) : x &&& 0x80 = (x / 128 % 2) * 128 := and_field x 7 1
theorem and_0xC0 (x : Nat) : x &&& 0xC0 = (x / 64 % 4) * 64 := and_field x 6 2
theorem and_0xE0 (x : Nat) : x &&& 0xE0 = (x / 32 % 8) * 32 := and_field x 5 3
theorem and_0xF0 (x : Nat) : x &&& 0xF0 = (x / 16 % 16) * 16 := and_field x 4 4
theorem and_0xF8 (x : Nat) : x &&& 0xF8 = (x / 8 % 32) * 8 := and_field x 3 5
theorem and_0xF800 (x : Nat) : x &&& 0xF800 = (x / 2048 % 32) * 2048 := and_field x 11 5
theorem and_0xFC00 (x : Nat) : x &&& 0xFC00 = (x / 1024 % 64) * 1024 := and_field x 10 6
theorem and_0x07 (x : Nat) : x &&& 0x07 = x % 8 := Nat.and_pow_two_sub_one_eq_mod x 3
theorem and_0x0F (x : Nat) : x &&& 0x0F = x % 16 := Nat.and_pow_two_sub_one_eq_mod x 4
theorem and_0x1F (x : Nat) : x &&& 0x1F = x % 32 := Nat.and_pow_two_sub_one_eq_mod x 5
theorem and_0x3F (x : Nat) : x &&& 0x3F = x % 64 := Nat.and_pow_two_sub_one_eq_mod x 6
theorem and_0x7F (x : Nat) : x &&& 0x7F = x % 128 := Nat.and_pow_two_sub_one_eq_mod x 7
theorem and_0x3FF (x : Nat) : x &&& 0x03FF = x % 1024 := Nat.and_pow_two_sub_one_eq_mod x 10

theorem or_0x80 (a : Nat) (h : a < 64) : a ||| 0x80 = a + 128 := by
  rw [Nat.or_comm]; exact (or_field 2 6 a h).trans (Nat.add_comm _ _)
theorem or_0xC0 (a : Nat) (h : a < 32) : a ||| 0xC0 = a + 192 := by
  rw [Nat.or_comm]; exact (or_field 6 5 a h).trans (Nat.add_comm _ _)
theorem or_0xE0 (a : Nat) (h : a < 16) : a ||| 0xE0 = a + 224 := by
  rw [Nat.or_comm]; exact (or_field 14 4 a h).trans (Nat.add_comm _ _)
theorem or_0xF0 (a : Nat) (h : a < 8) : a ||| 0xF0 = a + 240 := by
  rw [Nat.or_comm]; exact (or_field 30 3 a h).trans (Nat.add_comm _ _)
theorem or_0xD800 (a : Nat) (h : a < 1024) : 0xD800 ||| a = 0xD800 + a := or_field 54 10 a h
theorem or_0xDC00 (a : Nat) (h : a < 1024) : 0xDC00 ||| a = 0xDC00 + a := or_field 55 10 a h
theorem shl6_or (r b : Nat) (h : b < 64) : (r <<< 6) ||| b = r * 64 + b := by
  rw [Nat.shiftLeft_eq]; exact or_field r 6 b h
theorem shl10_or (r b : Nat) (h : b < 1024) : (r <<< 10) ||| b = r * 1024 + b := by
  rw [Nat.shiftLeft_eq]; exact or_field r 10 b h

end Bits

open Bits

/-! ## Sequences and memory -/

theorem holdsAt_append (pre l suf : List Nat) : HoldsAt (pre ++ l ++ suf) pre.length l := by
  intro i hi
  simp only [deref]
  rw [List.append_assoc, List.getElem?_append_right (by omega)]
  simp [List.getElem?_append_left hi]

theorem HoldsAt.get {s : List Nat} {pos : Nat} {l : List Nat} (h : HoldsAt s pos l) (i : Nat)
    {u : Nat} (hu : l[i]? = some u) : deref s (pos + i) = some u := by
  have hi : i < l.length := by
    by_contra hc
    rw [List.getElem?_eq_none (by omega)] at hu
    cases hu
  rw [h i hi, hu]

theorem foldl_put_back (l s : List Nat) : l.foldl back_inserter.put s = s ++ l := by
  induction l generalizing s with
  | nil => simp
  | cons u t ih =>
    rw [List.foldl_cons, ih]
    simp [OutputItr.put, back_inserter]

theorem foldl_put_raw (l : List Nat) (m : Mem) (p : Nat) :
    l.foldl raw_pointer.put (m, p) =
      (fun a => if p ≤ a ∧ a < p + l.length then l.getD (a - p) 0 else m a, p + l.length) := by
  induction l generalizing m p with
  | nil =>
    refine Prod.ext ?_ rfl
    funext a
    simp only [List.foldl_nil, List.length_nil]
    rw [if_neg (by omega)]
  | cons u t ih =>
    rw [List.foldl_cons]
    have := ih (Function.update m p u) (p + 1)
    simp only [OutputItr.put, raw_pointer] at this
    simp only [OutputItr.put, raw_pointer]
    rw [this]
    refine Prod.ext ?_ ?_
    · funext a
      simp only [List.length_cons]
      by_cases h1 : p + 1 ≤ a
      · by_cases h2 : a < p + 1 + t.length
        · have e : a - p = (a - (p + 1)) + 1 := by omega
          rw [if_pos ⟨h1, h2⟩, if_pos ⟨by omega, by omega⟩, e, List.getD_cons_succ]
        · rw [if_neg (by omega), if_neg (by omega), Function.update_noteq (by omega)]
      · rw [if_neg (by omega)]
        by_cases h3 : a = p
        · subst h3
          rw [if_pos ⟨by omega, by omega⟩]
          simp
        · rw [if_neg (by omega), Function.update_noteq h3]
    · simp only [List.length_cons]; omega

theorem holdsAt_raw (l : List Nat) (m : Mem) (p n : Nat) (hn : p + l.length ≤ n) :
    HoldsAt ((l.foldl raw_pointer.put (m, p)).1.view n) p l := by
  intro i hi
  rw [foldl_put_raw]
  simp only [deref, Mem.view]
  rw [List.getElem?_map, List.getElem?_range (by omega)]
  simp only [Option.map_some']
  rw [if_pos ⟨by omega, by omega⟩, List.getElem?_eq_getElem hi]
  congr 1
  rw [show p + i - p = i by omega, List.getD_eq_getElem _ _ hi]

/-! ## `utf_traits<char>` -/

namespace utf_traits_char

theorem size_char32_cases (ch : Nat) :
    (ch ≤ 0x7F ∧ code_point_size_char32 ch = 1) ∨
    (0x7F < ch ∧ ch ≤ 0x7FF ∧ code_point_size_char32 ch = 2) ∨
    (0x7FF < ch ∧ ch ≤ 0xFFFF ∧ code_point_size_char32 ch = 3) ∨
    (0xFFFF < ch ∧ code_point_size_char32 ch = 4) := by
  unfold code_point_size_char32
  split_ifs <;> omega

theorem write_eq_foldl {σ : Type} (I : OutputItr σ) (pos : σ) (ch : Nat) :
    write I pos ch = (write back_inserter [] ch).foldl I.put pos := by
  rcases size_char32_cases ch with h | h | h | h
  · simp [write, h.2, write_unit, back_inserter, OutputItr.put]
  · simp [write, h.2.2, write_unit, back_inserter, OutputItr.put]
  · simp [write, h.2.2, write_unit, back_inserter, OutputItr.put]
  · simp [write, h.2, write_unit, back_inserter, OutputItr.put]

theorem units_1 {ch : Nat} (h : ch ≤ 0x7F) : write back_inserter [] ch = [ch] := by
  have hs : code_point_size_char32 ch = 1 := by
    rcases size_char32_cases ch with h | h | h | h <;> omega
  simp [write, hs, write_unit, back_inserter, OutputItr.put, prefixes, masks, and_0x7F]
  omega

theorem units_2 {ch : Nat} (h1 : 0x7F < ch) (h2 : ch ≤ 0x7FF) :
    write back_inserter [] ch = [192 + ch / 64, 128 + ch % 64] := by
  have hs : code_point_size_char32 ch = 2 := by
    rcases size_char32_cases ch with h | h | h | h <;> omega
  simp only [write, hs, write_unit, back_inserter, OutputItr.put, prefixes, masks,
    Nat.shiftRight_eq_div_pow]
  simp [and_0x1F, and_0x3F]
  rw [or_0xC0 _ (by omega), or_0x80 _ (by omega)]
  omega

theorem units_3 {ch : Nat} (h1 : 0x7FF < ch) (h2 : ch ≤ 0xFFFF) :
    write back_inserter [] ch = [224 + ch / 4096, 128 + ch / 64 % 64, 128 + ch % 64] := by
  have hs : code_point_size_char32 ch = 3 := by
    rcases size_char32_cases ch with h | h | h | h <;> omega
  simp only [write, hs, write_unit, back_inserter, OutputItr.put, prefixes, masks,
    Nat.shiftRight_eq_div_pow]
  simp [and_0x0F, and_0x3F]
  rw [or_0xE0 _ (by omega), or_0x80 _ (by omega), or_0x80 _ (by omega)]
  omega

theorem units_4 {ch : Nat} (h1 : 0xFFFF < ch) :
    write back_inserter [] ch =
      [240 + ch / 262144 % 8, 128 + ch / 4096 % 64, 128 + ch / 64 % 64, 128 + ch % 64] := by
  have hs : code_point_size_char32 ch = 4 := by
    rcases size_char32_cases ch with h | h | h | h <;> omega
  simp only [write, hs, write_unit, back_inserter, OutputItr.put, prefixes, masks,
    Nat.shiftRight_eq_div_pow]
  simp [and_0x07, and_0x3F]
  rw [or_0xF0 _ (by omega), or_0x80 _ (by omega), or_0x80 _ (by omega), or_0x80 _ (by omega)]
  omega

theorem units_length (ch : Nat) :
    (write back_inserter [] ch).length = code_point_size_char32 ch := by
  rcases size_char32_cases ch with h | h | h | h
  · rw [units_1 h.1, h.2]; rfl
  · rw [units_2 h.1 h.2.1, h.2.2]; rfl
  · rw [units_3 h.1 h.2.1, h.2.2]; rfl
  · rw [units_4 h.1, h.2]; rfl

theorem code_point_size_eq (b : Nat) :
    code_point_size b =
      if b / 128 % 2 = 0 then 1 else if b / 32 % 8 = 6 then 2
      else if b / 16 % 16 = 14 then 3 else 4 := by
  unfold code_point_size
  rw [and_0x80, and_0xE0, and_0xF0]
  split_ifs <;> omega

theorem is_initial_code_unit_eq (b : Nat) :
    is_initial_code_unit b = decide (b / 64 % 4 ≠ 2) := by
  unfold is_initial_code_unit
  rw [and_0xC0, Bool.eq_iff_iff]
  simp only [bne_iff_ne, ne_eq, decide_eq_true_eq]
  omega

theorem read_unit_eq {s : List Nat} {r p u : Nat} (hu : deref s p = some u) (hr : r < 2 ^ 26) :
    read_unit s (r, p) = some (r * 64 + u % 64, p + 1) := by
  have h1 : (r <<< 6) % 2 ^ 32 = r <<< 6 := by
    apply Nat.mod_eq_of_lt
    rw [Nat.shiftLeft_eq]
    omega
  simp only [read_unit, hu, and_0x3F, Option.bind_eq_bind, Option.some_bind, h1]
  rw [shl6_or _ _ (by omega)]
  rfl

theorem read_size1 {s : List Nat} {pos b0 : Nat} (h0 : deref s pos = some b0)
    (hs : code_point_size b0 = 1) : read s pos = some (b0 % 128, pos + 1) := by
  simp [read, h0, hs, and_0x7F]

theorem read_size2 {s : List Nat} {pos b0 b1 : Nat} (h0 : deref s pos = some b0)
    (h1 : deref s (pos + 1) = some b1) (hs : code_point_size b0 = 2) :
    read s pos = some (b0 % 64 * 64 + b1 % 64, pos + 2) := by
  have e : (0xFF : Nat) >>> 2 = 2 ^ 6 - 1 := by decide
  simp only [read, h0, hs, e, Nat.and_pow_two_sub_one_eq_mod, Option.bind_eq_bind,
    Option.some_bind]
  rw [read_unit_eq h1 (by omega)]

theorem read_size3 {s : List Nat} {pos b0 b1 b2 : Nat} (h0 : deref s pos = some b0)
    (h1 : deref s (pos + 1) = some b1) (h2 : deref s (pos + 2) = some b2)
    (hs : code_point_size b0 = 3) :
    read s pos = some ((b0 % 32 * 64 + b1 % 64) * 64 + b2 % 64, pos + 3) := by
  have e : (0xFF : Nat) >>> 3 = 2 ^ 5 - 1 := by decide
  simp only [read, h0, hs, e, Nat.and_pow_two_sub_one_eq_mod, Option.bind_eq_bind,
    Option.some_bind]
  rw [read_unit_eq h1 (by omega), Option.some_bind, read_unit_eq h2 (by omega)]

theorem read_size4 {s : List Nat} {pos b0 b1 b2 b3 : Nat} (h0 : deref s pos = some b0)
    (h1 : deref s (pos + 1) = some b1) (h2 : deref s (pos + 2) = some b2)
    (h3 : deref s (pos + 3) = some b3) (hs : code_point_size b0 = 4) :
    read s pos = some (((b0 % 16 * 64 + b1 % 64) * 64 + b2 % 64) * 64 + b3 % 64, pos + 4) := by
  have e : (0xFF : Nat) >>> 4 = 2 ^ 4 - 1 := by decide
  simp only [read, h0, hs, e, Nat.and_pow_two_sub_one_eq_mod, Option.bind_eq_bind,
    Option.some_bind]
  rw [read_unit_eq h1 (by omega), Option.some_bind, read_unit_eq h2 (by omega),
    Option.some_bind, read_unit_eq h3 (by omega)]

theorem read_units {s : List Nat} {pos cp : Nat}
    (h : HoldsAt s pos (write back_inserter [] cp)) (hcp : cp ≤ 0x1FFFFF) :
    read s pos = some (cp, pos + code_point_size_char32 cp) := by
  rcases size_char32_cases cp with c | c | c | c
  · rw [units_1 c.1] at h
    have h0 : deref s pos = some cp := h.get 0 rfl
    rw [read_size1 h0 (by rw [code_point_size_eq]; split_ifs <;> omega), c.2]
    congr 2
    omega
  · rw [units_2 c.1 c.2.1] at h
    have h0 : deref s pos = some (192 + cp / 64) := h.get 0 rfl
    have h1 : deref s (pos + 1) = some (128 + cp % 64) := h.get 1 rfl
    rw [read_size2 h0 h1 (by rw [code_point_size_eq]; split_ifs <;> omega), c.2.2]
    congr 2
    omega
  · rw [units_3 c.1 c.2.1] at h
    have h0 : deref s pos = some (224 + cp / 4096) := h.get 0 rfl
    have h1 : deref s (pos + 1) = some (128 + cp / 64 % 64) := h.get 1 rfl
    have h2 : deref s (pos + 2) = some (128 + cp % 64) := h.get 2 rfl
    rw [read_size3 h0 h1 h2 (by rw [code_point_size_eq]; split_ifs <;> omega), c.2.2]
    congr 2
    omega
  · rw [units_4 c.1] at h
    have h0 : deref s pos = some (240 + cp / 262144 % 8) := h.get 0 rfl
    have h1 : deref s (pos + 1) = some (128 + cp / 4096 % 64) := h.get 1 rfl
    have h2 : deref s (pos + 2) = some (128 + cp / 64 % 64) := h.get 2 rfl
    have h3 : deref s (pos + 3) = some (128 + cp % 64) := h.get 3 rfl
    rw [read_size4 h0 h1 h2 h3 (by rw [code_point_size_eq]; split_ifs <;> omega), c.2]
    congr 2
    omega

/-- The first unit `write` stores has the size class of the code point. -/
theorem size_first_unit {cp : Nat} (hcp : cp ≤ 0x1FFFFF) :
    ∃ u rest, write back_inserter [] cp = u :: rest ∧
      code_point_size u = code_point_size_char32 cp ∧
      is_initial_code_unit u = true ∧ ∀ r ∈ rest, is_initial_code_unit r = false := by
  rcases size_char32_cases cp with c | c | c | c
  · refine ⟨_, _, units_1 c.1, ?_, ?_, ?_⟩
    · rw [code_point_size_eq, c.2]; split_ifs <;> omega
    · rw [is_initial_code_unit_eq]; simp; omega
    · simp
  · refine ⟨_, _, units_2 c.1 c.2.1, ?_, ?_, ?_⟩
    · rw [code_point_size_eq, c.2.2]; split_ifs <;> omega
    · rw [is_initial_code_unit_eq]; simp; omega
    · simp [is_initial_code_unit_eq]; omega
  · refine ⟨_, _, units_3 c.1 c.2.1, ?_, ?_, ?_⟩
    · rw [code_point_size_eq, c.2.2]; split_ifs <;> omega
    · rw [is_initial_code_unit_eq]; simp; omega
    · simp [is_initial_code_unit_eq]; omega
  · refine ⟨_, _, units_4 c.1, ?_, ?_, ?_⟩
    · rw [code_point_size_eq, c.2]; split_ifs <;> omega
    · rw [is_initial_code_unit_eq]; simp; omega
    · simp [is_initial_code_unit_eq]; omega

end utf_traits_char

/-! ## `utf_traits<char16_t>` -/

namespace utf_traits_char16_t

theorem code_point_size_eq_u16 (u : Nat) :
    code_point_size u = if u / 2048 % 32 = 27 then 2 else 1 := by
  unfold code_point_size
  rw [and_0xF800]
  split_ifs <;> omega

theorem is_initial_code_unit_eq_u16 (u : Nat) :
    is_initial_code_unit u = decide (u / 1024 % 64 ≠ 55) := by
  unfold is_initial_code_unit
  rw [and_0xFC00, Bool.eq_iff_iff]
  simp only [bne_iff_ne, ne_eq, decide_eq_true_eq]
  omega

theorem write_eq_foldl_u16 {σ : Type} (I : OutputItr σ) (pos : σ) (ch : Nat) :
    write I pos ch = (write back_inserter [] ch).foldl I.put pos := by
  unfold write
  split_ifs <;> simp [back_inserter, OutputItr.put]

theorem units_1_u16 {ch : Nat} (h : ch ≤ 0xFFFF) : write back_inserter [] ch = [ch] := by
  have hs : code_point_size_char32 ch = 1 := by simp [code_point_size_char32, h]
  simp only [write, hs, if_true, back_inserter, OutputItr.put, List.nil_append]
  congr 1
  omega

theorem units_2_u16 {ch : Nat} (h1 : 0xFFFF < ch) (h2 : ch < 2 ^ 32) :
    write back_inserter [] ch =
      [0xD800 + (ch - 0x10000) / 1024 % 1024, 0xDC00 + (ch - 0x10000) % 1024] := by
  have hs : code_point_size_char32 ch = 2 := by
    unfold code_point_size_char32; rw [if_neg (by omega)]
  have e : (ch + 2 ^ 32 - 0x10000) % 2 ^ 32 = ch - 0x10000 := by omega
  simp only [write, hs, e, back_inserter, OutputItr.put, Nat.shiftRight_eq_div_pow, and_0x3FF]
  rw [or_0xD800 _ (by omega), or_0xDC00 _ (by omega)]
  simp
  omega

theorem units_length_u16 (ch : Nat) :
    (write back_inserter [] ch).length = code_point_size_char32 ch := by
  unfold write code_point_size_char32
  split_ifs <;> simp_all [back_inserter, OutputItr.put]

theorem read_single_u16 {s : List Nat} {pos u : Nat} (h0 : deref s pos = some u)
    (hs : code_point_size u = 1) : read s pos = some (u, pos + 1) := by
  simp [read, h0, hs]

theorem read_pair_u16 {s : List Nat} {pos hi lo : Nat} (h0 : deref s pos = some hi)
    (h1 : deref s (pos + 1) = some lo) (hs : code_point_size hi = 2) :
    read s pos = some (0x10000 + (hi % 1024 * 1024 + lo % 1024), pos + 2) := by
  simp only [read, h0, hs, h1, if_true, and_0x3FF, Option.bind_eq_bind, Option.some_bind]
  rw [shl10_or _ _ (by omega), Nat.mod_eq_of_lt (by omega), Nat.add_comm]
  rfl

theorem read_units_u16 {s : List Nat} {pos cp : Nat}
    (h : HoldsAt s pos (write back_inserter [] cp)) (hcp : valid_code_point cp) :
    read s pos = some (cp, pos + code_point_size_char32 cp) := by
  obtain ⟨hle, hns⟩ := hcp
  by_cases c : cp ≤ 0xFFFF
  · rw [units_1_u16 c] at h
    have h0 : deref s pos = some cp := h.get 0 rfl
    have hs : code_point_size_char32 cp = 1 := by simp [code_point_size_char32, c]
    rw [read_single_u16 h0 (by rw [code_point_size_eq_u16]; split_ifs <;> omega), hs]
  · rw [units_2_u16 (by omega) (by omega)] at h
    have h0 : deref s pos = some (0xD800 + (cp - 0x10000) / 1024 % 1024) := h.get 0 rfl
    have h1 : deref s (pos + 1) = some (0xDC00 + (cp - 0x10000) % 1024) := h.get 1 rfl
    have hs : code_point_size_char32 cp = 2 := by
      unfold code_point_size_char32; rw [if_neg c]
    rw [read_pair_u16 h0 h1 (by rw [code_point_size_eq_u16]; split_ifs <;> omega), hs]
    simp only [Option.some.injEq, Prod.mk.injEq, and_true]
    omega

theorem size_first_unit_u16 {cp : Nat} (hcp : valid_code_point cp) :
    ∃ u rest, write back_inserter [] cp = u :: rest ∧
      code_point_size u = code_point_size_char32 cp ∧
      is_initial_code_unit u = true ∧ ∀ r ∈ rest, is_initial_code_unit r = false := by
  obtain ⟨hle, hns⟩ := hcp
  by_cases c : cp ≤ 0xFFFF
  · have hs : code_point_size_char32 cp = 1 := by simp [code_point_size_char32, c]
    refine ⟨_, _, units_1_u16 c, ?_, ?_, ?_⟩
    · rw [code_point_size_eq_u16, hs]; split_ifs <;> omega
    · rw [is_initial_code_unit_eq_u16]; simp; omega
    · simp
  · have hs : code_point_size_char32 cp = 2 := by
      unfold code_point_size_char32; rw [if_neg c]
    refine ⟨_, _, units_2_u16 (by omega) (by omega), ?_, ?_, ?_⟩
    · rw [code_point_size_eq_u16, hs]; split_ifs <;> omega
    · rw [is_initial_code_unit_eq_u16]; simp; omega
    · simp [is_initial_code_unit_eq_u16]; omega

end utf_traits_char16_t

/-! ## `utf_traits<char32_t>` -/

namespace utf_traits_char32_t

theorem write_eq_foldl_u32 {σ : Type} (I : OutputItr σ) (pos : σ) (ch : Nat) :
    write I pos ch = (write back_inserter [] ch).foldl I.put pos := by
  simp [write, back_inserter, OutputItr.put]

theorem units_1_u32 (ch : Nat) : write back_inserter [] ch = [ch] := by
  simp [write, back_inserter, OutputItr.put]

theorem read_single_u32 {s : List Nat} {pos u : Nat} (h0 : deref s pos = some u) :
    read s pos = some (u, pos + 1) := by
  simp [read, h0]

end utf_traits_char32_t

/-! ## Valid code points under the three specialisations -/

theorem HoldsAt.bound {s : List Nat} {pos : Nat} {l : List Nat} (h : HoldsAt s pos l) :
    l ≠ [] → pos + l.length ≤ s.length := by
  intro hne
  have hpos : 0 < l.length := List.length_pos.mpr hne
  have h1 := h (l.length - 1) (by omega)
  rw [List.getElem?_eq_getElem (by omega)] at h1
  simp only [deref] at h1
  have := (List.getElem?_eq_some_iff.mp h1).1
  omega

theorem holdsAt_mid (pre l suf : List Nat) (pos : Nat) (hp : pos = pre.length) :
    HoldsAt (pre ++ (l ++ suf)) pos l := by
  subst hp
  rw [← List.append_assoc]
  exact holdsAt_append pre l suf

theorem next_of_lead {s : List Nat} {pos u n : Nat} {rest : List Nat}
    (h : HoldsAt s pos (u :: rest)) (hn : n = (u :: rest).length) :
    deref s pos = some u ∧ advance s pos n = some (pos + n) := by
  have hb := h.bound (by simp)
  refine ⟨h.get 0 (by simp), ?_⟩
  unfold advance
  rw [if_pos (by omega)]

theorem regular_of_valid (c : CharTy) {cp : Nat} (h : valid_code_point cp) :
    (utf_traits c).Regular cp := by
  have hle : cp ≤ 0x1FFFFF := by have := h.1; omega
  cases c with
  | char =>
    obtain ⟨u, rest, hu, hsz, hi, hr⟩ := utf_traits_char.size_first_unit hle
    have hlen := utf_traits_char.units_length cp
    refine ⟨fun I pos => utf_traits_char.write_eq_foldl I pos cp, hlen, ⟨u, rest, hu, hsz, hi, hr⟩, ?_, ?_⟩
    · intro s pos hs
      show utf_traits_char.read s pos = _
      rw [utf_traits_char.read_units hs hle, ← hlen]
      rfl
    · intro s pos hs
      show utf_traits_char.next s pos = _
      have hs1 : HoldsAt s pos (u :: rest) := hu ▸ hs
      have hn : utf_traits_char.code_point_size u = (u :: rest).length := by
        rw [hsz, ← hlen, hu]
      obtain ⟨h0, h1⟩ := next_of_lead hs1 hn
      simp only [utf_traits_char.next, h0, Option.bind_eq_bind, Option.some_bind, h1]
      rw [hn, ← hu]
      rfl
  | char16_t =>
    obtain ⟨u, rest, hu, hsz, hi, hr⟩ := utf_traits_char16_t.size_first_unit_u16 h
    have hlen := utf_traits_char16_t.units_length_u16 cp
    refine ⟨fun I pos => utf_traits_char16_t.write_eq_foldl_u16 I pos cp, hlen, ⟨u, rest, hu, hsz, hi, hr⟩,
      ?_, ?_⟩
    · intro s pos hs
      show utf_traits_char16_t.read s pos = _
      rw [utf_traits_char16_t.read_units_u16 hs h, ← hlen]
      rfl
    · intro s pos hs
      show utf_traits_char16_t.next s pos = _
      have hs1 : HoldsAt s pos (u :: rest) := hu ▸ hs
      have hn : utf_traits_char16_t.code_point_size u = (u :: rest).length := by
        rw [hsz, ← hlen, hu]
      obtain ⟨h0, h1⟩ := next_of_lead hs1 hn
      simp only [utf_traits_char16_t.next, h0, Option.bind_eq_bind, Option.some_bind, h1]
      rw [hn, ← hu]
      rfl
  | char32_t =>
    have hu : (utf_traits .char32_t).units cp = [cp] := utf_traits_char32_t.units_1_u32 cp
    refine ⟨fun I pos => utf_traits_char32_t.write_eq_foldl_u32 I pos cp, ?_, ⟨cp, [], hu, rfl, rfl, ?_⟩,
      ?_, ?_⟩
    · rw [hu]; rfl
    · simp
    · intro s pos hs
      rw [hu] at hs ⊢
      exact utf_traits_char32_t.read_single_u32 (hs.get 0 rfl)
    · intro s pos hs
      rw [hu] at hs ⊢
      exact (next_of_lead hs rfl).2

/-! ## Sequences of code points -/

theorem output_all_back (T : Traits) (L : List Nat) (h : ∀ cp ∈ L, T.Regular cp)
    (s : List Nat) :
    (output_all T back_inserter { itr := s } L).itr = s ++ L.flatMap T.units := by
  induction L generalizing s with
  | nil => simp [output_all]
  | cons cp t ih =>
    have hcp := h cp (List.mem_cons_self _ _)
    have e : output_all T back_inserter { itr := s } (cp :: t) =
        output_all T back_inserter { itr := T.write back_inserter s cp } t := rfl
    rw [e, ih (fun x hx => h x (List.mem_cons_of_mem _ hx)), hcp.write_eq, foldl_put_back,
      List.flatMap_cons, List.append_assoc]

theorem units_length_pos {T : Traits} {cp : Nat} (h : T.Regular cp) :
    0 < (T.units cp).length := by
  obtain ⟨u, rest, hu, -⟩ := h.lead
  rw [hu]; simp

theorem length_le_flatMap (T : Traits) (L : List Nat) (h : ∀ cp ∈ L, T.Regular cp) :
    L.length ≤ (L.flatMap T.units).length := by
  induction L with
  | nil => simp
  | cons cp t ih =>
    have := units_length_pos (h cp (List.mem_cons_self _ _))
    have := ih (fun x hx => h x (List.mem_cons_of_mem _ hx))
    simp only [List.flatMap_cons, List.length_append, List.length_cons]
    omega

theorem deref_next_at (T : Traits) {cp : Nat} (h : T.Regular cp) (pre suf : List Nat) :
    utf_iterator.deref T (pre ++ (T.units cp ++ suf)) { itr := pre.length } = some cp ∧
    utf_iterator.pre_increment T (pre ++ (T.units cp ++ suf)) { itr := pre.length } =
      some { itr := (pre ++ T.units cp).length } := by
  have hs := holdsAt_mid pre (T.units cp) suf pre.length rfl
  constructor
  · simp [utf_iterator.deref, h.read_eq _ _ hs]
  · simp [utf_iterator.pre_increment, h.next_eq _ _ hs]

theorem walk_flatMap (T : Traits) (L : List Nat) (h : ∀ cp ∈ L, T.Regular cp)
    (pre suf : List Nat) :
    walk T (pre ++ (L.flatMap T.units ++ suf)) L.length { itr := pre.length } =
      some (L, { itr := (pre ++ L.flatMap T.units).length }) := by
  induction L generalizing pre with
  | nil => simp [walk]
  | cons cp t ih =>
    obtain ⟨hd, hn⟩ := deref_next_at T (h cp (List.mem_cons_self _ _)) pre
      (t.flatMap T.units ++ suf)
    have ih1 := ih (fun x hx => h x (List.mem_cons_of_mem _ hx)) (pre ++ T.units cp)
    rw [List.append_assoc] at ih1
    rw [List.flatMap_cons, List.append_assoc, List.length_cons, walk]
    simp only [hd, hn, ih1, Option.bind_eq_bind, Option.some_bind]
    simp [List.append_assoc]

theorem collect_forward_flatMap (T : Traits) (L : List Nat) (h : ∀ cp ∈ L, T.Regular cp)
    (pre : List Nat) (fuel : Nat) (hf : L.length < fuel) :
    collect_forward T (pre ++ L.flatMap T.units)
      { itr := (pre ++ L.flatMap T.units).length } fuel { itr := pre.length } = some L := by
  induction L generalizing pre fuel with
  | nil =>
    obtain ⟨f, rfl⟩ : ∃ f, fuel = f + 1 := ⟨fuel - 1, by simp at hf; omega⟩
    simp [collect_forward, utf_iterator.ne]
  | cons cp t ih =>
    obtain ⟨f, rfl⟩ : ∃ f, fuel = f + 1 := ⟨fuel - 1, by omega⟩
    have hcp := h cp (List.mem_cons_self _ _)
    obtain ⟨hd, hn⟩ := deref_next_at T hcp pre (t.flatMap T.units)
    have ih1 := ih (fun x hx => h x (List.mem_cons_of_mem _ hx)) (pre ++ T.units cp) f
      (by simp only [List.length_cons] at hf; omega)
    rw [List.append_assoc] at ih1
    have hpos := units_length_pos hcp
    have hne : utf_iterator.ne { itr := pre.length }
        { itr := (pre ++ (T.units cp ++ t.flatMap T.units)).length } = true := by
      simp only [utf_iterator.ne, List.length_append, bne_iff_ne, ne_eq]
      omega
    rw [List.flatMap_cons, collect_forward, hne, if_pos rfl]
    simp only [hd, hn, ih1, Option.bind_eq_bind, Option.some_bind]
    rfl

theorem retreat_lead (T : Traits) (pre suf rest : List Nat) (u : Nat)
    (hu : T.is_initial_code_unit u = true) (hr : ∀ r ∈ rest, T.is_initial_code_unit r = false)
    (k : Nat) (hk : k ≤ rest.length) :
    utf_iterator.retreat T (pre ++ (u :: rest ++ suf)) (pre.length + k + 1) =
      some pre.length := by
  have hs := holdsAt_mid pre (u :: rest) suf pre.length rfl
  induction k with
  | zero =>
    have h0 : deref (pre ++ (u :: rest ++ suf)) pre.length = some u := hs.get 0 (by simp)
    simp only [utf_iterator.retreat, Nat.add_zero, h0, hu, if_true]
  | succ k ih =>
    have hk1 : k < rest.length := by omega
    have h1 : deref (pre ++ (u :: rest ++ suf)) (pre.length + (k + 1)) = some rest[k] :=
      hs.get (k + 1) (by simp [List.getElem?_eq_getElem hk1])
    have hni := hr rest[k] (List.getElem_mem _)
    rw [utf_iterator.retreat]
    simp only [h1, hni]
    exact ih (by omega)

theorem pre_decrement_at (T : Traits) {cp : Nat} (h : T.Regular cp) (pre suf : List Nat) :
    utf_iterator.pre_decrement T (pre ++ (T.units cp ++ suf))
      { itr := (pre ++ T.units cp).length } = some { itr := pre.length } := by
  obtain ⟨u, rest, hu, -, hi, hr⟩ := h.lead
  have := retreat_lead T pre suf rest u hi hr rest.length (Nat.le_refl _)
  rw [hu]
  simp only [utf_iterator.pre_decrement, List.length_append, List.length_cons]
  rw [show pre.length + (rest.length + 1) = pre.length + rest.length + 1 by omega, this]
  rfl

theorem collect_backward_flatMap (T : Traits) (L : List Nat) (h : ∀ cp ∈ L, T.Regular cp)
    (suf : List Nat) (fuel : Nat) (hf : L.length < fuel) :
    collect_backward T (L.flatMap T.units ++ suf) { itr := 0 } fuel
      { itr := (L.flatMap T.units).length } = some L.reverse := by
  induction L using List.reverseRecOn generalizing suf fuel with
  | nil =>
    obtain ⟨f, rfl⟩ : ∃ f, fuel = f + 1 := ⟨fuel - 1, by simp at hf; omega⟩
    simp [collect_backward, utf_iterator.ne]
  | append_singleton t cp ih =>
    obtain ⟨f, rfl⟩ : ∃ f, fuel = f + 1 := ⟨fuel - 1, by omega⟩
    have hcp := h cp (by simp)
    have hpos := units_length_pos hcp
    have ih1 := ih (fun x hx => h x (by simp [hx])) (T.units cp ++ suf) f
      (by simp only [List.length_append, List.length_singleton] at hf; omega)
    have hdec := pre_decrement_at T hcp (t.flatMap T.units) suf
    obtain ⟨hd, -⟩ := deref_next_at T hcp (t.flatMap T.units) suf
    have hne : utf_iterator.ne { itr := (t.flatMap T.units ++ T.units cp).length }
        { itr := 0 } = true := by
      simp only [utf_iterator.ne, List.length_append, bne_iff_ne, ne_eq]
      omega
    have e : (t ++ [cp]).flatMap T.units = t.flatMap T.units ++ T.units cp := by simp
    rw [e, List.append_assoc, collect_backward, hne, if_pos rfl]
    simp only [hdec, hd, ih1, Option.bind_eq_bind, Option.some_bind]
    simp

/-! ## Advancing and decoding -/

theorem deref_of_lt {s : List Nat} {p : Nat} (h : p < s.length) : ∃ u, deref s p = some u :=
  ⟨s[p], List.getElem?_eq_getElem h⟩

theorem deref_of_ge {s : List Nat} {p : Nat} (h : s.length ≤ p) : deref s p = none :=
  List.getElem?_eq_none h

theorem lt_of_deref {s : List Nat} {p u : Nat} (h : deref s p = some u) : p < s.length :=
  (List.getElem?_eq_some_iff.mp h).1

theorem advance_eq (s : List Nat) (pos n : Nat) :
    advance s pos n = if pos + n ≤ s.length then some (pos + n) else none := rfl

theorem utf8_read_unit_none {s : List Nat} {r p : Nat} (h : s.length ≤ p) :
    utf_traits_char.read_unit s (r, p) = none := by
  simp [utf_traits_char.read_unit, deref_of_ge h]

theorem utf8_read_unit_some {s : List Nat} (r : Nat) {p : Nat} (h : p < s.length) :
    ∃ r', utf_traits_char.read_unit s (r, p) = some (r', p + 1) := by
  obtain ⟨u, hu⟩ := deref_of_lt h
  exact ⟨_, by simp only [utf_traits_char.read_unit, hu, Option.bind_eq_bind,
    Option.some_bind]; rfl⟩

theorem utf8_size_cases (b : Nat) :
    utf_traits_char.code_point_size b = 1 ∨ utf_traits_char.code_point_size b = 2 ∨
      utf_traits_char.code_point_size b = 3 ∨ utf_traits_char.code_point_size b = 4 := by
  unfold utf_traits_char.code_point_size
  split_ifs <;> simp

theorem utf8_read_snd (s : List Nat) (pos : Nat) :
    (utf_traits_char.read s pos).map Prod.snd = utf_traits_char.next s pos := by
  rcases Nat.lt_or_ge pos s.length with hp | hp
  swap
  · simp [utf_traits_char.read, utf_traits_char.next, deref_of_ge hp]
  obtain ⟨b0, h0⟩ := deref_of_lt hp
  simp only [utf_traits_char.read, utf_traits_char.next, h0, Option.bind_eq_bind,
    Option.some_bind, advance_eq]
  rcases utf8_size_cases b0 with hs | hs | hs | hs <;> simp only [hs]
  · rw [if_pos (by omega)]; rfl
  · rcases Nat.lt_or_ge (pos + 1) s.length with h1 | h1
    · obtain ⟨r1, e1⟩ := utf8_read_unit_some (b0 &&& 0xFF >>> 2) h1
      rw [e1, if_pos (by omega)]; rfl
    · rw [utf8_read_unit_none h1, if_neg (by omega)]; rfl
  · rcases Nat.lt_or_ge (pos + 1) s.length with h1 | h1
    · obtain ⟨r1, e1⟩ := utf8_read_unit_some (b0 &&& 0xFF >>> 3) h1
      rw [e1, Option.some_bind]
      rcases Nat.lt_or_ge (pos + 1 + 1) s.length with h2 | h2
      · obtain ⟨r2, e2⟩ := utf8_read_unit_some r1 h2
        rw [e2, if_pos (by omega)]; rfl
      · rw [utf8_read_unit_none h2, if_neg (by omega)]; rfl
    · rw [utf8_read_unit_none h1, if_neg (by omega)]; rfl
  · rcases Nat.lt_or_ge (pos + 1) s.length with h1 | h1
    · obtain ⟨r1, e1⟩ := utf8_read_unit_some (b0 &&& 0xFF >>> 4) h1
      rw [e1, Option.some_bind]
      rcases Nat.lt_or_ge (pos + 1 + 1) s.length with h2 | h2
      · obtain ⟨r2, e2⟩ := utf8_read_unit_some r1 h2
        rw [e2, Option.some_bind]
        rcases Nat.lt_or_ge (pos + 1 + 1 + 1) s.length with h3 | h3
        · obtain ⟨r3, e3⟩ := utf8_read_unit_some r2 h3
          rw [e3, if_pos (by omega)]; rfl
        · rw [utf8_read_unit_none h3, if_neg (by omega)]; rfl
      · rw [utf8_read_unit_none h2, if_neg (by omega)]; rfl
    · rw [utf8_read_unit_none h1, if_neg (by omega)]; rfl

theorem utf16_read_snd (s : List Nat) (pos : Nat) :
    (utf_traits_char16_t.read s pos).map Prod.snd = utf_traits_char16_t.next s pos := by
  rcases Nat.lt_or_ge pos s.length with hp | hp
  swap
  · simp [utf_traits_char16_t.read, utf_traits_char16_t.next, deref_of_ge hp]
  obtain ⟨u, h0⟩ := deref_of_lt hp
  simp only [utf_traits_char16_t.read, utf_traits_char16_t.next, h0, Option.bind_eq_bind,
    Option.some_bind, advance_eq]
  by_cases hs : utf_traits_char16_t.code_point_size u = 2
  · rw [if_pos hs, hs]
    rcases Nat.lt_or_ge (pos + 1) s.length with h1 | h1
    · obtain ⟨lo, e1⟩ := deref_of_lt h1
      rw [e1, if_pos (by omega)]; rfl
    · rw [deref_of_ge h1, if_neg (by omega)]; rfl
  · have h1 : utf_traits_char16_t.code_point_size u = 1 := by
      unfold utf_traits_char16_t.code_point_size at hs ⊢
      split_ifs at hs ⊢ <;> simp_all
    rw [if_neg hs, h1, if_pos (by omega)]; rfl

theorem utf32_read_snd (s : List Nat) (pos : Nat) :
    (utf_traits_char32_t.read s pos).map Prod.snd = utf_traits_char32_t.next s pos := by
  rcases Nat.lt_or_ge pos s.length with hp | hp
  · obtain ⟨u, h0⟩ := deref_of_lt hp
    simp only [utf_traits_char32_t.read, utf_traits_char32_t.next, h0, advance_eq,
      Option.bind_eq_bind, Option.some_bind]
    rw [if_pos (by omega)]; rfl
  · simp only [utf_traits_char32_t.read, utf_traits_char32_t.next, deref_of_ge hp, advance_eq,
      Option.bind_eq_bind, Option.none_bind]
    rw [if_neg (by omega)]; rfl

theorem read_snd_eq_next (c : CharTy) (s : List Nat) (pos : Nat) :
    ((utf_traits c).read s pos).map Prod.snd = (utf_traits c).next s pos := by
  cases c
  · exact utf8_read_snd s pos
  · exact utf16_read_snd s pos
  · exact utf32_read_snd s pos

theorem next_eq_advance (c : CharTy) {s : List Nat} {pos u : Nat} (h : deref s pos = some u) :
    (utf_traits c).next s pos = advance s pos ((utf_traits c).code_point_size u) := by
  cases c
  · show utf_traits_char.next s pos = _
    simp only [utf_traits_char.next, h, Option.bind_eq_bind, Option.some_bind]; rfl
  · show utf_traits_char16_t.next s pos = _
    simp only [utf_traits_char16_t.next, h, Option.bind_eq_bind, Option.some_bind]; rfl
  · rfl

/-! ## Units of arbitrary values -/

theorem write_eq_units (c : CharTy) {σ : Type} (I : OutputItr σ) (pos : σ) (ch : Nat) :
    (utf_traits c).write I pos ch = ((utf_traits c).units ch).foldl I.put pos := by
  cases c
  · exact utf_traits_char.write_eq_foldl I pos ch
  · exact utf_traits_char16_t.write_eq_foldl_u16 I pos ch
  · exact utf_traits_char32_t.write_eq_foldl_u32 I pos ch

theorem units_length_eq (c : CharTy) (ch : Nat) :
    ((utf_traits c).units ch).length = (utf_traits c).code_point_size_char32 ch := by
  cases c
  · exact utf_traits_char.units_length ch
  · exact utf_traits_char16_t.units_length_u16 ch
  · show (utf_traits_char32_t.write back_inserter [] ch).length = 1
    rw [utf_traits_char32_t.units_1_u32]; rfl

theorem output_all_units (c : CharTy) {σ : Type} (I : OutputItr σ) (L : List Nat)
    (it : utf_output_iterator σ) :
    (output_all (utf_traits c) I it L).itr =
      (L.flatMap (utf_traits c).units).foldl I.put it.itr := by
  induction L generalizing it with
  | nil => rfl
  | cons cp t ih =>
    have e : output_all (utf_traits c) I it (cp :: t) =
        output_all (utf_traits c) I { itr := (utf_traits c).write I it.itr cp } t := rfl
    rw [e, ih, List.flatMap_cons, List.foldl_append, write_eq_units]

/-! ## Boundaries -/

theorem boundary_zero (T : Traits) (L : List Nat) : boundary T L 0 = 0 := by
  simp [boundary]

theorem boundary_length (T : Traits) (L : List Nat) :
    boundary T L L.length = (L.flatMap T.units).length := by
  simp [boundary]

theorem flatMap_split (T : Traits) (L : List Nat) (k : Nat) (hk : k < L.length) :
    L.flatMap T.units =
      (L.take k).flatMap T.units ++ (T.units L[k] ++ (L.drop (k + 1)).flatMap T.units) := by
  have e : L = L.take k ++ L[k] :: L.drop (k + 1) := by
    rw [← List.drop_eq_getElem_cons hk, List.take_append_drop]
  conv_lhs => rw [e]
  rw [List.flatMap_append, List.flatMap_cons]

theorem boundary_succ (T : Traits) (L : List Nat) (k : Nat) (hk : k < L.length) :
    boundary T L (k + 1) = ((L.take k).flatMap T.units ++ T.units L[k]).length := by
  unfold boundary
  rw [List.take_succ, List.getElem?_eq_getElem hk, Option.toList, List.flatMap_append,
    List.flatMap_cons, List.flatMap_nil, List.append_nil]

theorem increment_boundary (T : Traits) (L : List Nat) (h : ∀ cp ∈ L, T.Regular cp) (k : Nat)
    (hk : k < L.length) :
    utf_iterator.deref T (L.flatMap T.units) { itr := boundary T L k } = some L[k] ∧
      utf_iterator.pre_increment T (L.flatMap T.units) { itr := boundary T L k } =
        some { itr := boundary T L (k + 1) } := by
  have hreg := h L[k] (List.getElem_mem _)
  rw [flatMap_split T L k hk, boundary_succ T L k hk]
  exact deref_next_at T hreg _ _

theorem decrement_boundary (T : Traits) (L : List Nat) (h : ∀ cp ∈ L, T.Regular cp) (k : Nat)
    (hk : k < L.length) :
    utf_iterator.pre_decrement T (L.flatMap T.units) { itr := boundary T L (k + 1) } =
      some { itr := boundary T L k } := by
  have hreg := h L[k] (List.getElem_mem _)
  rw [flatMap_split T L k hk, boundary_succ T L k hk]
  exact pre_decrement_at T hreg _ _

theorem boundary_lt_succ (T : Traits) (L : List Nat) (h : ∀ cp ∈ L, T.Regular cp) (k : Nat)
    (hk : k < L.length) : boundary T L k < boundary T L (k + 1) := by
  have hpos := units_length_pos (h L[k] (List.getElem_mem _))
  rw [boundary_succ T L k hk, List.length_append]
  unfold boundary
  omega

theorem boundary_lt_end (T : Traits) (L : List Nat) (h : ∀ cp ∈ L, T.Regular cp) (k : Nat)
    (hk : k < L.length) : boundary T L k < (L.flatMap T.units).length := by
  have h1 := boundary_lt_succ T L h k hk
  have h2 : boundary T L (k + 1) ≤ (L.flatMap T.units).length := by
    rw [boundary_succ T L k hk]
    conv_rhs => rw [flatMap_split T L k hk]
    simp only [List.length_append]
    omega
  omega

theorem apply_op_boundary (T : Traits) (L : List Nat) (h : ∀ cp ∈ L, T.Regular cp)
    (op : cursor_op) (p : Nat) (hp : is_boundary T L p) :
    ∃ q, apply_op T (L.flatMap T.units) { itr := p } op = some { itr := q } ∧
      is_boundary T L q := by
  obtain ⟨k, hk, rfl⟩ := hp
  cases op with
  | increment =>
    by_cases he : k = L.length
    · subst he
      refine ⟨_, ?_, L.length, Nat.le_refl _, rfl⟩
      simp [apply_op, utf_iterator.ne, boundary_length]
    · have hk1 : k < L.length := by omega
      have hlt := boundary_lt_end T L h k hk1
      refine ⟨boundary T L (k + 1), ?_, k + 1, hk1, rfl⟩
      have hne : utf_iterator.ne { itr := boundary T L k }
          { itr := (L.flatMap T.units).length } = true := by
        simp only [utf_iterator.ne, bne_iff_ne, ne_eq]; omega
      simp only [apply_op, hne, if_true]
      exact (increment_boundary T L h k hk1).2
  | decrement =>
    cases k with
    | zero =>
      refine ⟨_, ?_, 0, Nat.zero_le _, rfl⟩
      simp [apply_op, utf_iterator.ne, boundary_zero]
    | succ j =>
      have hj : j < L.length := by omega
      have hlt := boundary_lt_succ T L h j hj
      refine ⟨boundary T L j, ?_, j, by omega, rfl⟩
      have hne : utf_iterator.ne { itr := boundary T L (j + 1) } { itr := 0 } = true := by
        simp only [utf_iterator.ne, bne_iff_ne, ne_eq]; omega
      simp only [apply_op, hne, if_true]
      exact decrement_boundary T L h j hj

theorem apply_ops_boundary (T : Traits) (L : List Nat) (h : ∀ cp ∈ L, T.Regular cp)
    (ops : List cursor_op) (p : Nat) (hp : is_boundary T L p) :
    ∃ q, apply_ops T (L.flatMap T.units) ops { itr := p } = some { itr := q } ∧
      is_boundary T L q := by
  induction ops generalizing p with
  | nil => exact ⟨p, rfl, hp⟩
  | cons op ops ih =>
    obtain ⟨q, hq, hb⟩ := apply_op_boundary T L h op p hp
    obtain ⟨r, hr, hrb⟩ := ih q hb
    exact ⟨r, by simp only [apply_ops, hq, Option.some_bind, hr], hrb⟩

/-! ## Byte-swapped sequences -/

theorem foldl_put_swapping {σ : Type} (f : Nat → Nat) (I : OutputItr σ) (l : List Nat)
    (p : σ) : l.foldl (swapping f I).put p = (l.map f).foldl I.put p := by
  induction l generalizing p with
  | nil => rfl
  | cons u t ih =>
    rw [List.map_cons, List.foldl_cons, List.foldl_cons, ih]
    rfl

theorem utf16be_units (ch : Nat) :
    utf_16be_traits.units ch = ((utf_traits .char16_t).units ch).map byte_swap16 := by
  show utf_traits_char16_t.write (swapping byte_swap16 back_inserter) [] ch = _
  rw [utf_traits_char16_t.write_eq_foldl_u16, foldl_put_swapping, foldl_put_back]
  rfl

theorem utf32be_units (ch : Nat) :
    utf_32be_traits.units ch = ((utf_traits .char32_t).units ch).map byte_swap32 := by
  show utf_traits_char32_t.write (swapping byte_swap32 back_inserter) [] ch = _
  rw [utf_traits_char32_t.write_eq_foldl_u32, foldl_put_swapping, foldl_put_back]
  rfl

/-! ## Calls that return -/

theorem code_point_size_char32_pos (c : CharTy) (ch : Nat) :
    1 ≤ (utf_traits c).code_point_size_char32 ch := by
  cases c
  · show 1 ≤ utf_traits_char.code_point_size_char32 ch
    rcases utf_traits_char.size_char32_cases ch with h | h | h | h <;> omega
  · show 1 ≤ utf_traits_char16_t.code_point_size_char32 ch
    unfold utf_traits_char16_t.code_point_size_char32
    split_ifs <;> omega
  · exact Nat.le_refl 1

theorem utf16_read_valid {s : List Nat} {pos v p : Nat} (hs : ∀ u ∈ s, u < 2 ^ 16)
    (h : utf_traits_char16_t.read s pos = some (v, p)) : valid_code_point v := by
  rcases Nat.lt_or_ge pos s.length with hp | hp
  swap
  · simp [utf_traits_char16_t.read, deref_of_ge hp] at h
  obtain ⟨u, h0⟩ := deref_of_lt hp
  have hu : u < 2 ^ 16 := by
    have := (List.getElem?_eq_some_iff.mp h0).2
    exact hs u (this ▸ List.getElem_mem _)
  by_cases hsz : utf_traits_char16_t.code_point_size u = 2
  · rcases Nat.lt_or_ge (pos + 1) s.length with h1 | h1
    · obtain ⟨lo, e1⟩ := deref_of_lt h1
      rw [utf_traits_char16_t.read_pair_u16 h0 e1 hsz] at h
      simp only [Option.some.injEq, Prod.mk.injEq] at h
      obtain ⟨rfl, -⟩ := h
      unfold valid_code_point
      omega
    · simp [utf_traits_char16_t.read, h0, hsz, deref_of_ge h1] at h
  · have h1 : utf_traits_char16_t.code_point_size u = 1 := by
      rw [utf_traits_char16_t.code_point_size_eq_u16] at hsz ⊢
      split_ifs at hsz ⊢ <;> simp_all
    rw [utf_traits_char16_t.read_single_u16 h0 h1] at h
    simp only [Option.some.injEq, Prod.mk.injEq] at h
    obtain ⟨rfl, -⟩ := h
    rw [utf_traits_char16_t.code_point_size_eq_u16] at h1
    unfold valid_code_point
    split_ifs at h1 <;> omega

theorem adapter_run_traits (s : List Nat) (ops : List cursor_op) (a a' : adapter)
    (h : adapter.run s ops a = some a') : a'.traits = a.traits := by
  induction ops generalizing a with
  | nil =>
    simp only [adapter.run, Option.some.injEq] at h
    rw [← h]
  | cons op ops ih =>
    simp only [adapter.run, adapter.apply, Option.bind_eq_some, Option.map_eq_some'] at h
    obtain ⟨b, ⟨q, -, rfl⟩, hb⟩ := h
    exact ih { traits := a.traits, base := q } hb

/-! ## Values outside the code point range -/

theorem utf8_read_units_mod {s : List Nat} {pos cp : Nat}
    (h : HoldsAt s pos (utf_traits_char.write back_inserter [] cp)) :
    utf_traits_char.read s pos =
      some (cp % 2 ^ 21, pos + utf_traits_char.code_point_size_char32 cp) := by
  by_cases hle : cp ≤ 0x1FFFFF
  · rw [utf_traits_char.read_units h hle, Nat.mod_eq_of_lt (by omega)]
  · have c : 0xFFFF < cp := by omega
    have hs : utf_traits_char.code_point_size_char32 cp = 4 := by
      rcases utf_traits_char.size_char32_cases cp with c | c | c | c <;> omega
    rw [utf_traits_char.units_4 c] at h
    have h0 : deref s pos = some (240 + cp / 262144 % 8) := h.get 0 rfl
    have h1 : deref s (pos + 1) = some (128 + cp / 4096 % 64) := h.get 1 rfl
    have h2 : deref s (pos + 2) = some (128 + cp / 64 % 64) := h.get 2 rfl
    have h3 : deref s (pos + 3) = some (128 + cp % 64) := h.get 3 rfl
    rw [utf_traits_char.read_size4 h0 h1 h2 h3
      (by rw [utf_traits_char.code_point_size_eq]; split_ifs <;> omega), hs]
    simp only [Option.some.injEq, Prod.mk.injEq, and_true]
    omega

theorem utf16_read_units_mod {s : List Nat} {pos cp : Nat} (h1 : 0xFFFF < cp)
    (h2 : cp < 2 ^ 32) (h : HoldsAt s pos (utf_traits_char16_t.write back_inserter [] cp)) :
    utf_traits_char16_t.read s pos = some (0x10000 + (cp - 0x10000) % 2 ^ 20, pos + 2) := by
  rw [utf_traits_char16_t.units_2_u16 h1 h2] at h
  have e0 : deref s pos = some (0xD800 + (cp - 0x10000) / 1024 % 1024) := h.get 0 rfl
  have e1 : deref s (pos + 1) = some (0xDC00 + (cp - 0x10000) % 1024) := h.get 1 rfl
  rw [utf_traits_char16_t.read_pair_u16 e0 e1
    (by rw [utf_traits_char16_t.code_point_size_eq_u16]; split_ifs <;> omega)]
  simp only [Option.some.injEq, Prod.mk.injEq, and_true]
  omega

/-! ## Backward walks on arbitrary sequences -/

theorem retreat_count_fst (T : Traits) (s : List Nat) (i : Nat) :
    (utf_iterator.retreat_count T s i).map Prod.fst = utf_iterator.retreat T s i := by
  induction i with
  | zero => rfl
  | succ p ih =>
    simp only [utf_iterator.retreat_count, utf_iterator.retreat]
    cases dhorn.deref s p with
    | none => rfl
    | some u =>
      simp only
      split_ifs
      · rfl
      · rw [Option.map_map, ← ih, Option.map_congr]
        intro a _
        rfl

theorem retreat_count_greatest (T : Traits) (s : List Nat) (i : Nat) (hi : i ≤ s.length)
    (h : ∃ j, j < i ∧ ∃ u, deref s j = some u ∧ T.is_initial_code_unit u = true) :
    ∃ j u, utf_iterator.retreat_count T s i = some (j, i - j) ∧ j < i ∧
      deref s j = some u ∧ T.is_initial_code_unit u = true ∧
      ∀ m w, j < m → m < i → deref s m = some w → T.is_initial_code_unit w = false := by
  induction i with
  | zero =>
    obtain ⟨j, hj, -⟩ := h
    omega
  | succ p ih =>
    obtain ⟨u, hu⟩ := deref_of_lt (show p < s.length by omega)
    by_cases hinit : T.is_initial_code_unit u = true
    · refine ⟨p, u, ?_, by omega, hu, hinit, fun m w h1 h2 => by omega⟩
      simp [utf_iterator.retreat_count, hu, hinit]
    · have hfalse : T.is_initial_code_unit u = false := by simpa using hinit
      obtain ⟨j, hj, v, hv, hvi⟩ := h
      have hjp : j < p := by
        rcases Nat.lt_or_ge j p with h1 | h1
        · exact h1
        · have : j = p := by omega
          subst this
          rw [hu] at hv
          cases hv
          rw [hvi] at hfalse
          cases hfalse
      obtain ⟨j', u', hr, hlt, hd, hin, hmax⟩ := ih (by omega) ⟨j, hjp, v, hv, hvi⟩
      refine ⟨j', u', ?_, by omega, hd, hin, ?_⟩
      · simp only [utf_iterator.retreat_count, hu, hfalse, hr, Option.map_some']
        simp only [Bool.false_eq_true, if_false, Option.some.injEq, Prod.mk.injEq, true_and]
        omega
      · intro m w h1 h2 hm
        rcases Nat.lt_or_ge m p with h3 | h3
        · exact hmax m w h1 h3 hm
        · have : m = p := by omega
          subst this
          rw [hu] at hm
          cases hm
          exact hfalse

theorem units_length_le_max (c : CharTy) (ch : Nat) :
    ((utf_traits c).units ch).length ≤ (utf_traits c).max_code_point_size := by
  rw [units_length_eq]
  cases c
  · show utf_traits_char.code_point_size_char32 ch ≤ 4
    rcases utf_traits_char.size_char32_cases ch with h | h | h | h <;> omega
  · show utf_traits_char16_t.code_point_size_char32 ch ≤ 2
    unfold utf_traits_char16_t.code_point_size_char32
    split_ifs <;> omega
  · exact Nat.le_refl 1

theorem exists_step {P : Nat → Prop} (n : Nat) (h0 : ¬ P 0) (hn : P n) :
    ∃ k, k < n ∧ ¬ P k ∧ P (k + 1) := by
  induction n with
  | zero => exact absurd hn h0
  | succ m ih =>
    by_cases hm : P m
    · obtain ⟨k, hk, h1, h2⟩ := ih hm
      exact ⟨k, by omega, h1, h2⟩
    · exact ⟨m, by omega, hm, hn⟩

theorem retreat_lt (T : Traits) (s : List Nat) (i j : Nat)
    (h : utf_iterator.retreat T s i = some j) : j < i := by
  induction i with
  | zero => simp [utf_iterator.retreat] at h
  | succ p ih =>
    simp only [utf_iterator.retreat] at h
    cases hd : dhorn.deref s p with
    | none => simp [hd] at h
    | some u =>
      simp only [hd] at h
      split_ifs at h
      · cases h; omega
      · have := ih h; omega

theorem retreat_count_eq (T : Traits) (s : List Nat) (i : Nat) :
    utf_iterator.retreat_count T s i =
      (utf_iterator.retreat T s i).map (fun j => (j, i - j)) := by
  induction i with
  | zero => rfl
  | succ p ih =>
    simp only [utf_iterator.retreat_count, utf_iterator.retreat]
    cases dhorn.deref s p with
    | none => rfl
    | some u =>
      simp only
      split_ifs
      · simp
      · rw [ih]
        cases hr : utf_iterator.retreat T s p with
        | none => rfl
        | some j =>
          have := retreat_lt T s p j hr
          simp only [Option.map_some', Option.some.injEq, Prod.mk.injEq, true_and]
          omega

theorem retreat_count_well_formed (T : Traits) (L : List Nat) (h : ∀ cp ∈ L, T.Regular cp)
    (i : Nat) (h0 : 0 < i) (hi : i ≤ (L.flatMap T.units).length) :
    ∃ (k : Nat) (hk : k < L.length),
      utf_iterator.retreat_count T (L.flatMap T.units) i =
        some (boundary T L k, i - boundary T L k) ∧
      boundary T L k < i ∧ i - boundary T L k ≤ (T.units L[k]).length := by
  have hP0 : ¬ (i ≤ boundary T L 0) := by rw [boundary_zero]; omega
  have hPn : i ≤ boundary T L L.length := by rw [boundary_length]; exact hi
  obtain ⟨k, hk, hlo, hhi⟩ := @exists_step (fun k => i ≤ boundary T L k) L.length hP0 hPn
  have hlo' : boundary T L k < i := Nat.lt_of_not_le hlo
  have hhi' : i ≤ boundary T L (k + 1) := hhi
  obtain ⟨u, rest, hu, -, hinit, hrest⟩ := (h L[k] (List.getElem_mem _)).lead
  have hb := boundary_succ T L k hk
  rw [hb, List.length_append] at hhi'
  have hbk : boundary T L k = ((L.take k).flatMap T.units).length := rfl
  have hlen : (T.units L[k]).length = rest.length + 1 := by rw [hu]; rfl
  refine ⟨k, hk, ?_, hlo', by omega⟩
  obtain ⟨d, hd⟩ : ∃ d, i = boundary T L k + d + 1 := ⟨i - boundary T L k - 1, by omega⟩
  have hret := retreat_lead T ((L.take k).flatMap T.units)
    ((L.drop (k + 1)).flatMap T.units) rest u hinit hrest d (by omega)
  rw [retreat_count_eq]
  conv_lhs => rw [flatMap_split T L k hk, hu, hd, hbk, hret]
  subst hd
  rw [Option.map_some', hbk]

/-! ## The shapes of the UTF-8 unit sequences -/

theorem utf8_units_cases (cp : Nat) :
    (cp ≤ 0x7F ∧ utf_traits_char.write back_inserter [] cp = [cp]) ∨
      ((0x7F < cp ∧ cp ≤ 0x7FF) ∧
        utf_traits_char.write back_inserter [] cp = [192 + cp / 64, 128 + cp % 64]) ∨
      ((0x7FF < cp ∧ cp ≤ 0xFFFF) ∧
        utf_traits_char.write back_inserter [] cp =
          [224 + cp / 4096, 128 + cp / 64 % 64, 128 + cp % 64]) ∨
      (0xFFFF < cp ∧
        utf_traits_char.write back_inserter [] cp =
          [240 + cp / 262144 % 8, 128 + cp / 4096 % 64, 128 + cp / 64 % 64,
            128 + cp % 64]) := by
  rcases utf_traits_char.size_char32_cases cp with c | c | c | c
  · exact Or.inl ⟨c.1, utf_traits_char.units_1 c.1⟩
  · exact Or.inr (Or.inl ⟨⟨c.1, c.2.1⟩, utf_traits_char.units_2 c.1 c.2.1⟩)
  · exact Or.inr (Or.inr (Or.inl ⟨⟨c.1, c.2.1⟩, utf_traits_char.units_3 c.1 c.2.1⟩))
  · exact Or.inr (Or.inr (Or.inr ⟨c.1, utf_traits_char.units_4 c.1⟩))

/-! ## Lexicographic comparison -/

theorem lexicographical_compare_cons (x y : Nat) (xs ys : List Nat) :
    lexicographical_compare (x :: xs) (y :: ys) = true ↔
      x < y ∨ (x = y ∧ lexicographical_compare xs ys = true) := by
  simp only [lexicographical_compare]
  split_ifs with h1 h2
  · simp [h1]
  · constructor
    · intro h; cases h
    · rintro (h | ⟨h, -⟩) <;> omega
  · have : x = y := by omega
    simp [this]

theorem lexicographical_compare_nil_right (l : List Nat) :
    lexicographical_compare l [] = true ↔ False := by
  cases l <;> simp [lexicographical_compare]

theorem lexicographical_compare_nil_cons (y : Nat) (ys : List Nat) :
    lexicographical_compare [] (y :: ys) = true ↔ True := by
  simp [lexicographical_compare]

theorem digits_step (x y : Nat) (h : x < y) :
    x / 64 < y / 64 ∨ (x / 64 = y / 64 ∧ x % 64 < y % 64) := by
  omega

theorem digits_three (a b : Nat) (hab : a < b) :
    a / 4096 < b / 4096 ∨ (a / 4096 = b / 4096 ∧
      (a / 64 % 64 < b / 64 % 64 ∨ (a / 64 % 64 = b / 64 % 64 ∧ a % 64 < b % 64))) := by
  have e1 : ∀ x : Nat, x / 4096 = x / 64 / 64 := fun x => by omega
  rw [e1 a, e1 b]
  rcases digits_step a b hab with h | ⟨h, h0⟩
  · rcases digits_step _ _ h with h' | ⟨h', h1⟩
    · exact Or.inl h'
    · exact Or.inr ⟨h', Or.inl h1⟩
  · have : a / 64 / 64 = b / 64 / 64 := by rw [h]
    omega

theorem digits_four (a b : Nat) (hab : a < b) :
    a / 262144 < b / 262144 ∨ (a / 262144 = b / 262144 ∧
      (a / 4096 % 64 < b / 4096 % 64 ∨ (a / 4096 % 64 = b / 4096 % 64 ∧
        (a / 64 % 64 < b / 64 % 64 ∨ (a / 64 % 64 = b / 64 % 64 ∧ a % 64 < b % 64))))) := by
  have e1 : ∀ x : Nat, x / 4096 = x / 64 / 64 := fun x => by omega
  have e2 : ∀ x : Nat, x / 262144 = x / 64 / 64 / 64 := fun x => by omega
  rw [e2 a, e2 b, e1 a, e1 b]
  rcases digits_step a b hab with h | ⟨h, h0⟩
  · rcases digits_step _ _ h with h' | ⟨h', h1⟩
    · rcases digits_step _ _ h' with h'' | ⟨h'', h2⟩
      · exact Or.inl h''
      · exact Or.inr ⟨h'', Or.inl h2⟩
    · have : a / 64 / 64 % 64 = b / 64 / 64 % 64 := by rw [h']
      have : a / 64 / 64 / 64 = b / 64 / 64 / 64 := by rw [h']
      omega
  · have : a / 64 / 64 = b / 64 / 64 := by rw [h]
    have : a / 64 / 64 / 64 = b / 64 / 64 / 64 := by rw [this]
    omega

/-! ## Arithmetic of `std::size_t` -/

theorem to_size_type_eq (x : Int) (h0 : 0 ≤ x) (h1 : x < (2 : Int) ^ 64) :
    to_size_type x = x.toNat := by
  unfold to_size_type
  rw [Int.emod_eq_of_lt h0 h1]

theorem to_size_type_cast (x : Int) (h0 : 0 ≤ x) (h1 : x < (2 : Int) ^ 64) :
    ((to_size_type x : Nat) : Int) = x := by
  rw [to_size_type_eq x h0 h1]
  exact Int.toNat_of_nonneg h0

theorem size_type_modulus_cast : ((size_type_modulus : Nat) : Int) = (2 : Int) ^ 64 := by
  unfold size_type_modulus
  norm_num

namespace array_reference

theorem plus_assign_in_range (r : array_reference) (d : Int)
    (hn : r._size < size_type_modulus) (h0 : 0 ≤ d) (h1 : d ≤ r._size) :
    r.plus_assign d = some { _ptr := r._ptr + d, _size := (r._size - d).toNat } := by
  have hm := size_type_modulus_cast
  have hn1 : ((r._size : Nat) : Int) < (size_type_modulus : Nat) := by exact_mod_cast hn
  have hd : to_size_type d = d.toNat := to_size_type_eq d h0 (by omega)
  have hs : to_size_type (r._size - d) = (r._size - d).toNat :=
    to_size_type_eq _ (by omega) (by omega)
  unfold plus_assign
  rw [if_pos (Or.inr (by rw [hd]; omega)), hs]

theorem minus_assign_in_range (r : array_reference) (d : Int)
    (h0 : 0 < d) (h1 : r._size + d < size_type_modulus) :
    r.minus_assign d = some { _ptr := r._ptr - d, _size := (r._size + d).toNat } := by
  have hm := size_type_modulus_cast
  have hs : to_size_type (r._size + d) = (r._size + d).toNat :=
    to_size_type_eq _ (by omega) (by omega)
  unfold minus_assign
  rw [if_pos (Or.inl h0), hs]

theorem minus_assign_zero (r : array_reference) (hn : r._size < size_type_modulus) :
    r.minus_assign 0 = some r := by
  have hm := size_type_modulus_cast
  have hn1 : ((r._size : Nat) : Int) < (size_type_modulus : Nat) := by exact_mod_cast hn
  have hz : to_size_type (-0) = 0 := by decide
  have hs : to_size_type (r._size + 0) = r._size := by
    rw [to_size_type_eq _ (by omega) (by omega)]
    omega
  unfold minus_assign
  rw [if_pos (Or.inr (by rw [hz]; omega)), hs]
  simp

end array_reference

/-! ## Arithmetic of the integer types -/

namespace NumericType

theorem signed_cases (T : NumericType) (hs : T.is_signed = true) (hw : T.is_standard) :
    T = { is_signed := true, bits := 8 } ∨ T = { is_signed := true, bits := 16 } ∨
      T = { is_signed := true, bits := 32 } ∨ T = { is_signed := true, bits := 64 } := by
  obtain ⟨sg, b⟩ := T
  simp only at hs
  subst hs
  rcases hw with h | h | h | h <;> simp only at h <;> subst h <;> simp

theorem unsigned_cases (T : NumericType) (hs : T.is_signed = false) (hw : T.is_standard) :
    T = { is_signed := false, bits := 8 } ∨ T = { is_signed := false, bits := 16 } ∨
      T = { is_signed := false, bits := 32 } ∨ T = { is_signed := false, bits := 64 } := by
  obtain ⟨sg, b⟩ := T
  simp only at hs
  subst hs
  rcases hw with h | h | h | h <;> simp only at h <;> subst h <;> simp

theorem max_ge (T : NumericType) (hs : T.is_signed = true) (hw : T.is_standard) :
    127 ≤ T.max := by
  rcases signed_cases T hs hw with h | h | h | h <;> subst h <;> decide

theorem min_eq (T : NumericType) (hs : T.is_signed = true) : T.min = -T.max - 1 := by
  unfold min max
  rw [if_pos hs, if_pos hs]
  omega

theorem convert_signed (T : NumericType) (hs : T.is_signed = true) (x : Int)
    (h1 : T.min ≤ x) (h2 : x ≤ T.max) : T.convert x = some x := by
  unfold convert
  rw [if_pos hs, if_pos ⟨h1, h2⟩]

theorem promoted_signed (T : NumericType) (hs : T.is_signed = true) (hw : T.is_standard) :
    T.promoted.is_signed = true ∧ T.promoted.min ≤ T.min ∧ T.max ≤ T.promoted.max := by
  rcases signed_cases T hs hw with h | h | h | h <;> subst h <;> decide

theorem arith_signed (T : NumericType) (hs : T.is_signed = true) (hw : T.is_standard)
    (x : Int) (h1 : T.min ≤ x) (h2 : x ≤ T.max) : T.arith x = some x := by
  obtain ⟨ps, pmin, pmax⟩ := promoted_signed T hs hw
  exact convert_signed T.promoted ps x (le_trans pmin h1) (le_trans h2 pmax)

end NumericType

/-! ## The scanning functions of numeric.h on digit strings -/

namespace details

theorem is_digit_iff (ch : Nat) : is_digit ch = true ↔ 48 ≤ ch ∧ ch ≤ 57 := by
  unfold is_digit
  simp

theorem char_at_length (s : List Nat) : char_at s s.length = 0 := by
  unfold char_at
  exact List.getD_eq_default _ _ (Nat.le_refl _)

theorem skip_digits_from_digits (digits : List Nat)
    (hd : ∀ c ∈ digits, is_digit c = true) (str : Nat) :
    skip_digits_from digits str = str + digits.length := by
  induction digits generalizing str with
  | nil => rfl
  | cons c rest ih =>
    have hc := hd c (List.mem_cons_self _ _)
    unfold skip_digits_from
    rw [if_pos hc, ih (fun x hx => hd x (List.mem_cons_of_mem _ hx)), List.length_cons]
    omega

theorem skip_digits_append (pre digits : List Nat)
    (hd : ∀ c ∈ digits, is_digit c = true) :
    skip_digits (pre ++ digits) pre.length = (pre ++ digits).length := by
  unfold skip_digits
  rw [List.drop_left, skip_digits_from_digits digits hd, List.length_append]

theorem skip_digits_length (s : List Nat) : skip_digits s s.length = s.length := by
  unfold skip_digits
  rw [List.drop_length]
  rfl

theorem skip_decimal_length (s : List Nat) : skip_decimal s s.length = s.length := by
  unfold skip_decimal
  rw [char_at_length]
  rfl

theorem read_integer_value_length (T : NumericType) (s : List Nat) (back : Option Nat)
    (value : Int) : read_integer_value T s s.length back value = some (s.length, value) := by
  unfold read_integer_value
  rw [List.drop_length]
  rfl

theorem read_fractional_value_empty (T : NumericType) (s : List Nat) (front : Nat)
    (value : Int) (isNonZero : Bool) :
    read_fractional_value T s front (some front) value isNonZero =
      some (value, isNonZero) := by
  unfold read_fractional_value
  simp [read_fractional_loop]

theorem foldl_digits_le (digits : List Nat) (value : Nat) :
    value ≤ digits.foldl (fun acc ch => acc * 10 + (ch - 48)) value := by
  induction digits generalizing value with
  | nil => exact Nat.le_refl _
  | cons c rest ih =>
    rw [List.foldl_cons]
    exact le_trans (by omega) (ih _)

theorem read_step_signed (T : NumericType) (hs : T.is_signed = true) (hw : T.is_standard)
    (value ch : Nat) (hc : is_digit ch = true)
    (hv : ((value * 10 + (ch - 48) : Nat) : Int) ≤ T.max) :
    ((T.arith ((value : Int) * 10)).bind (fun m =>
        (to_digit T ch).bind (fun dg => (T.arith (m + dg)).bind T.convert))) =
      some ((value * 10 + (ch - 48) : Nat) : Int) := by
  have hc2 := (is_digit_iff ch).mp hc
  have hmax := T.max_ge hs hw
  have hmin := T.min_eq hs
  have e1 : T.arith ((value : Int) * 10) = some ((value : Int) * 10) :=
    T.arith_signed hs hw _ (by omega) (by omega)
  have e2 : to_digit T ch = some ((ch : Int) - 48) :=
    T.convert_signed hs _ (by omega) (by omega)
  have e3 : T.arith ((value : Int) * 10 + ((ch : Int) - 48)) =
      some ((value : Int) * 10 + ((ch : Int) - 48)) :=
    T.arith_signed hs hw _ (by omega) (by omega)
  have e4 : T.convert ((value : Int) * 10 + ((ch : Int) - 48)) =
      some ((value : Int) * 10 + ((ch : Int) - 48)) :=
    T.convert_signed hs _ (by omega) (by omega)
  rw [e1, Option.some_bind, e2, Option.some_bind, e3, Option.some_bind, e4]
  congr 1
  omega

theorem read_integer_value_from_signed (T : NumericType) (hs : T.is_signed = true)
    (hw : T.is_standard) (B : Nat) (digits : List Nat) :
    ∀ (front value : Nat), (∀ c ∈ digits, is_digit c = true) → B = front + digits.length →
      ((digits.foldl (fun acc ch => acc * 10 + (ch - 48)) value : Nat) : Int) ≤ T.max →
      read_integer_value_from T (some B) digits front value =
        some (B, ((digits.foldl (fun acc ch => acc * 10 + (ch - 48)) value : Nat) : Int)) := by
  induction digits with
  | nil =>
    intro front value _ hB _
    subst hB
    rfl
  | cons c rest ih =>
    intro front value hd hB hv
    have hc := hd c (List.mem_cons_self _ _)
    rw [List.foldl_cons] at hv ⊢
    have hle := foldl_digits_le rest (value * 10 + (c - 48))
    have hstep := read_step_signed T hs hw value c hc (by omega)
    have hne : some front ≠ some B := by
      rw [hB, List.length_cons]
      intro h
      have := Option.some.inj h
      omega
    unfold read_integer_value_from
    rw [if_pos ⟨hne, hc⟩, hstep]
    exact ih (front + 1) _ (fun x hx => hd x (List.mem_cons_of_mem _ hx))
      (by rw [hB, List.length_cons]; omega) hv

theorem read_integer_value_signed (T : NumericType) (hs : T.is_signed = true)
    (hw : T.is_standard) (pre digits : List Nat) (hd : ∀ c ∈ digits, is_digit c = true)
    (hv : (decimal_value digits : Int) ≤ T.max) :
    read_integer_value T (pre ++ digits) pre.length (some (pre ++ digits).length) 0 =
      some ((pre ++ digits).length, (decimal_value digits : Int)) := by
  unfold read_integer_value
  rw [List.drop_left]
  exact read_integer_value_from_signed T hs hw _ digits pre.length 0 hd
    (List.length_append _ _) hv

end details

theorem numeric_cast_exponent_length (s : List Nat) :
    numeric_cast_exponent s s.length = some 0 := by
  unfold numeric_cast_exponent
  rw [details.char_at_length]
  rfl

theorem numeric_cast_parts_plain (T : NumericType) (pow : Nat → Option Int) (s : List Nat)
    (k : Nat) (V : Int) (hk : details.skip_sign s 0 = k)
    (he : details.skip_digits s k = s.length)
    (hr : details.read_integer_value T s k (some s.length) 0 = some (s.length, V)) :
    numeric_cast_parts T pow s =
      some { integer_part := V, fractional_part := 0, fractionNonZero := false } := by
  unfold numeric_cast_parts
  simp only [hk, he, details.skip_decimal_length, details.skip_digits_length,
    numeric_cast_exponent_length, hr, details.read_integer_value_length,
    details.read_fractional_value_empty]
  simp
  exact details.read_fractional_value_empty T s s.length 0 false

theorem digit_not_sign (c : Nat) (hc : details.is_digit c = true) :
    details.is_sign c = false ∧ (c == 45) = false := by
  have h := (details.is_digit_iff c).mp hc
  unfold details.is_sign
  have h1 : c ≠ 43 := by omega
  have h2 : c ≠ 45 := by omega
  simp [h1, h2]

theorem char_at_zero_digits (digits : List Nat) (hd : ∀ c ∈ digits, details.is_digit c = true) :
    details.is_sign (details.char_at digits 0) = false ∧
      (details.char_at digits 0 == 45) = false := by
  cases digits with
  | nil => exact ⟨rfl, rfl⟩
  | cons c rest => exact digit_not_sign c (hd c (List.mem_cons_self _ _))

theorem skip_sign_plain (sign digits : List Nat)
    (hsign : sign = [] ∨ sign = [43] ∨ sign = [45])
    (hd : ∀ c ∈ digits, details.is_digit c = true) :
    details.skip_sign (sign ++ digits) 0 = sign.length := by
  unfold details.skip_sign
  rcases hsign with h | h | h <;> subst h
  · rw [List.nil_append, (char_at_zero_digits digits hd).1]
    rfl
  · rfl
  · rfl

theorem leading_minus_plain (sign digits : List Nat)
    (hsign : sign = [] ∨ sign = [43] ∨ sign = [45])
    (hd : ∀ c ∈ digits, details.is_digit c = true) :
    (details.char_at (sign ++ digits) 0 == 45) = decide (sign = [45]) := by
  rcases hsign with h | h | h <;> subst h
  · rw [List.nil_append, (char_at_zero_digits digits hd).2]
    rfl
  · rfl
  · rfl

theorem numeric_cast_signed_plain (T : NumericType) (hs : T.is_signed = true)
    (hw : T.is_standard) (pow : Nat → Option Int) (sign digits : List Nat)
    (hsign : sign = [] ∨ sign = [43] ∨ sign = [45])
    (hd : ∀ c ∈ digits, details.is_digit c = true)
    (hv : (decimal_value digits : Int) ≤ T.max) :
    numeric_cast T pow (sign ++ digits) =
      some (Except.ok (if sign = [45] ∧ decimal_value digits ≠ 0
        then -(decimal_value digits : Int) else (decimal_value digits : Int))) := by
  have hparts := numeric_cast_parts_plain T pow (sign ++ digits) sign.length
    (decimal_value digits) (skip_sign_plain sign digits hsign hd)
    (details.skip_digits_append sign digits hd)
    (details.read_integer_value_signed T hs hw sign digits hd hv)
  have hmin := T.min_eq hs
  have e1 : T.arith ((decimal_value digits : Int) + 0) = some (decimal_value digits : Int) := by
    rw [Int.add_zero]
    exact T.arith_signed hs hw _ (by omega) hv
  have e2 : T.convert (decimal_value digits : Int) = some (decimal_value digits : Int) :=
    T.convert_signed hs _ (by omega) hv
  have e3 : T.arith (-(decimal_value digits : Int)) = some (-(decimal_value digits : Int)) :=
    T.arith_signed hs hw _ (by omega) (by omega)
  have e4 : T.convert (-(decimal_value digits : Int)) = some (-(decimal_value digits : Int)) :=
    T.convert_signed hs _ (by omega) (by omega)
  unfold numeric_cast
  rw [hparts]
  simp only [e1, Option.some_bind, e2, leading_minus_plain sign digits hsign hd, Bool.or_false]
  by_cases hm : sign = [45]
  · by_cases hz : decimal_value digits = 0
    · simp [hm, hz]
    · have hz2 : ((decimal_value digits : Int) != 0) = true := by
        simp only [bne_iff_ne, ne_eq]
        omega
      simp only [hm, hz, hz2, decide_True, Bool.and_self, if_true, ne_eq, not_false_eq_true,
        and_self]
      unfold details.negate
      rw [if_pos hs, e3, Option.some_bind, e4]
      rfl
  · simp [hm]

/-! ## The unsigned types -/

namespace NumericType

theorem convert_unsigned (T : NumericType) (hu : T.is_signed = false) (x : Int) :
    T.convert x = some (x % (2 : Int) ^ T.bits) := by
  unfold convert
  rw [hu]
  rfl

theorem convert_unsigned_range (T : NumericType) (hu : T.is_signed = false) (x y : Int)
    (h : T.convert x = some y) : 0 ≤ y ∧ y < (2 : Int) ^ T.bits := by
  rw [convert_unsigned T hu] at h
  have hpos : (0 : Int) < (2 : Int) ^ T.bits := by positivity
  have := Option.some.inj h
  subst this
  exact ⟨Int.emod_nonneg _ (ne_of_gt hpos), Int.emod_lt_of_pos _ hpos⟩

theorem convert_unsigned_id (T : NumericType) (hu : T.is_signed = false) (x : Int)
    (h0 : 0 ≤ x) (h1 : x < (2 : Int) ^ T.bits) : T.convert x = some x := by
  rw [convert_unsigned T hu, Int.emod_eq_of_lt h0 h1]

theorem arith_narrow (T : NumericType) (hb : T.bits < 32) (x : Int)
    (h0 : -2147483648 ≤ x) (h1 : x ≤ 2147483647) : T.arith x = some x := by
  have hp : T.promoted = { is_signed := true, bits := 32 } := by
    unfold promoted
    rw [if_pos hb]
  have hmin : NumericType.min ⟨true, 32⟩ = -2147483648 := by decide
  have hmax : NumericType.max ⟨true, 32⟩ = 2147483647 := by decide
  unfold arith
  rw [hp]
  exact convert_signed _ rfl x (by rw [hmin]; exact h0) (by rw [hmax]; exact h1)

theorem arith_wide_unsigned (T : NumericType) (hu : T.is_signed = false)
    (hb : 32 ≤ T.bits) (x : Int) : T.arith x = some (x % (2 : Int) ^ T.bits) := by
  have hp : T.promoted = T := by
    unfold promoted
    rw [if_neg (by omega)]
  unfold arith
  rw [hp]
  exact convert_unsigned T hu x

theorem sum_unsigned (T : NumericType) (hu : T.is_signed = false) (hw : T.is_standard)
    (a b : Int) (ha0 : 0 ≤ a) (ha1 : a < (2 : Int) ^ T.bits) (hb0 : 0 ≤ b)
    (hb1 : b < (2 : Int) ^ T.bits) :
    (T.arith (a + b)).bind T.convert = some ((a + b) % (2 : Int) ^ T.bits) := by
  rcases hw with h | h | h | h
  · rw [h] at ha1 hb1
    rw [arith_narrow T (by omega) _ (by omega) (by omega), Option.some_bind,
      convert_unsigned T hu]
  · rw [h] at ha1 hb1
    rw [arith_narrow T (by omega) _ (by omega) (by omega), Option.some_bind,
      convert_unsigned T hu]
  · rw [arith_wide_unsigned T hu (by omega), Option.some_bind, convert_unsigned T hu,
      Int.emod_emod_of_dvd _ (dvd_refl _)]
  · rw [arith_wide_unsigned T hu (by omega), Option.some_bind, convert_unsigned T hu,
      Int.emod_emod_of_dvd _ (dvd_refl _)]

end NumericType

namespace details

theorem bind_convert_range (T : NumericType) (hu : T.is_signed = false) (o : Option Int)
    (v : Int) (h : o.bind T.convert = some v) : 0 ≤ v ∧ v < (2 : Int) ^ T.bits := by
  obtain ⟨x, _, hx⟩ := Option.bind_eq_some.mp h
  exact T.convert_unsigned_range hu x v hx

theorem integer_step_range (T : NumericType) (hu : T.is_signed = false) (value : Int)
    (ch : Nat) (v : Int)
    (h : (T.arith (value * 10)).bind (fun m =>
      (to_digit T ch).bind (fun dg => (T.arith (m + dg)).bind T.convert)) = some v) :
    0 ≤ v ∧ v < (2 : Int) ^ T.bits := by
  obtain ⟨m, _, h1⟩ := Option.bind_eq_some.mp h
  obtain ⟨dg, _, h2⟩ := Option.bind_eq_some.mp h1
  exact bind_convert_range T hu _ v h2

theorem fraction_step_range (T : NumericType) (hu : T.is_signed = false) (value : Int)
    (ch : Nat) (v : Int)
    (h : (to_digit T ch).bind (fun dg =>
      (T.arith (value + dg)).bind (fun x => (T.arith (x.tdiv 10)).bind T.convert)) = some v) :
    0 ≤ v ∧ v < (2 : Int) ^ T.bits := by
  obtain ⟨dg, _, h1⟩ := Option.bind_eq_some.mp h
  obtain ⟨x, _, h2⟩ := Option.bind_eq_some.mp h1
  exact bind_convert_range T hu _ v h2

theorem read_integer_value_from_range (T : NumericType) (hu : T.is_signed = false)
    (back : Option Nat) (l : List Nat) :
    ∀ (front : Nat) (value : Int) (r : Nat × Int),
      (0 ≤ value ∧ value < (2 : Int) ^ T.bits) →
      read_integer_value_from T back l front value = some r →
      0 ≤ r.2 ∧ r.2 < (2 : Int) ^ T.bits := by
  induction l with
  | nil =>
    intro front value r hv h
    unfold read_integer_value_from at h
    rw [← Option.some.inj h]
    exact hv
  | cons ch rest ih =>
    intro front value r hv h
    unfold read_integer_value_from at h
    split at h
    · split at h
      · exact absurd h (by simp)
      · rename_i v hstep
        exact ih (front + 1) v r (integer_step_range T hu value ch v hstep) h
    · rw [← Option.some.inj h]
      exact hv

theorem read_integer_value_range (T : NumericType) (hu : T.is_signed = false)
    (s : List Nat) (front : Nat) (back : Option Nat) (value : Int) (r : Nat × Int)
    (hv : 0 ≤ value ∧ value < (2 : Int) ^ T.bits)
    (h : read_integer_value T s front back value = some r) :
    0 ≤ r.2 ∧ r.2 < (2 : Int) ^ T.bits :=
  read_integer_value_from_range T hu back _ front value r hv h

theorem read_fractional_loop_range (T : NumericType) (hu : T.is_signed = false)
    (s : List Nat) (front : Nat) (n : Nat) :
    ∀ (value : Int) (nonZero : Bool) (r : Int × Bool),
      (0 ≤ value ∧ value < (2 : Int) ^ T.bits) →
      read_fractional_loop T s front n value nonZero = some r →
      0 ≤ r.1 ∧ r.1 < (2 : Int) ^ T.bits := by
  induction n with
  | zero =>
    intro value nonZero r hv h
    unfold read_fractional_loop at h
    rw [← Option.some.inj h]
    exact hv
  | succ n ih =>
    intro value nonZero r hv h
    unfold read_fractional_loop at h
    split at h
    · exact absurd h (by simp)
    · rename_i v hstep
      exact ih v _ r (fraction_step_range T hu value _ v hstep) h

theorem read_fractional_value_range (T : NumericType) (hu : T.is_signed = false)
    (s : List Nat) (front : Nat) (back : Option Nat) (value : Int) (isNonZero : Bool)
    (r : Int × Bool) (hv : 0 ≤ value ∧ value < (2 : Int) ^ T.bits)
    (h : read_fractional_value T s front back value isNonZero = some r) :
    0 ≤ r.1 ∧ r.1 < (2 : Int) ^ T.bits := by
  unfold read_fractional_value at h
  obtain ⟨q, hq, hr⟩ := Option.map_eq_some'.mp h
  rw [← hr]
  exact read_fractional_loop_range T hu s front _ value false q hv hq

end details

theorem numeric_cast_parts_range (T : NumericType) (hu : T.is_signed = false)
    (pow : Nat → Option Int) (s : List Nat) (v : numeric_cast_locals)
    (h : numeric_cast_parts T pow s = some v) :
    (0 ≤ v.integer_part ∧ v.integer_part < (2 : Int) ^ T.bits) ∧
      (0 ≤ v.fractional_part ∧ v.fractional_part < (2 : Int) ^ T.bits) := by
  have hz : (0 : Int) ≤ 0 ∧ (0 : Int) < (2 : Int) ^ T.bits := ⟨le_refl _, by positivity⟩
  unfold numeric_cast_parts at h
  dsimp only at h
  split at h
  · exact absurd h (by simp)
  · split at h
    · split at h
      · exact absurd h (by simp)
      · rename_i r1 h1
        have hr1 := details.read_integer_value_range T hu _ _ _ _ r1 hz h1
        split at h
        · split at h
          · exact absurd h (by simp)
          · rename_i r2 h2
            split at h
            · exact absurd h (by simp)
            · obtain ⟨x, hx, hv⟩ := Option.map_eq_some'.mp h
              rw [← hv]
              exact ⟨details.bind_convert_range T hu _ x hx, hz⟩
        · split at h
          · exact absurd h (by simp)
          · rename_i r2 h2
            have hr2 := details.read_integer_value_range T hu _ _ _ _ r2 hr1 h2
            obtain ⟨f, hf, hv⟩ := Option.map_eq_some'.mp h
            rw [← hv]
            exact ⟨hr2, details.read_fractional_value_range T hu _ _ _ _ _ f hz hf⟩
    · split at h
      · exact absurd h (by simp)
      · rename_i f1 h1
        have hf1 := details.read_fractional_value_range T hu _ _ _ _ _ f1 hz h1
        split at h
        · split at h
          · exact absurd h (by simp)
          · rename_i f2 h2
            split at h
            · exact absurd h (by simp)
            · split at h
              · exact absurd h (by simp)
              · obtain ⟨x, hx, hv⟩ := Option.map_eq_some'.mp h
                rw [← hv]
                exact ⟨hz, details.bind_convert_range T hu _ x hx⟩
        · split at h
          · exact absurd h (by simp)
          · rename_i r1 h2
            have hr1 := details.read_integer_value_range T hu _ _ _ _ r1 hz h2
            obtain ⟨f, hf, hv⟩ := Option.map_eq_some'.mp h
            rw [← hv]
            exact ⟨hr1, details.read_fractional_value_range T hu _ _ _ _ _ f hf1 hf⟩

namespace details

theorem read_fractional_loop_flag (T : NumericType) (s : List Nat) (front : Nat) (n : Nat) :
    ∀ (value : Int) (nonZero : Bool) (r : Int × Bool),
      read_fractional_loop T s front n value nonZero = some r →
      r.2 = (nonZero || (List.range n).any (fun k => char_at s (front + k) != 48)) := by
  induction n with
  | zero =>
    intro value nonZero r h
    unfold read_fractional_loop at h
    rw [← Option.some.inj h]
    simp
  | succ n ih =>
    intro value nonZero r h
    unfold read_fractional_loop at h
    split at h
    · exact absurd h (by simp)
    · rename_i v hstep
      rw [ih v _ r h, List.range_succ, List.any_append, List.any_cons, List.any_nil,
        Bool.or_false, Bool.or_assoc,
        Bool.or_comm (char_at s (front + n) != 48)]

theorem read_fractional_value_flag (T : NumericType) (s : List Nat) (front back : Nat)
    (value : Int) (isNonZero : Bool) (r : Int × Bool)
    (h : read_fractional_value T s front (some back) value isNonZero = some r) :
    r.2 = (isNonZero ||
      (List.range (back - front)).any (fun k => char_at s (front + k) != 48)) := by
  unfold read_fractional_value at h
  obtain ⟨q, hq, hr⟩ := Option.map_eq_some'.mp h
  rw [← hr, read_fractional_loop_flag T s front _ value false q hq, Bool.false_or]

theorem read_step_unsigned (T : NumericType) (hu : T.is_signed = false)
    (hw : T.is_standard) (value : Int) (ch : Nat) (hc : is_digit ch = true)
    (h0 : 0 ≤ value) (h1 : value < (2 : Int) ^ T.bits) :
    ((T.arith (value * 10)).bind (fun m =>
        (to_digit T ch).bind (fun dg => (T.arith (m + dg)).bind T.convert))) =
      some ((value * 10 + ((ch : Int) - 48)) % (2 : Int) ^ T.bits) := by
  have hc2 := (is_digit_iff ch).mp hc
  have hM : (256 : Int) ≤ (2 : Int) ^ T.bits := by
    rcases hw with h | h | h | h <;> rw [h] <;> norm_num
  have e2 : to_digit T ch = some ((ch : Int) - 48) :=
    T.convert_unsigned_id hu _ (by omega) (by omega)
  rcases hw with h | h | h | h
  · have hb : (2 : Int) ^ T.bits = 256 := by rw [h]; norm_num
    rw [T.arith_narrow (by omega) _ (by omega) (by omega), Option.some_bind, e2,
      Option.some_bind, T.arith_narrow (by omega) _ (by omega) (by omega), Option.some_bind,
      T.convert_unsigned hu]
  · have hb : (2 : Int) ^ T.bits = 65536 := by rw [h]; norm_num
    rw [T.arith_narrow (by omega) _ (by omega) (by omega), Option.some_bind, e2,
      Option.some_bind, T.arith_narrow (by omega) _ (by omega) (by omega), Option.some_bind,
      T.convert_unsigned hu]
  · rw [T.arith_wide_unsigned hu (by omega), Option.some_bind, e2, Option.some_bind,
      T.arith_wide_unsigned hu (by omega), Option.some_bind, T.convert_unsigned hu,
      Int.emod_emod_of_dvd _ (dvd_refl _), Int.emod_add_emod]
  · rw [T.arith_wide_unsigned hu (by omega), Option.some_bind, e2, Option.some_bind,
      T.arith_wide_unsigned hu (by omega), Option.some_bind, T.convert_unsigned hu,
      Int.emod_emod_of_dvd _ (dvd_refl _), Int.emod_add_emod]

theorem foldl_digits_mod (M : Nat) (digits : List Nat) :
    ∀ (a b : Nat), a % M = b % M →
      digits.foldl (fun acc ch => acc * 10 + (ch - 48)) a % M =
        digits.foldl (fun acc ch => acc * 10 + (ch - 48)) b % M := by
  induction digits with
  | nil => exact fun a b h => h
  | cons c rest ih =>
    intro a b h
    rw [List.foldl_cons, List.foldl_cons]
    have h1 : a ≡ b [MOD M] := h
    exact ih _ _ ((h1.mul_right 10).add_right (c - 48))

theorem read_integer_value_from_unsigned (T : NumericType) (hu : T.is_signed = false)
    (hw : T.is_standard) (B : Nat) (digits : List Nat) :
    ∀ (front value : Nat), (∀ c ∈ digits, is_digit c = true) → B = front + digits.length →
      read_integer_value_from T (some B) digits front ((value % 2 ^ T.bits : Nat) : Int) =
        some (B, ((digits.foldl (fun acc ch => acc * 10 + (ch - 48)) value % 2 ^ T.bits : Nat) :
          Int)) := by
  induction digits with
  | nil =>
    intro front value _ hB
    subst hB
    rfl
  | cons c rest ih =>
    intro front value hd hB
    have hc := hd c (List.mem_cons_self _ _)
    have hc2 := (is_digit_iff c).mp hc
    have hpos : 0 < 2 ^ T.bits := Nat.pow_pos (by decide)
    have hlt : value % 2 ^ T.bits < 2 ^ T.bits := Nat.mod_lt _ hpos
    have hstep := read_step_unsigned T hu hw ((value % 2 ^ T.bits : Nat) : Int) c hc
      (by omega) (by exact_mod_cast hlt)
    have hcast : ((c : Int) - 48) = ((c - 48 : Nat) : Int) := by omega
    have hval : ((((value % 2 ^ T.bits : Nat) : Int) * 10 + ((c : Int) - 48)) %
        (2 : Int) ^ T.bits) = (((value * 10 + (c - 48)) % 2 ^ T.bits : Nat) : Int) := by
      rw [hcast]
      push_cast
      rw [Int.add_emod, Int.mul_emod, Int.emod_emod_of_dvd _ (dvd_refl _), ← Int.mul_emod,
        ← Int.add_emod]
    have hne : some front ≠ some B := by
      rw [hB, List.length_cons]
      intro h
      have := Option.some.inj h
      omega
    unfold read_integer_value_from
    rw [if_pos ⟨hne, hc⟩, hstep, hval, List.foldl_cons]
    exact ih (front + 1) _ (fun x hx => hd x (List.mem_cons_of_mem _ hx))
      (by rw [hB, List.length_cons]; omega)

theorem read_integer_value_unsigned (T : NumericType) (hu : T.is_signed = false)
    (hw : T.is_standard) (pre digits : List Nat) (hd : ∀ c ∈ digits, is_digit c = true) :
    read_integer_value T (pre ++ digits) pre.length (some (pre ++ digits).length) 0 =
      some ((pre ++ digits).length, ((decimal_value digits % 2 ^ T.bits : Nat) : Int)) := by
  have hpos : 0 < 2 ^ T.bits := Nat.pow_pos (by decide)
  have h := read_integer_value_from_unsigned T hu hw (pre ++ digits).length digits pre.length 0
    hd (List.length_append _ _)
  rw [Nat.zero_mod] at h
  unfold read_integer_value
  rw [List.drop_left]
  exact h

end details

/-! ## `numeric_cast` at an unsigned type on a string with a leading minus sign -/

theorem numeric_cast_unsigned_minus (T : NumericType) (hu : T.is_signed = false)
    (hw : T.is_standard) (pow : Nat → Option Int) (s : List Nat)
    (hm : details.char_at s 0 = 45) (v : numeric_cast_locals)
    (hv : numeric_cast_parts T pow s = some v) :
    numeric_cast T pow s =
      if v.integer_part ≠ 0 ∨ v.fractionNonZero = true
      then some (Except.error std_exception.invalid_argument)
      else some (Except.ok ((v.integer_part + v.fractional_part) % (2 : Int) ^ T.bits)) := by
  obtain ⟨hi, hf⟩ := numeric_cast_parts_range T hu pow s v hv
  have hsum := T.sum_unsigned hu hw v.integer_part v.fractional_part hi.1 hi.2 hf.1 hf.2
  unfold numeric_cast
  rw [hv]
  simp only [hsum, hm, beq_self_eq_true, Bool.true_and]
  by_cases hc : v.integer_part ≠ 0 ∨ v.fractionNonZero = true
  · have hb : (v.integer_part != 0 || v.fractionNonZero) = true := by
      rcases hc with h | h
      · simp [h]
      · simp [h]
    rw [if_pos hb, if_pos hc]
    unfold details.negate
    rw [hu]
    rfl
  · have hb : ¬ ((v.integer_part != 0 || v.fractionNonZero) = true) := by
      intro h
      apply hc
      rcases Bool.or_eq_true _ _ ▸ h with h1 | h1
      · exact Or.inl (by simpa using h1)
      · exact Or.inr h1
    rw [if_neg hb, if_neg hc]

theorem numeric_cast_unsigned_minus_undefined (T : NumericType) (pow : Nat → Option Int)
    (s : List Nat) (hv : numeric_cast_parts T pow s = none) : numeric_cast T pow s = none := by
  unfold numeric_cast
  rw [hv]

theorem numeric_cast_unsigned_plain (T : NumericType) (hu : T.is_signed = false)
    (hw : T.is_standard) (pow : Nat → Option Int) (digits : List Nat)
    (hd : ∀ c ∈ digits, details.is_digit c = true) :
    numeric_cast T pow (45 :: digits) =
      if decimal_value digits % 2 ^ T.bits = 0 then some (Except.ok 0)
      else some (Except.error std_exception.invalid_argument) := by
  have hparts := numeric_cast_parts_plain T pow ([45] ++ digits) 1
    ((decimal_value digits % 2 ^ T.bits : Nat) : Int)
    (skip_sign_plain [45] digits (Or.inr (Or.inr rfl)) hd)
    (details.skip_digits_append [45] digits hd)
    (details.read_integer_value_unsigned T hu hw [45] digits hd)
  have hm : details.char_at ([45] ++ digits) 0 = 45 := by
    unfold details.char_at
    rfl
  have h := numeric_cast_unsigned_minus T hu hw pow ([45] ++ digits) hm _ hparts
  rw [show (45 :: digits) = [45] ++ digits from rfl, h]
  by_cases hz : decimal_value digits % 2 ^ T.bits = 0
  · rw [if_pos hz, if_neg (by simp [hz])]
    simp [hz]
  · have hz2 : ((decimal_value digits % 2 ^ T.bits : Nat) : Int) ≠ 0 := by
      exact_mod_cast hz
    rw [if_neg hz, if_pos (Or.inl hz2)]

/-! ## The properties -/

/-- C1. UTF-8 round trip: for every code point `cp` of `[0, 0x10FFFF]` outside
`[0xD800, 0xDFFF]`, `utf_traits<char>::read` at the first byte stored by
`utf_traits<char>::write(pos, cp)` returns `cp` together with the position `write` returned,
which is `pos + code_point_size(cp)`. This holds for a raw pointer `pos` into memory `m` (read
back as the array of its first `n` units) and for a `std::back_inserter` on a container `pre`
(read back with any units `suf` after it). -/
theorem utf8_round_trip (cp : Nat) (h : valid_code_point cp) (m : Mem) (pos n : Nat)
    (hn : pos + utf_traits_char.code_point_size_char32 cp ≤ n) (pre suf : List Nat) :
    utf_traits_char.read ((utf_traits_char.write raw_pointer (m, pos) cp).1.view n) pos =
        some (cp, (utf_traits_char.write raw_pointer (m, pos) cp).2) ∧
      (utf_traits_char.write raw_pointer (m, pos) cp).2 =
        pos + utf_traits_char.code_point_size_char32 cp ∧
      utf_traits_char.read (utf_traits_char.write back_inserter pre cp ++ suf) pre.length =
        some (cp, (utf_traits_char.write back_inserter pre cp).length) ∧
      (utf_traits_char.write back_inserter pre cp).length =
        pre.length + utf_traits_char.code_point_size_char32 cp := by
  have hle : cp ≤ 0x1FFFFF := by have := h.1; omega
  have hlen := utf_traits_char.units_length cp
  have hpos : (utf_traits_char.write raw_pointer (m, pos) cp).2 =
      pos + utf_traits_char.code_point_size_char32 cp := by
    rw [utf_traits_char.write_eq_foldl, foldl_put_raw, hlen]
  have hback : utf_traits_char.write back_inserter pre cp =
      pre ++ utf_traits_char.write back_inserter [] cp := by
    rw [utf_traits_char.write_eq_foldl, foldl_put_back]
  have hblen : (utf_traits_char.write back_inserter pre cp).length =
      pre.length + utf_traits_char.code_point_size_char32 cp := by
    rw [hback, List.length_append, hlen]
  refine ⟨?_, hpos, ?_, hblen⟩
  · rw [hpos]
    apply utf_traits_char.read_units _ hle
    rw [utf_traits_char.write_eq_foldl]
    exact holdsAt_raw _ m pos n (by rw [hlen]; exact hn)
  · rw [hblen]
    apply utf_traits_char.read_units _ hle
    rw [hback]
    exact holdsAt_append pre _ suf

/-- The UTF-8 round trip at U+20AC, stored at address 2 and appended after one unit. -/
theorem utf8_round_trip_witness :
    utf_traits_char.read ((utf_traits_char.write raw_pointer (fun _ => 0, 2) 0x20AC).1.view 8) 2 =
        some (0x20AC, (utf_traits_char.write raw_pointer (fun _ => 0, 2) 0x20AC).2) ∧
      (utf_traits_char.write raw_pointer (fun _ => 0, 2) 0x20AC).2 =
        2 + utf_traits_char.code_point_size_char32 0x20AC ∧
      utf_traits_char.read (utf_traits_char.write back_inserter [0x41] 0x20AC ++ [0x42])
          [0x41].length =
        some (0x20AC, (utf_traits_char.write back_inserter [0x41] 0x20AC).length) ∧
      (utf_traits_char.write back_inserter [0x41] 0x20AC).length =
        [0x41].length + utf_traits_char.code_point_size_char32 0x20AC :=
  utf8_round_trip 0x20AC (by decide) (fun _ => 0) 2 8 (by decide) [0x41] [0x42]

/-- C2. UTF-16 round trip: for every code point `cp` of `[0, 0x10FFFF]` outside
`[0xD800, 0xDFFF]`, `utf_traits<char16_t>::read` at the first unit stored by
`utf_traits<char16_t>::write(pos, cp)` returns `cp` together with the position `write`
returned. This holds for a raw pointer `pos` into memory `m` (read back as the array of its
first `n` units) and for a `std::back_inserter` on a container `pre`. -/
theorem utf16_round_trip (cp : Nat) (h : valid_code_point cp) (m : Mem) (pos n : Nat)
    (hn : pos + utf_traits_char16_t.code_point_size_char32 cp ≤ n) (pre suf : List Nat) :
    utf_traits_char16_t.read ((utf_traits_char16_t.write raw_pointer (m, pos) cp).1.view n) pos =
        some (cp, (utf_traits_char16_t.write raw_pointer (m, pos) cp).2) ∧
      (utf_traits_char16_t.write raw_pointer (m, pos) cp).2 =
        pos + utf_traits_char16_t.code_point_size_char32 cp ∧
      utf_traits_char16_t.read (utf_traits_char16_t.write back_inserter pre cp ++ suf)
          pre.length =
        some (cp, (utf_traits_char16_t.write back_inserter pre cp).length) := by
  have hlen := utf_traits_char16_t.units_length_u16 cp
  have hpos : (utf_traits_char16_t.write raw_pointer (m, pos) cp).2 =
      pos + utf_traits_char16_t.code_point_size_char32 cp := by
    rw [utf_traits_char16_t.write_eq_foldl_u16, foldl_put_raw, hlen]
  have hback : utf_traits_char16_t.write back_inserter pre cp =
      pre ++ utf_traits_char16_t.write back_inserter [] cp := by
    rw [utf_traits_char16_t.write_eq_foldl_u16, foldl_put_back]
  have hblen : (utf_traits_char16_t.write back_inserter pre cp).length =
      pre.length + utf_traits_char16_t.code_point_size_char32 cp := by
    rw [hback, List.length_append, hlen]
  refine ⟨?_, hpos, ?_⟩
  · rw [hpos]
    apply utf_traits_char16_t.read_units_u16 _ h
    rw [utf_traits_char16_t.write_eq_foldl_u16]
    exact holdsAt_raw _ m pos n (by rw [hlen]; exact hn)
  · rw [hblen]
    apply utf_traits_char16_t.read_units_u16 _ h
    rw [hback]
    exact holdsAt_append pre _ suf

/-- The UTF-16 round trip at U+1F600, stored at address 1 and appended after one unit. -/
theorem utf16_round_trip_witness :
    utf_traits_char16_t.read
        ((utf_traits_char16_t.write raw_pointer (fun _ => 0, 1) 0x1F600).1.view 4) 1 =
        some (0x1F600, (utf_traits_char16_t.write raw_pointer (fun _ => 0, 1) 0x1F600).2) ∧
      (utf_traits_char16_t.write raw_pointer (fun _ => 0, 1) 0x1F600).2 =
        1 + utf_traits_char16_t.code_point_size_char32 0x1F600 ∧
      utf_traits_char16_t.read (utf_traits_char16_t.write back_inserter [0x41] 0x1F600 ++ [])
          [0x41].length =
        some (0x1F600, (utf_traits_char16_t.write back_inserter [0x41] 0x1F600).length) :=
  utf16_round_trip 0x1F600 (by decide) (fun _ => 0) 1 4 (by decide) [0x41] []

/-- C3. Sequence round trip: for every list `L` of valid code points and each of UTF-8,
UTF-16 and UTF-32, assigning the elements of `L` in order through a `utf_output_iterator`
(`*itr++ = cp`) into an empty container and then walking that container with a `utf_iterator`
from its first unit (dereference, then increment, `L.length` times) yields exactly `L`, and
the iterator then equals the end of the container. Moreover the bytes of "foobar" decode to
`[0x66, 0x6F, 0x6F, 0x62, 0x61, 0x72]`, which re-encode to the same bytes in UTF-8 and to the
six 32-bit units in UTF-32. -/
theorem sequence_round_trip (c : CharTy) (L : List Nat) (h : ∀ cp ∈ L, valid_code_point cp) :
    (∃ it, walk (utf_traits c) (output_all (utf_traits c) back_inserter { itr := [] } L).itr
          L.length { itr := 0 } = some (L, it) ∧
        it.eq { itr := (output_all (utf_traits c) back_inserter { itr := [] } L).itr.length } =
          true) ∧
      walk (utf_traits .char) [0x66, 0x6F, 0x6F, 0x62, 0x61, 0x72] 6 { itr := 0 } =
        some ([0x66, 0x6F, 0x6F, 0x62, 0x61, 0x72], { itr := 6 }) ∧
      (output_all (utf_traits .char) back_inserter { itr := [] }
          [0x66, 0x6F, 0x6F, 0x62, 0x61, 0x72]).itr = [0x66, 0x6F, 0x6F, 0x62, 0x61, 0x72] ∧
      (output_all (utf_traits .char32_t) back_inserter { itr := [] }
          [0x66, 0x6F, 0x6F, 0x62, 0x61, 0x72]).itr = [0x66, 0x6F, 0x6F, 0x62, 0x61, 0x72] := by
  have hreg : ∀ cp ∈ L, (utf_traits c).Regular cp := fun cp hcp => regular_of_valid c (h cp hcp)
  refine ⟨?_, by decide, by decide, by decide⟩
  have hout := output_all_back (utf_traits c) L hreg []
  have hw := walk_flatMap (utf_traits c) L hreg [] []
  simp only [List.nil_append, List.append_nil, List.length_nil] at hout hw
  rw [hout, hw]
  exact ⟨_, rfl, by simp [utf_iterator.eq, utf_iterator.ne]⟩

/-- The sequence round trip on the code points of the test string, in UTF-16. -/
theorem sequence_round_trip_witness :
    ∃ it, walk (utf_traits .char16_t)
        (output_all (utf_traits .char16_t) back_inserter { itr := [] }
          [0x7F, 0x80, 0x7FF, 0x800, 0xD7FF, 0xE000, 0xFFFF, 0x10000, 0x10FFFF]).itr
        [0x7F, 0x80, 0x7FF, 0x800, 0xD7FF, 0xE000, 0xFFFF, 0x10000, 0x10FFFF].length
        { itr := 0 } =
        some ([0x7F, 0x80, 0x7FF, 0x800, 0xD7FF, 0xE000, 0xFFFF, 0x10000, 0x10FFFF], it) ∧
      it.eq { itr := (output_all (utf_traits .char16_t) back_inserter { itr := [] }
          [0x7F, 0x80, 0x7FF, 0x800, 0xD7FF, 0xE000, 0xFFFF, 0x10000, 0x10FFFF]).itr.length } =
        true :=
  (sequence_round_trip .char16_t
    [0x7F, 0x80, 0x7FF, 0x800, 0xD7FF, 0xE000, 0xFFFF, 0x10000, 0x10FFFF] (by decide)).1

/-- C4. Bidirectional symmetry: on the concatenation `s` of the encodings of the valid code
points `L` (UTF-8, UTF-16 or UTF-32), iterating a `utf_iterator` forward from begin to end
yields `L`, and repeatedly decrementing from end to begin, dereferencing after each decrement,
yields the reverse of `L`; both loops finish within `s.length + 1` rounds. The forward list is
therefore the exact reverse of the backward list. -/
theorem bidirectional_symmetry (c : CharTy) (L : List Nat) (h : ∀ cp ∈ L, valid_code_point cp)
    (s : List Nat) (hs : s = L.flatMap (utf_traits c).units) :
    ∃ fwd bwd,
      collect_forward (utf_traits c) s { itr := s.length } (s.length + 1) { itr := 0 } =
        some fwd ∧
      collect_backward (utf_traits c) s { itr := 0 } (s.length + 1) { itr := s.length } =
        some bwd ∧
      fwd = bwd.reverse ∧ fwd = L := by
  subst hs
  have hreg : ∀ cp ∈ L, (utf_traits c).Regular cp := fun cp hcp => regular_of_valid c (h cp hcp)
  have hfuel : L.length < (L.flatMap (utf_traits c).units).length + 1 := by
    have := length_le_flatMap (utf_traits c) L hreg
    omega
  have hf := collect_forward_flatMap (utf_traits c) L hreg [] _ hfuel
  have hb := collect_backward_flatMap (utf_traits c) L hreg [] _ hfuel
  simp only [List.nil_append, List.append_nil, List.length_nil] at hf hb
  exact ⟨L, L.reverse, hf, hb, by simp, rfl⟩

/-- The symmetry on the UTF-8 encoding of the code points of the test string. -/
theorem bidirectional_symmetry_witness :
    ∃ fwd bwd,
      collect_forward (utf_traits .char)
          ([0x7F, 0x80, 0x7FF, 0x800, 0xD7FF, 0xE000, 0xFFFF, 0x10000, 0x10FFFF].flatMap
            (utf_traits .char).units)
          { itr := ([0x7F, 0x80, 0x7FF, 0x800, 0xD7FF, 0xE000, 0xFFFF, 0x10000,
            0x10FFFF].flatMap (utf_traits .char).units).length }
          (([0x7F, 0x80, 0x7FF, 0x800, 0xD7FF, 0xE000, 0xFFFF, 0x10000, 0x10FFFF].flatMap
            (utf_traits .char).units).length + 1) { itr := 0 } = some fwd ∧
      collect_backward (utf_traits .char)
          ([0x7F, 0x80, 0x7FF, 0x800, 0xD7FF, 0xE000, 0xFFFF, 0x10000, 0x10FFFF].flatMap
            (utf_traits .char).units)
          { itr := 0 }
          (([0x7F, 0x80, 0x7FF, 0x800, 0xD7FF, 0xE000, 0xFFFF, 0x10000, 0x10FFFF].flatMap
            (utf_traits .char).units).length + 1)
          { itr := ([0x7F, 0x80, 0x7FF, 0x800, 0xD7FF, 0xE000, 0xFFFF, 0x10000,
            0x10FFFF].flatMap (utf_traits .char).units).length } = some bwd ∧
      fwd = bwd.reverse ∧
      fwd = [0x7F, 0x80, 0x7FF, 0x800, 0xD7FF, 0xE000, 0xFFFF, 0x10000, 0x10FFFF] :=
  bidirectional_symmetry .char
    [0x7F, 0x80, 0x7FF, 0x800, 0xD7FF, 0xE000, 0xFFFF, 0x10000, 0x10FFFF] (by decide) _ rfl

/-- C5. Unit-count consistency: for every valid code point `cp` and each of UTF-8, UTF-16 and
UTF-32, `code_point_size(cp)` computed from the code point equals `code_point_size` applied
to the first storage unit that `write` emits for `cp`. -/
theorem unit_count_consistency (c : CharTy) (cp : Nat) (h : valid_code_point cp) :
    (((utf_traits c).units cp).head?).map (utf_traits c).code_point_size =
      some ((utf_traits c).code_point_size_char32 cp) := by
  obtain ⟨u, rest, hu, hsz, -⟩ := (regular_of_valid c h).lead
  rw [hu]
  simp [hsz]

/-- The unit-count consistency at U+10FFFF in UTF-16, whose first unit is a high
surrogate. -/
theorem unit_count_consistency_witness :
    (((utf_traits .char16_t).units 0x10FFFF).head?).map (utf_traits .char16_t).code_point_size =
      some ((utf_traits .char16_t).code_point_size_char32 0x10FFFF) :=
  unit_count_consistency .char16_t 0x10FFFF (by decide)

/-- C6. UTF-8 decode equals the reference definition: for a well-formed lead byte `b0`
(`0xxxxxxx`, `110xxxxx`, `1110xxxx` or `11110xxx`) followed by the `n - 1` bytes `following`,
where `n = code_point_size(b0)`, `utf_traits<char>::read` returns the value whose bits are the
payload of `b0` (its low 7, 5, 4 or 3 bits) followed by the low 6 bits of each following byte
in order, and a position advanced by exactly `n`. -/
theorem utf8_read_reference (b0 : Nat) (following pre suf : List Nat)
    (hb : well_formed_lead b0)
    (hn : following.length + 1 = utf_traits_char.code_point_size b0) :
    utf_traits_char.read (pre ++ (b0 :: following) ++ suf) pre.length =
      some (reference_decode b0 following,
        pre.length + utf_traits_char.code_point_size b0) := by
  have hs := holdsAt_append pre (b0 :: following) suf
  have h0 : deref (pre ++ (b0 :: following) ++ suf) pre.length = some b0 := hs.get 0 (by simp)
  rw [utf_traits_char.code_point_size_eq] at hn
  rcases hb with hb | hb | hb | hb
  · have hsz : utf_traits_char.code_point_size b0 = 1 := by
      rw [utf_traits_char.code_point_size_eq]; split_ifs <;> omega
    rw [if_pos (by omega)] at hn
    obtain rfl : following = [] := List.length_eq_zero.mp (by omega)
    rw [utf_traits_char.read_size1 h0 hsz, hsz]
    simp only [reference_decode, lead_payload, List.foldl_nil]
    rw [if_pos hb]
    rfl
  · have hsz : utf_traits_char.code_point_size b0 = 2 := by
      rw [utf_traits_char.code_point_size_eq]; split_ifs <;> omega
    rw [if_neg (by omega), if_pos (by omega)] at hn
    obtain ⟨b1, rfl⟩ : ∃ b1, following = [b1] := List.length_eq_one.mp (by omega)
    have h1 : deref (pre ++ [b0, b1] ++ suf) (pre.length + 1) = some b1 := hs.get 1 (by simp)
    rw [utf_traits_char.read_size2 h0 h1 hsz, hsz]
    simp only [reference_decode, lead_payload, List.foldl_cons, List.foldl_nil]
    rw [if_neg (by omega), if_pos (by omega)]
    simp only [Option.some.injEq, Prod.mk.injEq, and_true]
    omega
  · have hsz : utf_traits_char.code_point_size b0 = 3 := by
      rw [utf_traits_char.code_point_size_eq]; split_ifs <;> omega
    rw [if_neg (by omega), if_neg (by omega), if_pos (by omega)] at hn
    obtain ⟨b1, b2, rfl⟩ : ∃ b1 b2, following = [b1, b2] := List.length_eq_two.mp (by omega)
    have h1 : deref (pre ++ [b0, b1, b2] ++ suf) (pre.length + 1) = some b1 :=
      hs.get 1 (by simp)
    have h2 : deref (pre ++ [b0, b1, b2] ++ suf) (pre.length + 2) = some b2 :=
      hs.get 2 (by simp)
    rw [utf_traits_char.read_size3 h0 h1 h2 hsz, hsz]
    simp only [reference_decode, lead_payload, List.foldl_cons, List.foldl_nil]
    rw [if_neg (by omega), if_neg (by omega), if_pos (by omega)]
    simp only [Option.some.injEq, Prod.mk.injEq, and_true]
    omega
  · have hsz : utf_traits_char.code_point_size b0 = 4 := by
      rw [utf_traits_char.code_point_size_eq]; split_ifs <;> omega
    rw [if_neg (by omega), if_neg (by omega), if_neg (by omega)] at hn
    obtain ⟨b1, b2, b3, rfl⟩ : ∃ b1 b2 b3, following = [b1, b2, b3] :=
      List.length_eq_three.mp (by omega)
    have h1 : deref (pre ++ [b0, b1, b2, b3] ++ suf) (pre.length + 1) = some b1 :=
      hs.get 1 (by simp)
    have h2 : deref (pre ++ [b0, b1, b2, b3] ++ suf) (pre.length + 2) = some b2 :=
      hs.get 2 (by simp)
    have h3 : deref (pre ++ [b0, b1, b2, b3] ++ suf) (pre.length + 3) = some b3 :=
      hs.get 3 (by simp)
    rw [utf_traits_char.read_size4 h0 h1 h2 h3 hsz, hsz]
    simp only [reference_decode, lead_payload, List.foldl_cons, List.foldl_nil]
    rw [if_neg (by omega), if_neg (by omega), if_neg (by omega)]
    simp only [Option.some.injEq, Prod.mk.injEq, and_true]
    omega

/-- The reference value on the bytes `E2 82 AC` of U+20AC, after one unit. -/
theorem utf8_read_reference_witness :
    utf_traits_char.read ([0x41] ++ (0xE2 :: [0x82, 0xAC]) ++ [0x42]) [0x41].length =
      some (reference_decode 0xE2 [0x82, 0xAC],
        [0x41].length + utf_traits_char.code_point_size 0xE2) :=
  utf8_read_reference 0xE2 [0x82, 0xAC] [0x41] [0x42] (by decide) (by decide)

/-- C7. UTF-16 decode of a surrogate pair: for every `high` in `[0xD800, 0xDBFF]` and `low`
in `[0xDC00, 0xDFFF]`, `utf_traits<char16_t>::read` on the units `[high, low]` returns the code
point `0x10000 + (((high - 0xD800) << 10) | (low - 0xDC00))` and advances by 2; for every
16-bit unit `u` outside `[0xD800, 0xDFFF]` it returns `u` and advances by 1;
`utf_traits<char32_t>::read` passes the unit through unchanged and advances by 1. -/
theorem utf16_read_pair_single :
    (∀ (high low : Nat) (pre suf : List Nat), 0xD800 ≤ high → high ≤ 0xDBFF → 0xDC00 ≤ low →
        low ≤ 0xDFFF →
        utf_traits_char16_t.read (pre ++ [high, low] ++ suf) pre.length =
          some (0x10000 + (((high - 0xD800) <<< 10) ||| (low - 0xDC00)), pre.length + 2)) ∧
      (∀ (u : Nat) (pre suf : List Nat), u < 2 ^ 16 → ¬ (0xD800 ≤ u ∧ u ≤ 0xDFFF) →
        utf_traits_char16_t.read (pre ++ [u] ++ suf) pre.length = some (u, pre.length + 1)) ∧
      (∀ (u : Nat) (pre suf : List Nat),
        utf_traits_char32_t.read (pre ++ [u] ++ suf) pre.length = some (u, pre.length + 1)) := by
  refine ⟨?_, ?_, ?_⟩
  · intro high low pre suf h1 h2 h3 h4
    have hs := holdsAt_append pre [high, low] suf
    have e0 : deref (pre ++ [high, low] ++ suf) pre.length = some high := hs.get 0 rfl
    have e1 : deref (pre ++ [high, low] ++ suf) (pre.length + 1) = some low := hs.get 1 rfl
    rw [utf_traits_char16_t.read_pair_u16 e0 e1
      (by rw [utf_traits_char16_t.code_point_size_eq_u16]; split_ifs <;> omega),
      shl10_or _ _ (by omega)]
    simp only [Option.some.injEq, Prod.mk.injEq, and_true]
    omega
  · intro u pre suf h1 h2
    have hs := holdsAt_append pre [u] suf
    have e0 : deref (pre ++ [u] ++ suf) pre.length = some u := hs.get 0 rfl
    exact utf_traits_char16_t.read_single_u16 e0
      (by rw [utf_traits_char16_t.code_point_size_eq_u16]; split_ifs <;> omega)
  · intro u pre suf
    have hs := holdsAt_append pre [u] suf
    exact utf_traits_char32_t.read_single_u32 (hs.get 0 rfl)

/-- The three decode cases at the pair `D83D DE00`, the unit `20AC` and the 32-bit unit
`1F600`. -/
theorem utf16_read_pair_single_witness :
    utf_traits_char16_t.read ([] ++ [0xD83D, 0xDE00] ++ []) ([] : List Nat).length =
        some (0x10000 + (((0xD83D - 0xD800) <<< 10) ||| (0xDE00 - 0xDC00)),
          ([] : List Nat).length + 2) ∧
      utf_traits_char16_t.read ([0x41] ++ [0x20AC] ++ []) [0x41].length =
        some (0x20AC, [0x41].length + 1) ∧
      utf_traits_char32_t.read ([0x41] ++ [0x1F600] ++ []) [0x41].length =
        some (0x1F600, [0x41].length + 1) :=
  ⟨utf16_read_pair_single.1 0xD83D 0xDE00 [] [] (by decide) (by decide) (by decide) (by decide),
    utf16_read_pair_single.2.1 0x20AC [0x41] [] (by decide) (by decide),
    utf16_read_pair_single.2.2 0x1F600 [0x41] []⟩

/-- C8. UTF-8 encode emits a correctly-masked sequence: for every code point
`cp <= 0x10FFFF`, `utf_traits<char>::write` emits `n = code_point_size(cp)` bytes of which the
first has the lead pattern for `n` (`0xxxxxxx`, `110xxxxx`, `1110xxxx`, `11110xxx` for
`n = 1, 2, 3, 4`) and every following byte has the continuation form `10xxxxxx`; hence
`is_initial_code_unit` is true on the first byte and false on all the others. -/
theorem utf8_write_masked (cp : Nat) (h : cp ≤ 0x10FFFF) :
    ∃ b0 following, utf_traits_char.write back_inserter [] cp = b0 :: following ∧
      (b0 :: following).length = utf_traits_char.code_point_size_char32 cp ∧
      lead_pattern (utf_traits_char.code_point_size_char32 cp) b0 ∧
      (∀ b ∈ following, continuation_form b) ∧
      utf_traits_char.is_initial_code_unit b0 = true ∧
      (∀ b ∈ following, utf_traits_char.is_initial_code_unit b = false) := by
  obtain ⟨u, rest, hu, -, hi, hr⟩ := @utf_traits_char.size_first_unit cp (by omega)
  have hlen := utf_traits_char.units_length cp
  refine ⟨u, rest, hu, by rw [← hu, hlen], ?_, ?_, hi, hr⟩
  · unfold lead_pattern
    rw [and_0x80, and_0xE0, and_0xF0, and_0xF8]
    rcases utf_traits_char.size_char32_cases cp with c | c | c | c
    · rw [utf_traits_char.units_1 c.1] at hu
      obtain ⟨rfl, -⟩ := List.cons.inj hu
      rw [c.2]; omega
    · rw [utf_traits_char.units_2 c.1 c.2.1] at hu
      obtain ⟨rfl, -⟩ := List.cons.inj hu
      rw [c.2.2]; omega
    · rw [utf_traits_char.units_3 c.1 c.2.1] at hu
      obtain ⟨rfl, -⟩ := List.cons.inj hu
      rw [c.2.2]; omega
    · rw [utf_traits_char.units_4 c.1] at hu
      obtain ⟨rfl, -⟩ := List.cons.inj hu
      rw [c.2]; omega
  · intro b hb
    unfold continuation_form
    rw [and_0xC0]
    rcases utf_traits_char.size_char32_cases cp with c | c | c | c
    · rw [utf_traits_char.units_1 c.1] at hu
      obtain ⟨-, rfl⟩ := List.cons.inj hu
      simp at hb
    · rw [utf_traits_char.units_2 c.1 c.2.1] at hu
      obtain ⟨-, rfl⟩ := List.cons.inj hu
      simp only [List.mem_cons, List.mem_singleton, List.not_mem_nil, or_false] at hb
      omega
    · rw [utf_traits_char.units_3 c.1 c.2.1] at hu
      obtain ⟨-, rfl⟩ := List.cons.inj hu
      simp only [List.mem_cons, List.mem_singleton, List.not_mem_nil, or_false] at hb
      omega
    · rw [utf_traits_char.units_4 c.1] at hu
      obtain ⟨-, rfl⟩ := List.cons.inj hu
      simp only [List.mem_cons, List.mem_singleton, List.not_mem_nil, or_false] at hb
      omega

/-- The masked UTF-8 sequence at U+10FFFF. -/
theorem utf8_write_masked_witness :
    ∃ b0 following, utf_traits_char.write back_inserter [] 0x10FFFF = b0 :: following ∧
      (b0 :: following).length = utf_traits_char.code_point_size_char32 0x10FFFF ∧
      lead_pattern (utf_traits_char.code_point_size_char32 0x10FFFF) b0 ∧
      (∀ b ∈ following, continuation_form b) ∧
      utf_traits_char.is_initial_code_unit b0 = true ∧
      (∀ b ∈ following, utf_traits_char.is_initial_code_unit b = false) :=
  utf8_write_masked 0x10FFFF (by decide)

/-- C9. UTF-16 encode: for every `cp <= 0xFFFF`, `utf_traits<char16_t>::write` emits the
single unit `cp`; for every `cp` in `[0x10000, 0x10FFFF]` it emits exactly two units, first
`0xD800 + ((cp - 0x10000) >> 10)`, which lies in `[0xD800, 0xDBFF]`, then
`0xDC00 + ((cp - 0x10000) & 0x3FF)`, which lies in `[0xDC00, 0xDFFF]`. -/
theorem utf16_write_units :
    (∀ cp : Nat, cp ≤ 0xFFFF → utf_traits_char16_t.write back_inserter [] cp = [cp]) ∧
      (∀ cp : Nat, 0x10000 ≤ cp → cp ≤ 0x10FFFF →
        utf_traits_char16_t.write back_inserter [] cp =
          [0xD800 + ((cp - 0x10000) >>> 10), 0xDC00 + ((cp - 0x10000) &&& 0x3FF)] ∧
        0xD800 ≤ 0xD800 + ((cp - 0x10000) >>> 10) ∧
        0xD800 + ((cp - 0x10000) >>> 10) ≤ 0xDBFF ∧
        0xDC00 ≤ 0xDC00 + ((cp - 0x10000) &&& 0x3FF) ∧
        0xDC00 + ((cp - 0x10000) &&& 0x3FF) ≤ 0xDFFF) := by
  refine ⟨fun cp h => utf_traits_char16_t.units_1_u16 h, ?_⟩
  intro cp h1 h2
  rw [utf_traits_char16_t.units_2_u16 (by omega) (by omega), and_0x3FF, Nat.shiftRight_eq_div_pow]
  refine ⟨?_, by omega, by omega, by omega, by omega⟩
  simp only [List.cons.injEq, and_true]
  omega

/-- The two UTF-16 encode cases at U+20AC and U+1F600. -/
theorem utf16_write_units_witness :
    utf_traits_char16_t.write back_inserter [] 0x20AC = [0x20AC] ∧
      utf_traits_char16_t.write back_inserter [] 0x1F600 =
        [0xD800 + ((0x1F600 - 0x10000) >>> 10), 0xDC00 + ((0x1F600 - 0x10000) &&& 0x3FF)] :=
  ⟨utf16_write_units.1 0x20AC (by decide),
    (utf16_write_units.2 0x1F600 (by decide) (by decide)).1⟩

/-- C10. Surrogate-pair scenario: decoding the UTF-16 units `[0xD800, 0xDC00]` yields the
code point `0x10000`; encoding `0x10000` to UTF-16 yields exactly `[0xD800, 0xDC00]`; encoding
`0x10000` to UTF-8 yields exactly the 4 bytes `F0 90 80 80`. -/
theorem surrogate_pair_scenario :
    utf_iterator.deref (utf_traits .char16_t) [0xD800, 0xDC00] { itr := 0 } = some 0x10000 ∧
      utf_traits_char16_t.read [0xD800, 0xDC00] 0 = some (0x10000, 2) ∧
      utf_traits_char16_t.write back_inserter [] 0x10000 = [0xD800, 0xDC00] ∧
      (output_all (utf_traits .char16_t) back_inserter { itr := [] } [0x10000]).itr =
        [0xD800, 0xDC00] ∧
      utf_traits_char.write back_inserter [] 0x10000 = [0xF0, 0x90, 0x80, 0x80] ∧
      (output_all (utf_traits .char) back_inserter { itr := [] } [0x10000]).itr =
        [0xF0, 0x90, 0x80, 0x80] := by
  decide

/-- C11. UTF-8 lead-byte classification: for every byte `b`,
`utf_traits<char>::code_point_size(b)` is 1 when `b` has the form `0xxxxxxx`, 2 when
`110xxxxx`, 3 when `1110xxxx`, and 4 when `1111xxxx`; the forms are given both by their masks
and as ranges of the byte value. -/
theorem utf8_lead_classification (b : Nat) (hb : b < 0x100) :
    ((b &&& 0x80 = 0x00 ↔ b < 0x80) ∧
        (b < 0x80 → utf_traits_char.code_point_size b = 1)) ∧
      ((b &&& 0xE0 = 0xC0 ↔ 0xC0 ≤ b ∧ b < 0xE0) ∧
        (0xC0 ≤ b ∧ b < 0xE0 → utf_traits_char.code_point_size b = 2)) ∧
      ((b &&& 0xF0 = 0xE0 ↔ 0xE0 ≤ b ∧ b < 0xF0) ∧
        (0xE0 ≤ b ∧ b < 0xF0 → utf_traits_char.code_point_size b = 3)) ∧
      ((b &&& 0xF0 = 0xF0 ↔ 0xF0 ≤ b) ∧
        (0xF0 ≤ b → utf_traits_char.code_point_size b = 4)) := by
  rw [utf_traits_char.code_point_size_eq, and_0x80, and_0xE0, and_0xF0]
  refine ⟨⟨by omega, fun h => ?_⟩, ⟨by omega, fun h => ?_⟩, ⟨by omega, fun h => ?_⟩,
    ⟨by omega, fun h => ?_⟩⟩ <;> split_ifs <;> omega

/-- The classification at the four lead bytes `7F`, `DF`, `EF` and `F4`. -/
theorem utf8_lead_classification_witness :
    utf_traits_char.code_point_size 0x7F = 1 ∧ utf_traits_char.code_point_size 0xDF = 2 ∧
      utf_traits_char.code_point_size 0xEF = 3 ∧ utf_traits_char.code_point_size 0xF4 = 4 :=
  ⟨(utf8_lead_classification 0x7F (by decide)).1.2 (by decide),
    (utf8_lead_classification 0xDF (by decide)).2.1.2 (by decide),
    (utf8_lead_classification 0xEF (by decide)).2.2.1.2 (by decide),
    (utf8_lead_classification 0xF4 (by decide)).2.2.2.2 (by decide)⟩

/-- C12, as stated, fails: the low surrogate `0xDC00` is a 16-bit unit outside
`0xD800..0xDBFF`, and `utf_traits<char16_t>::code_point_size` gives 2 for it, not 1. -/
theorem utf16_lead_classification_counterexample :
    utf_traits_char16_t.code_point_size 0xDC00 = 2 ∧
      ¬ (∀ u : Nat, u < 2 ^ 16 →
        utf_traits_char16_t.code_point_size u =
          if 0xD800 ≤ u ∧ u ≤ 0xDBFF then 2 else 1) := by
  refine ⟨by decide, fun h => ?_⟩
  have := h 0xDC00 (by decide)
  revert this
  decide

/-- C12, amended. UTF-16 lead-unit classification: for every 16-bit unit `u`,
`utf_traits<char16_t>::code_point_size(u)` is 2 when `u` is in `0xD800..0xDFFF` (a high or a
low surrogate) and 1 for any other value of `u`. -/
theorem utf16_lead_classification (u : Nat) (hu : u < 2 ^ 16) :
    utf_traits_char16_t.code_point_size u = if 0xD800 ≤ u ∧ u ≤ 0xDFFF then 2 else 1 := by
  rw [utf_traits_char16_t.code_point_size_eq_u16]
  split_ifs <;> omega

/-- The amended classification at the low surrogate `0xDFFF`. -/
theorem utf16_lead_classification_witness :
    utf_traits_char16_t.code_point_size 0xDFFF =
      if 0xD800 ≤ 0xDFFF ∧ 0xDFFF ≤ 0xDFFF then 2 else 1 :=
  utf16_lead_classification 0xDFFF (by decide)

/-- C13. Unit count from a code point: for every 32-bit value `cp`, the UTF-8
`code_point_size(cp)` is 1 if `cp <= 0x7F`, 2 if `cp <= 0x7FF`, 3 if `cp <= 0xFFFF`, else 4;
the UTF-16 `code_point_size(cp)` is 1 if `cp <= 0xFFFF`, else 2; the UTF-32 `code_point_size`
is always 1. -/
theorem unit_count_from_code_point (cp : Nat) (hcp : cp < 2 ^ 32) :
    (utf_traits .char).code_point_size_char32 cp =
        (if cp ≤ 0x7F then 1 else if cp ≤ 0x7FF then 2 else if cp ≤ 0xFFFF then 3 else 4) ∧
      ((utf_traits .char).code_point_size_char32 cp = 1 ↔ cp ≤ 0x7F) ∧
      ((utf_traits .char).code_point_size_char32 cp = 2 ↔ 0x80 ≤ cp ∧ cp ≤ 0x7FF) ∧
      ((utf_traits .char).code_point_size_char32 cp = 3 ↔ 0x800 ≤ cp ∧ cp ≤ 0xFFFF) ∧
      ((utf_traits .char).code_point_size_char32 cp = 4 ↔ 0x10000 ≤ cp) ∧
      (utf_traits .char16_t).code_point_size_char32 cp = (if cp ≤ 0xFFFF then 1 else 2) ∧
      (utf_traits .char32_t).code_point_size_char32 cp = 1 := by
  have h8 : (utf_traits .char).code_point_size_char32 cp =
      utf_traits_char.code_point_size_char32 cp := rfl
  rw [h8]
  refine ⟨rfl, ?_, ?_, ?_, ?_, rfl, rfl⟩ <;>
    rcases utf_traits_char.size_char32_cases cp with c | c | c | c <;> omega

/-- The unit counts at U+10FFFF. -/
theorem unit_count_from_code_point_witness :
    (utf_traits .char).code_point_size_char32 0x10FFFF = 4 ∧
      (utf_traits .char16_t).code_point_size_char32 0x10FFFF = 2 ∧
      (utf_traits .char32_t).code_point_size_char32 0x10FFFF = 1 :=
  ⟨(unit_count_from_code_point 0x10FFFF (by decide)).1,
    (unit_count_from_code_point 0x10FFFF (by decide)).2.2.2.2.2.1,
    (unit_count_from_code_point 0x10FFFF (by decide)).2.2.2.2.2.2⟩

/-- C14. Lead-unit test: `is_initial_code_unit(u)` is true exactly when, for UTF-8, the top
two bits of the byte `u` are not `10`; for UTF-16, the 16-bit unit `u` is not in
`0xDC00..0xDFFF`; for UTF-32, always. -/
theorem lead_unit_test :
    (∀ u : Nat, u < 2 ^ 8 →
        ((utf_traits .char).is_initial_code_unit u = true ↔ u >>> 6 ≠ 0b10)) ∧
      (∀ u : Nat, u < 2 ^ 16 →
        ((utf_traits .char16_t).is_initial_code_unit u = true ↔
          ¬ (0xDC00 ≤ u ∧ u ≤ 0xDFFF))) ∧
      (∀ u : Nat, (utf_traits .char32_t).is_initial_code_unit u = true) := by
  refine ⟨fun u hu => ?_, fun u hu => ?_, fun u => rfl⟩
  · show utf_traits_char.is_initial_code_unit u = true ↔ _
    rw [utf_traits_char.is_initial_code_unit_eq, Nat.shiftRight_eq_div_pow]
    simp only [decide_eq_true_eq, ne_eq]
    omega
  · show utf_traits_char16_t.is_initial_code_unit u = true ↔ _
    rw [utf_traits_char16_t.is_initial_code_unit_eq_u16]
    simp only [decide_eq_true_eq, ne_eq]
    omega

/-- The lead-unit test at the continuation byte `0xBF` and at the low surrogate `0xDC00`. -/
theorem lead_unit_test_witness :
    ((utf_traits .char).is_initial_code_unit 0xBF = true ↔ 0xBF >>> 6 ≠ 0b10) ∧
      ((utf_traits .char16_t).is_initial_code_unit 0xDC00 = true ↔
        ¬ (0xDC00 ≤ 0xDC00 ∧ 0xDC00 ≤ 0xDFFF)) :=
  ⟨lead_unit_test.1 0xBF (by decide), lead_unit_test.2.1 0xDC00 (by decide)⟩

/-- C18. Capability capping: the iterator category of `utf_iterator<Itr>` is forward when
`Itr` is forward-only, and bidirectional when `Itr` is bidirectional or random-access (never
random-access); the decrement operators are available exactly when that category is
bidirectional, and an `Itr` weaker than forward is rejected. -/
theorem capability_capping :
    utf_iterator.iterator_category .forward_iterator_tag = some .forward_iterator_tag ∧
      utf_iterator.iterator_category .bidirectional_iterator_tag =
        some .bidirectional_iterator_tag ∧
      utf_iterator.iterator_category .random_access_iterator_tag =
        some .bidirectional_iterator_tag ∧
      (∀ c, utf_iterator.iterator_category c ≠ some .random_access_iterator_tag) ∧
      (∀ c, utf_iterator.decrement_enabled c = true ↔
        utf_iterator.iterator_category c = some .bidirectional_iterator_tag) ∧
      (∀ c, utf_iterator.static_assert_holds c = true ↔
        c = .forward_iterator_tag ∨ c = .bidirectional_iterator_tag ∨
          c = .random_access_iterator_tag) ∧
      utf_iterator.static_assert_holds .input_iterator_tag = false ∧
      utf_iterator.static_assert_holds .output_iterator_tag = false := by
  refine ⟨rfl, rfl, rfl, ?_, ?_, ?_, rfl, rfl⟩
  · intro c; cases c <;> decide
  · intro c; cases c <;> decide
  · intro c; cases c <;> decide

/-- C15. Advance agrees with decode: for each of UTF-8, UTF-16 and UTF-32 and every position
`pos` of a unit sequence `s`, `Traits::next(pos)` equals the position returned by
`Traits::read(pos)`; when the units of the code point at `pos` are all in `s`, both equal
`pos + code_point_size(unit at pos)`, so that `utf_iterator::operator++` moves exactly past
the units that `operator*` decoded. -/
theorem advance_agrees_with_decode (c : CharTy) (s : List Nat) (pos u : Nat)
    (hu : deref s pos = some u)
    (hn : pos + (utf_traits c).code_point_size u ≤ s.length) :
    ((utf_traits c).read s pos).map Prod.snd = (utf_traits c).next s pos ∧
      (utf_traits c).next s pos = some (pos + (utf_traits c).code_point_size u) ∧
      (∃ cp, (utf_traits c).read s pos =
          some (cp, pos + (utf_traits c).code_point_size u) ∧
        utf_iterator.deref (utf_traits c) s { itr := pos } = some cp) ∧
      utf_iterator.pre_increment (utf_traits c) s { itr := pos } =
        some { itr := pos + (utf_traits c).code_point_size u } := by
  have h1 := read_snd_eq_next c s pos
  have h2 : (utf_traits c).next s pos = some (pos + (utf_traits c).code_point_size u) := by
    rw [next_eq_advance c hu, advance_eq, if_pos hn]
  refine ⟨h1, h2, ?_, ?_⟩
  · rw [h2] at h1
    obtain ⟨⟨cp, p⟩, hr, hp⟩ := Option.map_eq_some'.mp h1
    simp only at hp
    subst hp
    exact ⟨cp, hr, by simp [utf_iterator.deref, hr]⟩
  · simp [utf_iterator.pre_increment, h2]

/-- Advance and decode at the 3-byte sequence `E2 82 AC` that starts at index 1. -/
theorem advance_agrees_with_decode_witness :
    ((utf_traits .char).read [0x41, 0xE2, 0x82, 0xAC] 1).map Prod.snd =
        (utf_traits .char).next [0x41, 0xE2, 0x82, 0xAC] 1 ∧
      (utf_traits .char).next [0x41, 0xE2, 0x82, 0xAC] 1 =
        some (1 + (utf_traits .char).code_point_size 0xE2) ∧
      (∃ cp, (utf_traits .char).read [0x41, 0xE2, 0x82, 0xAC] 1 =
          some (cp, 1 + (utf_traits .char).code_point_size 0xE2) ∧
        utf_iterator.deref (utf_traits .char) [0x41, 0xE2, 0x82, 0xAC] { itr := 1 } =
          some cp) ∧
      utf_iterator.pre_increment (utf_traits .char) [0x41, 0xE2, 0x82, 0xAC] { itr := 1 } =
        some { itr := 1 + (utf_traits .char).code_point_size 0xE2 } :=
  advance_agrees_with_decode .char [0x41, 0xE2, 0x82, 0xAC] 1 0xE2 (by decide) (by decide)

/-- C16. Retreat finds the previous code point: in the encoding `s` of the valid code points
`L` (UTF-8, UTF-16 or UTF-32), decrementing a `utf_iterator` at the boundary just after the
code point `L[k]` (the end position included, which is the boundary after the last one) moves
it to the first unit of `L[k]`, where it dereferences to `L[k]`; consequently `--(++it) == it`
at every dereferenceable boundary and `++(--it) == it` at every boundary other than begin. -/
theorem retreat_finds_previous (c : CharTy) (L : List Nat)
    (h : ∀ cp ∈ L, valid_code_point cp) (k : Nat) (hk : k < L.length) :
    utf_iterator.pre_decrement (utf_traits c) (L.flatMap (utf_traits c).units)
        { itr := boundary (utf_traits c) L (k + 1) } =
        some { itr := boundary (utf_traits c) L k } ∧
      utf_iterator.deref (utf_traits c) (L.flatMap (utf_traits c).units)
        { itr := boundary (utf_traits c) L k } = some L[k] ∧
      boundary (utf_traits c) L L.length = (L.flatMap (utf_traits c).units).length ∧
      boundary (utf_traits c) L 0 = 0 ∧
      (utf_iterator.pre_increment (utf_traits c) (L.flatMap (utf_traits c).units)
          { itr := boundary (utf_traits c) L k }).bind
        (utf_iterator.pre_decrement (utf_traits c) (L.flatMap (utf_traits c).units)) =
        some { itr := boundary (utf_traits c) L k } ∧
      (utf_iterator.pre_decrement (utf_traits c) (L.flatMap (utf_traits c).units)
          { itr := boundary (utf_traits c) L (k + 1) }).bind
        (utf_iterator.pre_increment (utf_traits c) (L.flatMap (utf_traits c).units)) =
        some { itr := boundary (utf_traits c) L (k + 1) } := by
  have hreg : ∀ cp ∈ L, (utf_traits c).Regular cp := fun cp hcp => regular_of_valid c (h cp hcp)
  obtain ⟨hd, hi⟩ := increment_boundary (utf_traits c) L hreg k hk
  have hdec := decrement_boundary (utf_traits c) L hreg k hk
  refine ⟨hdec, hd, boundary_length _ L, boundary_zero _ L, ?_, ?_⟩
  · rw [hi, Option.some_bind, hdec]
  · rw [hdec, Option.some_bind, hi]

/-- Retreat from the end of the UTF-8 encoding of U+41, U+20AC, U+10000 (boundaries 0, 1, 4,
8): the decrement at 8 gives 4, where the iterator dereferences to U+10000. -/
theorem retreat_finds_previous_witness :
    utf_iterator.pre_decrement (utf_traits .char)
        ([0x41, 0x20AC, 0x10000].flatMap (utf_traits .char).units)
        { itr := boundary (utf_traits .char) [0x41, 0x20AC, 0x10000] (2 + 1) } =
        some { itr := boundary (utf_traits .char) [0x41, 0x20AC, 0x10000] 2 } ∧
      utf_iterator.deref (utf_traits .char)
        ([0x41, 0x20AC, 0x10000].flatMap (utf_traits .char).units)
        { itr := boundary (utf_traits .char) [0x41, 0x20AC, 0x10000] 2 } = some 0x10000 :=
  ⟨(retreat_finds_previous .char [0x41, 0x20AC, 0x10000] (by decide) 2 (by decide)).1,
    (retreat_finds_previous .char [0x41, 0x20AC, 0x10000] (by decide) 2 (by decide)).2.1⟩

/-- C17. Cursor invariant: starting from a `utf_iterator` at a code-point boundary `p` of the
encoding `s` of the valid code points `L`, after any sequence of increments (done while not at
end) and decrements (done while not at begin) the underlying position is again a boundary:
it is the one-past-end position, or the first storage unit of some code point `L[k]`, which
the iterator dereferences to. -/
theorem cursor_invariant (c : CharTy) (L : List Nat) (h : ∀ cp ∈ L, valid_code_point cp)
    (ops : List cursor_op) (p : Nat) (hp : is_boundary (utf_traits c) L p) :
    ∃ q, apply_ops (utf_traits c) (L.flatMap (utf_traits c).units) ops { itr := p } =
        some { itr := q } ∧
      is_boundary (utf_traits c) L q ∧
      (q = (L.flatMap (utf_traits c).units).length ∨
        ∃ k, ∃ hk : k < L.length, q = boundary (utf_traits c) L k ∧
          utf_iterator.deref (utf_traits c) (L.flatMap (utf_traits c).units) { itr := q } =
            some L[k]) := by
  have hreg : ∀ cp ∈ L, (utf_traits c).Regular cp := fun cp hcp => regular_of_valid c (h cp hcp)
  obtain ⟨q, hq, hb⟩ := apply_ops_boundary (utf_traits c) L hreg ops p hp
  refine ⟨q, hq, hb, ?_⟩
  obtain ⟨k, hk, rfl⟩ := hb
  by_cases he : k = L.length
  · left; rw [he, boundary_length]
  · right
    have hk1 : k < L.length := by omega
    exact ⟨k, hk1, rfl, (increment_boundary (utf_traits c) L hreg k hk1).1⟩

/-- The invariant on the UTF-16 encoding of U+41, U+10000, U+42 from its end, for a run that
also tries to step past the end and then walks back to the beginning and beyond. -/
theorem cursor_invariant_witness :
    ∃ q, apply_ops (utf_traits .char16_t)
          ([0x41, 0x10000, 0x42].flatMap (utf_traits .char16_t).units)
          [.increment, .decrement, .decrement, .increment, .decrement, .decrement, .decrement]
          { itr := 4 } = some { itr := q } ∧
      is_boundary (utf_traits .char16_t) [0x41, 0x10000, 0x42] q ∧
      (q = ([0x41, 0x10000, 0x42].flatMap (utf_traits .char16_t).units).length ∨
        ∃ k, ∃ hk : k < [0x41, 0x10000, 0x42].length,
          q = boundary (utf_traits .char16_t) [0x41, 0x10000, 0x42] k ∧
          utf_iterator.deref (utf_traits .char16_t)
            ([0x41, 0x10000, 0x42].flatMap (utf_traits .char16_t).units) { itr := q } =
            some [0x41, 0x10000, 0x42][k]) :=
  cursor_invariant .char16_t [0x41, 0x10000, 0x42] (by decide) _ 4 (by decide)

/-- C19. Encode advances by the unit count written: for each of UTF-8, UTF-16 and UTF-32 and
every code point `cp`, `Traits::write(pos, cp)` on a raw pointer `pos` into memory `m` returns
`pos + code_point_size(cp)`, stores the units of `cp` at `pos .. pos + code_point_size(cp) - 1`
in order, and leaves every other unit of the memory unchanged. -/
theorem write_advances_by_unit_count (c : CharTy) (cp : Nat) (m : Mem) (pos : Nat) :
    ((utf_traits c).write raw_pointer (m, pos) cp).2 =
        pos + (utf_traits c).code_point_size_char32 cp ∧
      ((utf_traits c).units cp).length = (utf_traits c).code_point_size_char32 cp ∧
      (∀ i, i < (utf_traits c).code_point_size_char32 cp →
        ((utf_traits c).write raw_pointer (m, pos) cp).1 (pos + i) =
          ((utf_traits c).units cp).getD i 0) ∧
      (∀ a, a < pos ∨ pos + (utf_traits c).code_point_size_char32 cp ≤ a →
        ((utf_traits c).write raw_pointer (m, pos) cp).1 a = m a) := by
  have hlen := units_length_eq c cp
  rw [write_eq_units, foldl_put_raw, hlen]
  refine ⟨rfl, rfl, fun i hi => ?_, fun a ha => ?_⟩
  · show (if pos ≤ pos + i ∧ pos + i < pos + _ then _ else _) = _
    rw [if_pos ⟨by omega, by omega⟩, show pos + i - pos = i by omega]
  · show (if pos ≤ a ∧ a < pos + _ then _ else _) = _
    rw [if_neg (by omega)]

/-- The UTF-8 write of U+20AC at address 2 of a memory filled with `7`: three units stored,
the neighbours untouched. -/
theorem write_advances_by_unit_count_witness :
    ((utf_traits .char).write raw_pointer (fun _ => 7, 2) 0x20AC).2 = 5 ∧
      ((utf_traits .char).write raw_pointer (fun _ => 7, 2) 0x20AC).1 (2 + 1) =
        ((utf_traits .char).units 0x20AC).getD 1 0 ∧
      ((utf_traits .char).write raw_pointer (fun _ => 7, 2) 0x20AC).1 5 = 7 :=
  ⟨(write_advances_by_unit_count .char 0x20AC (fun _ => 7) 2).1,
    (write_advances_by_unit_count .char 0x20AC (fun _ => 7) 2).2.2.1 1 (by decide),
    (write_advances_by_unit_count .char 0x20AC (fun _ => 7) 2).2.2.2 5 (by decide)⟩

/-- C20. Output adapter: on a `utf_output_iterator`, dereference, pre-increment and
post-increment leave the wrapped output position unchanged; assigning a code point `cp`
replaces the wrapped position by `Traits::write(old position, cp)`; therefore the statement
sequence `*it++ = cp` over a list of code points stores, through any output iterator, the
concatenation of their individual encodings in order, and through a `std::back_inserter`
appends exactly that concatenation to the container. -/
theorem output_adapter (c : CharTy) {σ : Type} (I : OutputItr σ) (it : utf_output_iterator σ)
    (cp : Nat) (L s : List Nat) :
    it.deref.itr = it.itr ∧ it.pre_increment.itr = it.itr ∧ it.post_increment.itr = it.itr ∧
      (it.assign (utf_traits c) I cp).itr = (utf_traits c).write I it.itr cp ∧
      (output_all (utf_traits c) I it L).itr =
        (L.flatMap fun x =>
          (utf_output_iterator.assign (utf_traits c) back_inserter { itr := [] } x).itr).foldl
          I.put it.itr ∧
      (output_all (utf_traits c) back_inserter { itr := s } L).itr =
        s ++ L.flatMap fun x =>
          (utf_output_iterator.assign (utf_traits c) back_inserter { itr := [] } x).itr := by
  refine ⟨rfl, rfl, rfl, rfl, output_all_units c I L it, ?_⟩
  rw [output_all_units c back_inserter L, foldl_put_back]
  rfl

/-- C21. Dereference is pure: `utf_iterator::operator*` returns `Traits::read(position).first`
and leaves the iterator's position unchanged, so dereferencing twice gives the same code
point, and advancing or retreating a copy of an iterator changes neither the original's
position nor the value it dereferences to. -/
theorem dereference_is_pure (T : Traits) (s : List Nat) (it : utf_iterator) :
    utf_iterator.deref T s it = (T.read s it.itr).map Prod.fst ∧
      (utf_iterator.star T s it).map Prod.fst = utf_iterator.deref T s it ∧
      (∀ v it', utf_iterator.star T s it = some (v, it') →
        it' = it ∧ utf_iterator.star T s it' = some (v, it')) ∧
      (∀ w, (copied.make it).increment_copy T s = some w →
        w.itr = it ∧ utf_iterator.deref T s w.itr = utf_iterator.deref T s it) ∧
      (∀ w, (copied.make it).decrement_copy T s = some w →
        w.itr = it ∧ utf_iterator.deref T s w.itr = utf_iterator.deref T s it) := by
  refine ⟨rfl, ?_, ?_, ?_, ?_⟩
  · simp only [utf_iterator.star, utf_iterator.deref, Option.map_map]
    rfl
  · intro v it' h
    simp only [utf_iterator.star, Option.map_eq_some', Prod.mk.injEq] at h
    obtain ⟨r, hr, hv, hit⟩ := h
    subst hit
    exact ⟨rfl, by simp only [utf_iterator.star, hr, Option.map_some', hv]⟩
  · intro w h
    simp only [copied.increment_copy, copied.make, Option.map_eq_some'] at h
    obtain ⟨c, -, rfl⟩ := h
    exact ⟨rfl, rfl⟩
  · intro w h
    simp only [copied.decrement_copy, copied.make, Option.map_eq_some'] at h
    obtain ⟨c, -, rfl⟩ := h
    exact ⟨rfl, rfl⟩

/-- Dereferencing at the sequence `E2 82 AC` after one unit, and moving a copy from there:
the original stays at index 1. -/
theorem dereference_is_pure_witness :
    utf_iterator.star (utf_traits .char) [0x41, 0xE2, 0x82, 0xAC] { itr := 1 } =
        some (0x20AC, { itr := 1 }) ∧
      (copied.make { itr := 1 }).increment_copy (utf_traits .char) [0x41, 0xE2, 0x82, 0xAC] =
        some { itr := { itr := 1 }, copy := { itr := 4 } } ∧
      ((copied.make { itr := 1 }).decrement_copy (utf_traits .char)
          [0x41, 0xE2, 0x82, 0xAC]).map copied.itr = some { itr := 1 } :=
  ⟨((dereference_is_pure (utf_traits .char) [0x41, 0xE2, 0x82, 0xAC] { itr := 1 }).2.2.1
      0x20AC { itr := 1 } (by decide)).2,
    by decide, by decide⟩

/-- C22. Equality compares only the underlying positions: for `utf_iterator`s `a` and `b`
over the same sequence, `a == b` holds iff their underlying positions are equal, `a != b`
holds iff they differ, and `a == b` is always the negation of `a != b`. -/
theorem equality_compares_positions (a b : utf_iterator) :
    (a.eq b = true ↔ a.itr = b.itr) ∧ (a.ne b = true ↔ a.itr ≠ b.itr) ∧
      a.eq b = !(a.ne b) := by
  refine ⟨?_, ?_, rfl⟩
  · simp [utf_iterator.eq, utf_iterator.ne]
  · simp [utf_iterator.ne]

/-- C23. Post-increment and post-decrement return the old cursor: `it++` fails or succeeds
with `++it`; when `++it` gives `it'`, `it++` returns the value of `it` before the call, so that
`*it++` is the code point at the old position, and leaves `it` equal to `it'`; `it--` likewise
returns the old value and leaves `it` equal to the result of `--it`. -/
theorem post_returns_old_cursor (T : Traits) (s : List Nat) (it : utf_iterator) :
    ((utf_iterator.post_increment T s it).map Prod.snd = utf_iterator.pre_increment T s it ∧
        ∀ it', utf_iterator.pre_increment T s it = some it' →
          utf_iterator.post_increment T s it = some (it, it') ∧
          ((utf_iterator.post_increment T s it).bind fun r => utf_iterator.deref T s r.1) =
            utf_iterator.deref T s it) ∧
      ((utf_iterator.post_decrement T s it).map Prod.snd = utf_iterator.pre_decrement T s it ∧
        ∀ it', utf_iterator.pre_decrement T s it = some it' →
          utf_iterator.post_decrement T s it = some (it, it') ∧
          ((utf_iterator.post_decrement T s it).bind fun r => utf_iterator.deref T s r.1) =
            utf_iterator.deref T s it) := by
  refine ⟨⟨?_, fun it' h => ?_⟩, ⟨?_, fun it' h => ?_⟩⟩
  · simp only [utf_iterator.post_increment, Option.map_map]
    exact Option.map_id'
  · simp only [utf_iterator.post_increment, h, Option.map_some', Option.some_bind, and_self]
  · simp only [utf_iterator.post_decrement, Option.map_map]
    exact Option.map_id'
  · simp only [utf_iterator.post_decrement, h, Option.map_some', Option.some_bind, and_self]

/-- Post-increment and post-decrement at index 1 of `41 E2 82 AC`. -/
theorem post_returns_old_cursor_witness :
    (utf_iterator.post_increment (utf_traits .char) [0x41, 0xE2, 0x82, 0xAC] { itr := 1 } =
        some ({ itr := 1 }, { itr := 4 }) ∧
      ((utf_iterator.post_increment (utf_traits .char) [0x41, 0xE2, 0x82, 0xAC]
          { itr := 1 }).bind fun r =>
          utf_iterator.deref (utf_traits .char) [0x41, 0xE2, 0x82, 0xAC] r.1) =
        utf_iterator.deref (utf_traits .char) [0x41, 0xE2, 0x82, 0xAC] { itr := 1 }) ∧
      utf_iterator.post_decrement (utf_traits .char) [0x41, 0xE2, 0x82, 0xAC] { itr := 1 } =
        some ({ itr := 1 }, { itr := 0 }) :=
  ⟨(post_returns_old_cursor (utf_traits .char) [0x41, 0xE2, 0x82, 0xAC] { itr := 1 }).1.2
      { itr := 4 } (by decide),
    ((post_returns_old_cursor (utf_traits .char) [0x41, 0xE2, 0x82, 0xAC] { itr := 1 }).2.2
      { itr := 0 } (by decide)).1⟩

/-- C24, as stated, fails: `write` given `0x1FFFFF`, the surrogate `0xD800` or `0x110000`
returns after storing units; no call throws. -/
theorem out_of_range_encode_counterexample :
    (utf_traits .char).write_call back_inserter [] 0x1FFFFF =
        Outcome.returned [0xF7, 0xBF, 0xBF, 0xBF] ∧
      (utf_traits .char16_t).write_call back_inserter [] 0xD800 = Outcome.returned [0xD800] ∧
      (utf_traits .char32_t).write_call back_inserter [] 0x110000 =
        Outcome.returned [0x110000] ∧
      ¬ (∀ (c : CharTy) (cp : Nat), 0x10FFFF < cp ∨ (0xD800 ≤ cp ∧ cp ≤ 0xDFFF) →
        (utf_traits c).write_call back_inserter [] cp = Outcome.threw cp) := by
  refine ⟨by decide, by decide, by decide, fun h => ?_⟩
  have := h .char 0x1FFFFF (by decide)
  revert this
  decide

/-- C24, amended. Out-of-range encode does not fail: for every encoding and every value `cp`,
among them the values above `0x10FFFF` and the surrogates of `[0xD800, 0xDFFF]`, `write`
signals no error; it returns after storing `code_point_size(cp)` units, at least one. -/
theorem encode_never_fails (c : CharTy) (cp : Nat) {σ : Type} (I : OutputItr σ) (pos : σ) :
    (utf_traits c).write_call I pos cp = Outcome.returned ((utf_traits c).write I pos cp) ∧
      (∀ v, (utf_traits c).write_call I pos cp ≠ Outcome.threw v) ∧
      (utf_traits c).write I pos cp = ((utf_traits c).units cp).foldl I.put pos ∧
      ((utf_traits c).units cp).length = (utf_traits c).code_point_size_char32 cp ∧
      1 ≤ ((utf_traits c).units cp).length := by
  refine ⟨rfl, fun v h => ?_, write_eq_units c I pos cp, units_length_eq c cp, ?_⟩
  · cases h
  · rw [units_length_eq]
    exact code_point_size_char32_pos c cp

/-- C25, as stated, fails: decoding at the lead byte `0xF8` returns a value and a position
advanced by 4; no error carrying `0xF8` is signalled, and `operator++` moves the iterator. -/
theorem malformed_lead_byte_counterexample :
    (utf_traits .char).read_call [0xF8, 0x80, 0x80, 0x80] 0 =
        some (Outcome.returned (0x200000, 4)) ∧
      (utf_traits .char).read_call [0xF8, 0x80, 0x80, 0x80] 0 ≠ some (Outcome.threw 0xF8) ∧
      utf_iterator.deref (utf_traits .char) [0xF8, 0x80, 0x80, 0x80] { itr := 0 } =
        some 0x200000 ∧
      utf_iterator.pre_increment (utf_traits .char) [0xF8, 0x80, 0x80, 0x80] { itr := 0 } =
        some { itr := 4 } := by
  decide

/-- C25, amended. Lead byte `0xF8`: decoding at a position whose lead byte is `0xF8` signals
no error; `read` takes `0xF8` as the lead of a 4-unit sequence and returns the value made of
its low 4 bits (`8`) followed by the low 6 bits of each of the next three units, with the
position advanced by 4; dereferencing leaves the iterator where it is, and `operator++`
advances it by 4. -/
theorem lead_byte_F8_decodes (b1 b2 b3 : Nat) (pre suf : List Nat) :
    (utf_traits .char).read_call (pre ++ [0xF8, b1, b2, b3] ++ suf) pre.length =
        some (Outcome.returned
          (((8 * 64 + b1 % 64) * 64 + b2 % 64) * 64 + b3 % 64, pre.length + 4)) ∧
      utf_iterator.star (utf_traits .char) (pre ++ [0xF8, b1, b2, b3] ++ suf)
          { itr := pre.length } =
        some (((8 * 64 + b1 % 64) * 64 + b2 % 64) * 64 + b3 % 64, { itr := pre.length }) ∧
      utf_iterator.pre_increment (utf_traits .char) (pre ++ [0xF8, b1, b2, b3] ++ suf)
          { itr := pre.length } = some { itr := pre.length + 4 } := by
  have hs := holdsAt_append pre [0xF8, b1, b2, b3] suf
  have h0 : deref (pre ++ [0xF8, b1, b2, b3] ++ suf) pre.length = some 0xF8 := hs.get 0 rfl
  have h1 : deref (pre ++ [0xF8, b1, b2, b3] ++ suf) (pre.length + 1) = some b1 :=
    hs.get 1 rfl
  have h2 : deref (pre ++ [0xF8, b1, b2, b3] ++ suf) (pre.length + 2) = some b2 :=
    hs.get 2 rfl
  have h3 : deref (pre ++ [0xF8, b1, b2, b3] ++ suf) (pre.length + 3) = some b3 :=
    hs.get 3 rfl
  have e : (0xF8 : Nat) % 16 = 8 := by decide
  have hr := utf_traits_char.read_size4 h0 h1 h2 h3 (by decide)
  rw [e] at hr
  have hn := read_snd_eq_next .char (pre ++ [0xF8, b1, b2, b3] ++ suf) pre.length
  have hr' : (utf_traits .char).read (pre ++ [0xF8, b1, b2, b3] ++ suf) pre.length =
      some (((8 * 64 + b1 % 64) * 64 + b2 % 64) * 64 + b3 % 64, pre.length + 4) := hr
  rw [hr'] at hn
  refine ⟨?_, ?_, ?_⟩
  · simp only [Traits.read_call, hr', Option.map_some']
  · simp only [utf_iterator.star, hr', Option.map_some']
  · simp only [utf_iterator.pre_increment, ← hn, Option.map_some']

/-- C26, as stated, fails: a UTF-8 continuation byte in lead position, a low surrogate in
lead position and a high surrogate followed by a unit that is no low surrogate are all decoded
to a value, with the position advanced; no error is signalled. -/
theorem malformed_sequence_counterexample :
    (utf_traits .char).read_call [0x80, 0x41, 0x42, 0x43] 0 =
        some (Outcome.returned (0x1083, 4)) ∧
      (utf_traits .char).read_call [0x80, 0x41, 0x42, 0x43] 0 ≠ some (Outcome.threw 0x80) ∧
      (utf_traits .char16_t).read_call [0xDC00, 0x41] 0 =
        some (Outcome.returned (0x10041, 2)) ∧
      (utf_traits .char16_t).read_call [0xDC00, 0x41] 0 ≠ some (Outcome.threw 0xDC00) ∧
      (utf_traits .char16_t).read_call [0xD800, 0x41] 0 =
        some (Outcome.returned (0x10041, 2)) ∧
      (utf_traits .char16_t).read_call [0xD800, 0x41] 0 ≠ some (Outcome.threw 0xD800) := by
  decide

/-- C26, amended. Malformed sequences are not signalled: where a UTF-8 continuation byte
(`10xxxxxx`) is in lead position, `read` takes it as the lead of a 4-unit sequence and returns
the value made of its low 4 bits followed by the low 6 bits of each of the next three units,
advanced by 4; where a UTF-16 surrogate (high or low) is in lead position, `read` returns
`0x10000 + (((u & 0x3FF) << 10) | (w & 0x3FF))` for whatever unit `w` follows, advanced by 2;
no error is signalled, and dereferencing leaves the iterator's position unchanged. -/
theorem malformed_not_signalled :
    (∀ (b0 b1 b2 b3 : Nat) (pre suf : List Nat), 0x80 ≤ b0 → b0 < 0xC0 →
        (utf_traits .char).read_call (pre ++ [b0, b1, b2, b3] ++ suf) pre.length =
          some (Outcome.returned
            (((b0 % 16 * 64 + b1 % 64) * 64 + b2 % 64) * 64 + b3 % 64, pre.length + 4))) ∧
      (∀ (u w : Nat) (pre suf : List Nat), 0xD800 ≤ u → u ≤ 0xDFFF →
        (utf_traits .char16_t).read_call (pre ++ [u, w] ++ suf) pre.length =
          some (Outcome.returned
            (0x10000 + (((u &&& 0x3FF) <<< 10) ||| (w &&& 0x3FF)), pre.length + 2))) ∧
      (∀ (T : Traits) (s : List Nat) (it : utf_iterator) (v : Nat) (it' : utf_iterator),
        utf_iterator.star T s it = some (v, it') → it' = it) := by
  refine ⟨?_, ?_, ?_⟩
  · intro b0 b1 b2 b3 pre suf hlo hhi
    have hs := holdsAt_append pre [b0, b1, b2, b3] suf
    have h0 : deref (pre ++ [b0, b1, b2, b3] ++ suf) pre.length = some b0 := hs.get 0 rfl
    have h1 : deref (pre ++ [b0, b1, b2, b3] ++ suf) (pre.length + 1) = some b1 :=
      hs.get 1 rfl
    have h2 : deref (pre ++ [b0, b1, b2, b3] ++ suf) (pre.length + 2) = some b2 :=
      hs.get 2 rfl
    have h3 : deref (pre ++ [b0, b1, b2, b3] ++ suf) (pre.length + 3) = some b3 :=
      hs.get 3 rfl
    have hr := utf_traits_char.read_size4 h0 h1 h2 h3
      (by rw [utf_traits_char.code_point_size_eq]; split_ifs <;> omega)
    have hr' : (utf_traits .char).read (pre ++ [b0, b1, b2, b3] ++ suf) pre.length = _ := hr
    simp only [Traits.read_call, hr', Option.map_some']
  · intro u w pre suf hlo hhi
    have hs := holdsAt_append pre [u, w] suf
    have h0 : deref (pre ++ [u, w] ++ suf) pre.length = some u := hs.get 0 rfl
    have h1 : deref (pre ++ [u, w] ++ suf) (pre.length + 1) = some w := hs.get 1 rfl
    have hr := utf_traits_char16_t.read_pair_u16 h0 h1
      (by rw [utf_traits_char16_t.code_point_size_eq_u16]; split_ifs <;> omega)
    have hr' : (utf_traits .char16_t).read (pre ++ [u, w] ++ suf) pre.length = _ := hr
    simp only [Traits.read_call, hr', Option.map_some', and_0x3FF]
    rw [shl10_or _ _ (by omega)]
  · intro T s it v it' h
    simp only [utf_iterator.star, Option.map_eq_some', Prod.mk.injEq] at h
    obtain ⟨r, -, -, hit⟩ := h
    exact hit.symm

/-- The decode of the continuation byte `0xBF` in lead position and of the lone low
surrogate `0xDFFF` followed by `0x41`. -/
theorem malformed_not_signalled_witness :
    (utf_traits .char).read_call ([] ++ [0xBF, 0x41, 0x42, 0x43] ++ [])
        ([] : List Nat).length =
        some (Outcome.returned
          (((0xBF % 16 * 64 + 0x41 % 64) * 64 + 0x42 % 64) * 64 + 0x43 % 64,
            ([] : List Nat).length + 4)) ∧
      (utf_traits .char16_t).read_call ([] ++ [0xDFFF, 0x41] ++ []) ([] : List Nat).length =
        some (Outcome.returned
          (0x10000 + (((0xDFFF &&& 0x3FF) <<< 10) ||| (0x41 &&& 0x3FF)),
            ([] : List Nat).length + 2)) :=
  ⟨malformed_not_signalled.1 0xBF 0x41 0x42 0x43 [] [] (by decide) (by decide),
    malformed_not_signalled.2.1 0xDFFF 0x41 [] [] (by decide) (by decide)⟩

/-- C27, as stated, fails: UTF-8 decodes `ED A0 80` to the surrogate `0xD800` and
`F4 90 80 80` to `0x110000`, and UTF-32 passes the units `0xDFFF` and `0x110000` through. -/
theorem decoded_values_counterexample :
    (utf_traits .char).read [0xED, 0xA0, 0x80] 0 = some (0xD800, 3) ∧
      (utf_traits .char).read [0xF4, 0x90, 0x80, 0x80] 0 = some (0x110000, 4) ∧
      (utf_traits .char32_t).read [0xDFFF] 0 = some (0xDFFF, 1) ∧
      (utf_traits .char32_t).read [0x110000] 0 = some (0x110000, 1) ∧
      ¬ valid_code_point 0xD800 ∧ ¬ valid_code_point 0xDFFF ∧ ¬ valid_code_point 0x110000 ∧
      ¬ (∀ (c : CharTy) (s : List Nat) (pos v p : Nat), (∀ u ∈ s, u < 2 ^ (8 * c.sizeof)) →
        (utf_traits c).read s pos = some (v, p) → valid_code_point v) := by
  refine ⟨by decide, by decide, by decide, by decide, by decide, by decide, by decide,
    fun h => ?_⟩
  have := h .char [0xED, 0xA0, 0x80] 0 0xD800 3 (by decide) (by decide)
  revert this
  decide

/-- C27, amended. Decoded values are code points for UTF-16 and on well-formed input: for
every sequence of 16-bit units, a value returned by `utf_traits<char16_t>::read` lies in
`[0, 0x10FFFF]` and is never in the surrogate range `[0xD800, 0xDFFF]`; and for each of UTF-8,
UTF-16 and UTF-32 the value decoded at a code-point boundary of the encoding of valid code
points is the code point encoded there, which lies in `[0, 0x10FFFF]` and is no surrogate. -/
theorem decoded_values_are_code_points :
    (∀ (s : List Nat) (pos v p : Nat), (∀ u ∈ s, u < 2 ^ 16) →
        (utf_traits .char16_t).read s pos = some (v, p) → valid_code_point v) ∧
      (∀ (c : CharTy) (L : List Nat), (∀ cp ∈ L, valid_code_point cp) →
        ∀ (k : Nat) (hk : k < L.length),
          utf_iterator.deref (utf_traits c) (L.flatMap (utf_traits c).units)
            { itr := boundary (utf_traits c) L k } = some L[k] ∧
          valid_code_point L[k]) := by
  refine ⟨fun s pos v p hs h => utf16_read_valid hs h, fun c L h k hk => ?_⟩
  have hreg : ∀ cp ∈ L, (utf_traits c).Regular cp := fun cp hcp => regular_of_valid c (h cp hcp)
  exact ⟨(increment_boundary (utf_traits c) L hreg k hk).1, h _ (List.getElem_mem _)⟩

/-- The decode of a pair of surrogates in the wrong order, and of the second code point of a
UTF-8 encoding. -/
theorem decoded_values_are_code_points_witness :
    valid_code_point 0x10000 ∧
      (utf_iterator.deref (utf_traits .char)
          ([0x41, 0x20AC, 0x10000].flatMap (utf_traits .char).units)
          { itr := boundary (utf_traits .char) [0x41, 0x20AC, 0x10000] 1 } =
          some [0x41, 0x20AC, 0x10000][1] ∧
        valid_code_point [0x41, 0x20AC, 0x10000][1]) :=
  ⟨decoded_values_are_code_points.1 [0xDC00, 0xD800] 0 0x10000 2 (by decide) (by decide),
    decoded_values_are_code_points.2 .char [0x41, 0x20AC, 0x10000] (by decide) 1 (by decide)⟩

/-- C28. Encoding inference: when no explicit traits are supplied, a `utf_iterator` over
1-byte units decodes with the UTF-8 traits, over 2-byte units with the UTF-16 traits and over
4-byte units with the UTF-32 traits, which take the units in host order; when the caller
supplies explicit traits they are used verbatim; and the traits of an adapter stay the same
through every movement of it. -/
theorem encoding_inference :
    (∀ c : CharTy, c.sizeof = 1 → utf_iterator.traits_of c none = utf_traits .char) ∧
      (∀ c : CharTy, c.sizeof = 2 → utf_iterator.traits_of c none = utf_traits .char16_t) ∧
      (∀ c : CharTy, c.sizeof = 4 → utf_iterator.traits_of c none = utf_traits .char32_t) ∧
      (utf_traits .char).read = utf_traits_char.read ∧
      (utf_traits .char16_t).read = utf_traits_char16_t.read ∧
      (utf_traits .char32_t).read = utf_traits_char32_t.read ∧
      (∀ (c : CharTy) (T : Traits), utf_iterator.traits_of c (some T) = T) ∧
      (∀ (c : CharTy) (explicit : Option Traits) (itr : Nat),
        (adapter.make c explicit itr).traits = utf_iterator.traits_of c explicit) ∧
      (∀ (c : CharTy) (explicit : Option Traits) (itr : Nat) (s : List Nat)
        (ops : List cursor_op) (a : adapter),
        (adapter.make c explicit itr).run s ops = some a →
          a.traits = utf_iterator.traits_of c explicit) := by
  refine ⟨?_, ?_, ?_, rfl, rfl, rfl, fun _ _ => rfl, fun _ _ _ => rfl, ?_⟩
  · intro c h; cases c <;> first | rfl | exact absurd h (by decide)
  · intro c h; cases c <;> first | rfl | exact absurd h (by decide)
  · intro c h; cases c <;> first | rfl | exact absurd h (by decide)
  · intro c explicit itr s ops a h
    exact adapter_run_traits s ops _ a h

/-- The traits of an adapter over `char16_t` units without explicit traits, and of one given
the UTF-8 traits explicitly, after a run of movements. -/
theorem encoding_inference_witness :
    utf_iterator.traits_of .char16_t none = utf_traits .char16_t ∧
      (∀ a, (adapter.make .char16_t (some (utf_traits .char)) 0).run [0x41, 0xC3, 0xA9]
          [.increment, .increment, .decrement] = some a →
        a.traits = utf_iterator.traits_of .char16_t (some (utf_traits .char))) :=
  ⟨encoding_inference.2.1 .char16_t rfl,
    fun a => encoding_inference.2.2.2.2.2.2.2.2 .char16_t (some (utf_traits .char)) 0
      [0x41, 0xC3, 0xA9] [.increment, .increment, .decrement] a⟩

/-- C30. Big-endian encode: under the explicit big-endian UTF-16 (resp. UTF-32) encoding, the
units written for a code point are the units written by the native encoder with the bytes of
each unit swapped, through any output iterator; e.g. `f` (`0x66`) is written as the 16-bit
unit `0x6600` and as the 32-bit unit `0x66000000`, and `0x10000` as the UTF-16 units
`[0x00D8, 0x00DC]`. -/
theorem big_endian_encode :
    (∀ cp : Nat,
        utf_16be_traits.units cp = ((utf_traits .char16_t).units cp).map byte_swap16) ∧
      (∀ cp : Nat,
        utf_32be_traits.units cp = ((utf_traits .char32_t).units cp).map byte_swap32) ∧
      (∀ (σ : Type) (I : OutputItr σ) (pos : σ) (cp : Nat),
        utf_16be_traits.write I pos cp =
            (((utf_traits .char16_t).units cp).map byte_swap16).foldl I.put pos ∧
          utf_32be_traits.write I pos cp =
            (((utf_traits .char32_t).units cp).map byte_swap32).foldl I.put pos) ∧
      (utf_16be_traits.units 0x66 = [0x6600] ∧ utf_32be_traits.units 0x66 = [0x66000000] ∧
        utf_16be_traits.units 0x10000 = [0x00D8, 0x00DC]) ∧
      ((output_all utf_16be_traits back_inserter { itr := [] }
          [0x66, 0x6F, 0x6F, 0x62, 0x61, 0x72]).itr =
          [0x6600, 0x6F00, 0x6F00, 0x6200, 0x6100, 0x7200] ∧
        (output_all utf_32be_traits back_inserter { itr := [] }
          [0x7F, 0x80, 0x7FF, 0x800, 0xD7FF, 0xE000, 0xFFFF, 0x10000, 0x10FFFF]).itr =
          [0x7F000000, 0x80000000, 0xFF070000, 0x00080000, 0xFFD70000, 0x00E00000, 0xFFFF0000,
            0x00000100, 0xFFFF1000]) := by
  refine ⟨utf16be_units, utf32be_units, fun σ I pos cp => ⟨?_, ?_⟩, by decide, by decide⟩
  · show utf_traits_char16_t.write (swapping byte_swap16 I) pos cp = _
    rw [utf_traits_char16_t.write_eq_foldl_u16, foldl_put_swapping]
    rfl
  · show utf_traits_char32_t.write (swapping byte_swap32 I) pos cp = _
    rw [utf_traits_char32_t.write_eq_foldl_u32, foldl_put_swapping]
    rfl

/-- C33. UTF-8 encode silently truncates instead of failing: for every 32-bit value `cp`,
`utf_traits<char>::read` applied to the bytes written by `utf_traits<char>::write(cp)` returns
`cp & 0x1FFFFF`; so the round trip is exact for every `cp <= 0x1FFFFF` (values above
`0x10FFFF` and surrogates included), and two values that differ only above bit 20 and are both
`> 0xFFFF` encode to identical bytes. -/
theorem utf8_encode_truncates (cp : Nat) (hcp : cp < 2 ^ 32) (pre suf : List Nat) :
    utf_traits_char.read (utf_traits_char.write back_inserter pre cp ++ suf) pre.length =
        some (cp &&& 0x1FFFFF, (utf_traits_char.write back_inserter pre cp).length) ∧
      (cp ≤ 0x1FFFFF →
        utf_traits_char.read (utf_traits_char.write back_inserter pre cp ++ suf) pre.length =
          some (cp, (utf_traits_char.write back_inserter pre cp).length)) ∧
      (∀ cp' : Nat, cp' < 2 ^ 32 → 0xFFFF < cp → 0xFFFF < cp' →
        cp &&& 0x1FFFFF = cp' &&& 0x1FFFFF →
        utf_traits_char.write back_inserter [] cp =
          utf_traits_char.write back_inserter [] cp') := by
  have hback : utf_traits_char.write back_inserter pre cp =
      pre ++ utf_traits_char.write back_inserter [] cp := by
    rw [utf_traits_char.write_eq_foldl, foldl_put_back]
  have hlen : (utf_traits_char.write back_inserter pre cp).length =
      pre.length + utf_traits_char.code_point_size_char32 cp := by
    rw [hback, List.length_append, utf_traits_char.units_length]
  have hand : ∀ x : Nat, x &&& 0x1FFFFF = x % 2 ^ 21 :=
    fun x => Nat.and_pow_two_sub_one_eq_mod x 21
  have hread : utf_traits_char.read (utf_traits_char.write back_inserter pre cp ++ suf)
      pre.length = some (cp % 2 ^ 21, pre.length + utf_traits_char.code_point_size_char32 cp) := by
    apply utf8_read_units_mod
    rw [hback]
    exact holdsAt_append pre _ suf
  refine ⟨?_, ?_, ?_⟩
  · rw [hread, hand, hlen]
  · intro hle
    rw [hread, hlen, Nat.mod_eq_of_lt (by omega)]
  · intro cp' _ h1 h2 he
    rw [hand, hand] at he
    rw [utf_traits_char.units_4 h1, utf_traits_char.units_4 h2]
    simp only [List.cons.injEq, and_true]
    omega

/-- The truncation at `0x3FFFFF`, which reads back as `0x1FFFFF`, and the exact round trip of
the surrogate `0xD800`. -/
theorem utf8_encode_truncates_witness :
    utf_traits_char.read (utf_traits_char.write back_inserter [] 0x3FFFFF ++ [])
        ([] : List Nat).length =
        some (0x3FFFFF &&& 0x1FFFFF, (utf_traits_char.write back_inserter [] 0x3FFFFF).length) ∧
      utf_traits_char.read (utf_traits_char.write back_inserter [] 0xD800 ++ [])
        ([] : List Nat).length =
        some (0xD800, (utf_traits_char.write back_inserter [] 0xD800).length) :=
  ⟨(utf8_encode_truncates 0x3FFFFF (by decide) [] []).1,
    (utf8_encode_truncates 0xD800 (by decide) [] []).2.1 (by decide)⟩

/-- C34. UTF-16 encode silently wraps out-of-range values: for every 32-bit value
`cp > 0xFFFF`, `utf_traits<char16_t>::write` emits a syntactically valid surrogate pair (a
unit of `[0xD800, 0xDBFF]`, then a unit of `[0xDC00, 0xDFFF]`) and `read` of that pair returns
`0x10000 + ((cp - 0x10000) & 0xFFFFF)`; in particular `write(0x110000)` emits
`[0xD800, 0xDC00]`, the same units as `write(0x10000)`. -/
theorem utf16_encode_wraps (cp : Nat) (h1 : 0xFFFF < cp) (h2 : cp < 2 ^ 32)
    (pre suf : List Nat) :
    (∃ high low, utf_traits_char16_t.write back_inserter [] cp = [high, low] ∧
        0xD800 ≤ high ∧ high ≤ 0xDBFF ∧ 0xDC00 ≤ low ∧ low ≤ 0xDFFF) ∧
      utf_traits_char16_t.read (pre ++ utf_traits_char16_t.write back_inserter [] cp ++ suf)
          pre.length =
        some (0x10000 + ((cp - 0x10000) &&& 0xFFFFF), pre.length + 2) ∧
      utf_traits_char16_t.write back_inserter [] 0x110000 = [0xD800, 0xDC00] ∧
      utf_traits_char16_t.write back_inserter [] 0x10000 = [0xD800, 0xDC00] := by
  refine ⟨⟨_, _, utf_traits_char16_t.units_2_u16 h1 h2, by omega, by omega, by omega, by omega⟩,
    ?_, by decide, by decide⟩
  rw [utf16_read_units_mod h1 h2 (holdsAt_append pre _ suf)]
  have hand : (cp - 0x10000) &&& 0xFFFFF = (cp - 0x10000) % 2 ^ 20 :=
    Nat.and_pow_two_sub_one_eq_mod _ 20
  rw [hand]

/-- The wrap at `0x110000`, which reads back as `0x10000`. -/
theorem utf16_encode_wraps_witness :
    utf_traits_char16_t.read ([] ++ utf_traits_char16_t.write back_inserter [] 0x110000 ++ [])
        ([] : List Nat).length =
      some (0x10000 + ((0x110000 - 0x10000) &&& 0xFFFFF), ([] : List Nat).length + 2) :=
  (utf16_encode_wraps 0x110000 (by decide) (by decide) [] []).2.1

/-- C35. UTF-16 surrogate code points break unit-count consistency: for every `cp` in
`[0xD800, 0xDFFF]`, `utf_traits<char16_t>::write` emits the single unit `cp`
(`code_point_size` of `cp` as a code point is 1) while `code_point_size` of that unit as a
lead unit is 2, so `read` at that unit consumes two units and does not return `cp`. -/
theorem utf16_surrogate_code_points (cp : Nat) (hlo : 0xD800 ≤ cp) (hhi : cp ≤ 0xDFFF) :
    utf_traits_char16_t.write back_inserter [] cp = [cp] ∧
      utf_traits_char16_t.code_point_size_char32 cp = 1 ∧
      utf_traits_char16_t.code_point_size cp = 2 ∧
      (∀ (w : Nat) (pre suf : List Nat), ∃ v,
        utf_traits_char16_t.read (pre ++ [cp, w] ++ suf) pre.length =
          some (v, pre.length + 2) ∧ v ≠ cp) ∧
      (∀ (s : List Nat) (pos v p : Nat), deref s pos = some cp →
        utf_traits_char16_t.read s pos = some (v, p) → p = pos + 2 ∧ v ≠ cp) := by
  have hsz : utf_traits_char16_t.code_point_size cp = 2 := by
    rw [utf_traits_char16_t.code_point_size_eq_u16]; split_ifs <;> omega
  refine ⟨utf_traits_char16_t.units_1_u16 (by omega), ?_, hsz, ?_, ?_⟩
  · unfold utf_traits_char16_t.code_point_size_char32
    rw [if_pos (by omega)]
  · intro w pre suf
    have hs := holdsAt_append pre [cp, w] suf
    have e0 : deref (pre ++ [cp, w] ++ suf) pre.length = some cp := hs.get 0 rfl
    have e1 : deref (pre ++ [cp, w] ++ suf) (pre.length + 1) = some w := hs.get 1 rfl
    exact ⟨_, utf_traits_char16_t.read_pair_u16 e0 e1 hsz, by omega⟩
  · intro s pos v p h0 hr
    rcases Nat.lt_or_ge (pos + 1) s.length with h1 | h1
    · obtain ⟨w, e1⟩ := deref_of_lt h1
      rw [utf_traits_char16_t.read_pair_u16 h0 e1 hsz] at hr
      simp only [Option.some.injEq, Prod.mk.injEq] at hr
      omega
    · simp [utf_traits_char16_t.read, h0, hsz, deref_of_ge h1] at hr

/-- The surrogate `0xDC00` written, and read back together with the unit `0x41` after it. -/
theorem utf16_surrogate_code_points_witness :
    utf_traits_char16_t.write back_inserter [] 0xDC00 = [0xDC00] ∧
      utf_traits_char16_t.code_point_size_char32 0xDC00 = 1 ∧
      utf_traits_char16_t.code_point_size 0xDC00 = 2 ∧
      ∃ v, utf_traits_char16_t.read ([] ++ [0xDC00, 0x41] ++ []) ([] : List Nat).length =
        some (v, ([] : List Nat).length + 2) ∧ v ≠ 0xDC00 :=
  ⟨(utf16_surrogate_code_points 0xDC00 (by decide) (by decide)).1,
    (utf16_surrogate_code_points 0xDC00 (by decide) (by decide)).2.1,
    (utf16_surrogate_code_points 0xDC00 (by decide) (by decide)).2.2.1,
    (utf16_surrogate_code_points 0xDC00 (by decide) (by decide)).2.2.2.1 0x41 [] []⟩

/-- C36. UTF-8 lead classification is total and never rejects: for every byte `b`,
`utf_traits<char>::code_point_size(b)` is in `{1, 2, 3, 4}` and at most
`max_code_point_size`; it is 4 for every continuation byte `0x80..0xBF` and for every byte
`0xF8..0xFF`, so `next` and `read` at such a byte advance by 4 units. -/
theorem utf8_lead_total (b : Nat) (hb : b < 0x100) :
    (utf_traits_char.code_point_size b = 1 ∨ utf_traits_char.code_point_size b = 2 ∨
        utf_traits_char.code_point_size b = 3 ∨ utf_traits_char.code_point_size b = 4) ∧
      utf_traits_char.code_point_size b ≤ utf_traits_char.max_code_point_size ∧
      ((0x80 ≤ b ∧ b ≤ 0xBF) ∨ 0xF8 ≤ b →
        utf_traits_char.code_point_size b = 4 ∧
        ∀ (s : List Nat) (pos : Nat), deref s pos = some b → pos + 4 ≤ s.length →
          utf_traits_char.next s pos = some (pos + 4) ∧
          (utf_traits_char.read s pos).map Prod.snd = some (pos + 4)) := by
  refine ⟨utf8_size_cases b, ?_, fun h => ?_⟩
  · show _ ≤ 4
    rcases utf8_size_cases b with h | h | h | h <;> omega
  · have hsz : utf_traits_char.code_point_size b = 4 := by
      rw [utf_traits_char.code_point_size_eq]; split_ifs <;> omega
    refine ⟨hsz, fun s pos h0 hn => ?_⟩
    have hnext : utf_traits_char.next s pos = some (pos + 4) := by
      simp only [utf_traits_char.next, h0, Option.bind_eq_bind, Option.some_bind, hsz,
        advance_eq]
      rw [if_pos hn]
    exact ⟨hnext, by rw [utf8_read_snd, hnext]⟩

/-- The classification of the continuation byte `0xBF` and the advance of `next` and `read`
at it. -/
theorem utf8_lead_total_witness :
    utf_traits_char.code_point_size 0xBF = 4 ∧
      utf_traits_char.next [0xBF, 0x41, 0x42, 0x43] 0 = some (0 + 4) ∧
      (utf_traits_char.read [0xBF, 0x41, 0x42, 0x43] 0).map Prod.snd = some (0 + 4) :=
  ⟨((utf8_lead_total 0xBF (by decide)).2.2 (by decide)).1,
    ((utf8_lead_total 0xBF (by decide)).2.2 (by decide)).2 [0xBF, 0x41, 0x42, 0x43] 0
      (by decide) (by decide)⟩

/-- C37. UTF-8 decode is not injective: there are byte sequences that differ from the output
of `write` for every code point yet decode without error, e.g. the overlong sequence
`[0xC0, 0x80]` decodes to 0 (whose encoding is `[0x00]`) and `[0xC3, 0x28]` decodes to the
same value as `[0xC3, 0xA8]`, because `read` uses only the low 6 bits of each following byte
and never checks its top two bits. -/
theorem utf8_decode_not_injective :
    utf_traits_char.read [0xC0, 0x80] 0 = some (0, 2) ∧
      utf_traits_char.write back_inserter [] 0 = [0x00] ∧
      (∀ cp : Nat, utf_traits_char.write back_inserter [] cp ≠ [0xC0, 0x80]) ∧
      utf_traits_char.read [0xC3, 0x28] 0 = some (0xE8, 2) ∧
      utf_traits_char.read [0xC3, 0xA8] 0 = some (0xE8, 2) ∧
      utf_traits_char.write back_inserter [] 0xE8 = [0xC3, 0xA8] ∧
      (∀ cp : Nat, utf_traits_char.write back_inserter [] cp ≠ [0xC3, 0x28]) ∧
      (∀ (b0 b1 b1' : Nat) (pre suf : List Nat), utf_traits_char.code_point_size b0 = 2 →
        b1 &&& 0x3F = b1' &&& 0x3F →
        utf_traits_char.read (pre ++ [b0, b1] ++ suf) pre.length =
          utf_traits_char.read (pre ++ [b0, b1'] ++ suf) pre.length) := by
  refine ⟨by decide, by decide, ?_, by decide, by decide, by decide, ?_, ?_⟩
  · intro cp h
    rcases utf8_units_cases cp with ⟨r, e⟩ | ⟨r, e⟩ | ⟨r, e⟩ | ⟨r, e⟩ <;>
      (rw [e] at h
       simp only [List.cons.injEq, and_true, reduceCtorEq, and_false] at h
       all_goals omega)
  · intro cp h
    rcases utf8_units_cases cp with ⟨r, e⟩ | ⟨r, e⟩ | ⟨r, e⟩ | ⟨r, e⟩ <;>
      (rw [e] at h
       simp only [List.cons.injEq, and_true, reduceCtorEq, and_false] at h
       all_goals omega)
  · intro b0 b1 b1' pre suf hsz hlow
    rw [and_0x3F, and_0x3F] at hlow
    have hs := holdsAt_append pre [b0, b1] suf
    have hs' := holdsAt_append pre [b0, b1'] suf
    have e0 : deref (pre ++ [b0, b1] ++ suf) pre.length = some b0 := hs.get 0 rfl
    have e1 : deref (pre ++ [b0, b1] ++ suf) (pre.length + 1) = some b1 := hs.get 1 rfl
    have e0' : deref (pre ++ [b0, b1'] ++ suf) pre.length = some b0 := hs'.get 0 rfl
    have e1' : deref (pre ++ [b0, b1'] ++ suf) (pre.length + 1) = some b1' := hs'.get 1 rfl
    rw [utf_traits_char.read_size2 e0 e1 hsz, utf_traits_char.read_size2 e0' e1' hsz, hlow]

/-- Two lead-2 sequences whose second bytes agree in their low 6 bits: `C3 28` and `C3 E8`. -/
theorem utf8_decode_not_injective_witness :
    utf_traits_char.read ([] ++ [0xC3, 0x28] ++ []) ([] : List Nat).length =
      utf_traits_char.read ([] ++ [0xC3, 0xE8] ++ []) ([] : List Nat).length :=
  utf8_decode_not_injective.2.2.2.2.2.2.2 0xC3 0x28 0xE8 [] [] (by decide) (by decide)

/-- C38. Backward walk on arbitrary input: for any unit sequence `s` (well-formed or not) and
any position `i` of it such that some index `j < i` holds a unit with `is_initial_code_unit`
true, `utf_iterator::operator--` returns, leaving the position at the greatest such `j`, after
exactly `i - j` steps; in the encoding of valid code points that number is at most
`max_code_point_size`, which is 4 for UTF-8, 2 for UTF-16 and 1 for UTF-32. -/
theorem backward_walk :
    (∀ (T : Traits) (s : List Nat) (i : Nat), i ≤ s.length →
        (∃ j, j < i ∧ ∃ u, deref s j = some u ∧ T.is_initial_code_unit u = true) →
        ∃ j u, utf_iterator.retreat_count T s i = some (j, i - j) ∧
          utf_iterator.pre_decrement T s { itr := i } = some { itr := j } ∧ j < i ∧
          deref s j = some u ∧ T.is_initial_code_unit u = true ∧
          ∀ m w, j < m → m < i → deref s m = some w → T.is_initial_code_unit w = false) ∧
      (∀ (c : CharTy) (L : List Nat), (∀ cp ∈ L, valid_code_point cp) →
        ∀ i, 0 < i → i ≤ (L.flatMap (utf_traits c).units).length →
          ∃ j n, utf_iterator.retreat_count (utf_traits c) (L.flatMap (utf_traits c).units) i =
              some (j, n) ∧
            n = i - j ∧ n ≤ (utf_traits c).max_code_point_size) ∧
      (utf_traits .char).max_code_point_size = 4 ∧
      (utf_traits .char16_t).max_code_point_size = 2 ∧
      (utf_traits .char32_t).max_code_point_size = 1 := by
  refine ⟨?_, ?_, rfl, rfl, rfl⟩
  · intro T s i hi h
    obtain ⟨j, u, hr, hlt, hd, hin, hmax⟩ := retreat_count_greatest T s i hi h
    refine ⟨j, u, hr, ?_, hlt, hd, hin, hmax⟩
    have := retreat_count_fst T s i
    rw [hr] at this
    simp only [utf_iterator.pre_decrement, ← this, Option.map_some']
  · intro c L h i h0 hi
    have hreg : ∀ cp ∈ L, (utf_traits c).Regular cp :=
      fun cp hcp => regular_of_valid c (h cp hcp)
    obtain ⟨k, hk, hr, -, hle⟩ := retreat_count_well_formed (utf_traits c) L hreg i h0 hi
    exact ⟨_, _, hr, rfl, Nat.le_trans hle (units_length_le_max c _)⟩

/-- The backward walk from the end of the malformed bytes `41 80 80 80 80 80`: six steps to
index 0; and from the end of the UTF-8 encoding of U+41, U+10000: four steps. -/
theorem backward_walk_witness :
    (∃ j u, utf_iterator.retreat_count (utf_traits .char) [0x41, 0x80, 0x80, 0x80, 0x80, 0x80]
          6 = some (j, 6 - j) ∧
        utf_iterator.pre_decrement (utf_traits .char) [0x41, 0x80, 0x80, 0x80, 0x80, 0x80]
          { itr := 6 } = some { itr := j } ∧ j < 6 ∧
        deref [0x41, 0x80, 0x80, 0x80, 0x80, 0x80] j = some u ∧
        (utf_traits .char).is_initial_code_unit u = true ∧
        ∀ m w, j < m → m < 6 → deref [0x41, 0x80, 0x80, 0x80, 0x80, 0x80] m = some w →
          (utf_traits .char).is_initial_code_unit w = false) ∧
      ∃ j n, utf_iterator.retreat_count (utf_traits .char)
            ([0x41, 0x10000].flatMap (utf_traits .char).units) 5 = some (j, n) ∧
        n = 5 - j ∧ n ≤ (utf_traits .char).max_code_point_size :=
  ⟨backward_walk.1 (utf_traits .char) [0x41, 0x80, 0x80, 0x80, 0x80, 0x80] 6 (by decide)
      ⟨0, by decide, 0x41, by decide, by decide⟩,
    backward_walk.2.1 .char [0x41, 0x10000] (by decide) 5 (by decide) (by decide)⟩

/-- C39. UTF-8 encoding preserves order: for all code points `a < b <= 0x10FFFF`, the byte
sequence written by `utf_traits<char>::write(a)` is strictly less than the one written by
`write(b)` under lexicographic comparison of the bytes as unsigned values, and neither
sequence is a proper prefix of the other. -/
theorem utf8_order_preserved (a b : Nat) (hab : a < b) (hb : b ≤ 0x10FFFF) :
    lexicographical_compare (utf_traits_char.write back_inserter [] a)
        (utf_traits_char.write back_inserter [] b) = true ∧
      lexicographical_compare (utf_traits_char.write back_inserter [] b)
        (utf_traits_char.write back_inserter [] a) = false ∧
      (∀ t : List Nat, t ≠ [] →
        utf_traits_char.write back_inserter [] a ++ t ≠
          utf_traits_char.write back_inserter [] b) ∧
      (∀ t : List Nat, t ≠ [] →
        utf_traits_char.write back_inserter [] b ++ t ≠
          utf_traits_char.write back_inserter [] a) := by
  rcases utf8_units_cases a with ⟨ra, ea⟩ | ⟨ra, ea⟩ | ⟨ra, ea⟩ | ⟨ra, ea⟩ <;>
    rcases utf8_units_cases b with ⟨rb, eb⟩ | ⟨rb, eb⟩ | ⟨rb, eb⟩ | ⟨rb, eb⟩ <;>
    first
    | (exfalso; omega)
    | (rw [ea, eb]
       have d2 := digits_step a b hab
       have d3 := digits_three a b hab
       have d4 := digits_four a b hab
       have ha8 : a / 262144 % 8 = a / 262144 := by omega
       have hb8 : b / 262144 % 8 = b / 262144 := by omega
       try simp only [ha8, hb8]
       refine ⟨?_, ?_, ?_, ?_⟩
       · simp only [lexicographical_compare_cons, lexicographical_compare_nil_right,
           lexicographical_compare_nil_cons]
         omega
       · rw [Bool.eq_false_iff]
         simp only [ne_eq, lexicographical_compare_cons, lexicographical_compare_nil_right,
           lexicographical_compare_nil_cons]
         omega
       · intro t ht he
         have hl := congrArg List.length he
         simp only [List.cons_append, List.nil_append, List.cons.injEq, List.length_cons,
           List.length_nil, List.length_append] at he hl
         omega
       · intro t ht he
         have hl := congrArg List.length he
         simp only [List.cons_append, List.nil_append, List.cons.injEq, List.length_cons,
           List.length_nil, List.length_append] at he hl
         omega)

/-- The order of the encodings of U+7FF and U+800: `DF BF` is below `E0 A0 80`. -/
theorem utf8_order_preserved_witness :
    lexicographical_compare (utf_traits_char.write back_inserter [] 0x7FF)
        (utf_traits_char.write back_inserter [] 0x800) = true ∧
      lexicographical_compare (utf_traits_char.write back_inserter [] 0x800)
        (utf_traits_char.write back_inserter [] 0x7FF) = false :=
  ⟨(utf8_order_preserved 0x7FF 0x800 (by decide) (by decide)).1,
    (utf8_order_preserved 0x7FF 0x800 (by decide) (by decide)).2.1⟩

/-! ## `array_reference`: checked access and the arithmetic of a reference -/

/-- C31. The member `array_reference::at` is bounds-checked: for every reference `r` on any
storage and every index `pos`, `r.at(pos)` throws `std::out_of_range` if and only if
`pos >= r.size()`; otherwise it returns the element at offset `pos` from `r.data()`; in both
cases `r` is unchanged. -/
theorem at_bounds_checked {α : Type} (m : Int → α) (r : array_reference) (pos : Nat) :
    ((r.at_ m pos).1 = Except.error std_exception.out_of_range ↔ pos ≥ r.size) ∧
      (pos < r.size → (r.at_ m pos).1 = Except.ok (m (r.data + pos))) ∧
      (r.at_ m pos).2 = r := by
  unfold array_reference.at_ array_reference.size array_reference.data
  by_cases h : pos ≥ r._size
  · rw [if_pos h]
    exact ⟨⟨fun _ => h, fun _ => rfl⟩, fun h1 => absurd h (Nat.not_le.mpr h1), rfl⟩
  · rw [if_neg h]
    exact ⟨⟨fun e => (by cases e), fun h1 => absurd h1 h⟩, fun _ => rfl, rfl⟩

/-- On a reference of three elements that starts at offset 4, `at(2)` returns the element at
offset 6 and `at(3)` throws. -/
theorem at_bounds_checked_witness :
    (array_reference.at_ (fun i => i * 10) { _ptr := 4, _size := 3 } 2).1 = Except.ok 60 ∧
      (array_reference.at_ (fun i => i * 10) { _ptr := 4, _size := 3 } 3).1 =
        Except.error std_exception.out_of_range :=
  ⟨(at_bounds_checked (fun i => i * 10) { _ptr := 4, _size := 3 } 2).2.1 (by decide),
    (at_bounds_checked (fun i => i * 10) { _ptr := 4, _size := 3 } 3).1.mpr (by decide)⟩

/-- C40 (the claim as stated fails where `n + d` leaves `std::size_t`). On a reference of
size `2 ^ 64 - 1`, `operator-=(1)` passes its `assert` and the addition to `_size` wraps: the
size becomes 0, not `n + d`, and start plus size is not kept. -/
theorem array_reference_size_wraps_counterexample :
    array_reference.minus_assign { _ptr := 0, _size := 2 ^ 64 - 1 } 1 =
        some { _ptr := -1, _size := 0 } ∧
      array_reference.pre_decrement { _ptr := 0, _size := 2 ^ 64 - 1 } =
        some { _ptr := -1, _size := 0 } ∧
      (0 : Nat) ≠ (2 ^ 64 - 1) + 1 ∧
      array_reference.end_offset { _ptr := -1, _size := 0 } ≠
        array_reference.end_offset { _ptr := 0, _size := 2 ^ 64 - 1 } := by
  refine ⟨?_, ?_, by decide, by decide⟩
  · decide
  · decide

/-- C40 (amended). The arithmetic of an `array_reference` keeps the end fixed while the size
stays in `std::size_t`: for a reference with start `p` and size `n`, `operator+=(d)` with
`0 <= d <= n` yields start `p + d` and size `n - d`; `operator-=(d)` with `d > 0` and
`n + d < 2 ^ 64` yields start `p - d` and size `n + d`; under these conditions start plus size
is unchanged by `+=`, `-=`, `++`, `--`, `+` and `-`, and `(r + d) - d` equals `r`. -/
theorem array_reference_end_fixed (r : array_reference) (d : Int)
    (hn : r._size < size_type_modulus) :
    (0 ≤ d → d ≤ r._size →
      ∃ r1, r.plus_assign d = some r1 ∧ r.plus d = some r1 ∧
        r1._ptr = r._ptr + d ∧ (r1._size : Int) = r._size - d ∧
        r1.end_offset = r.end_offset ∧ r1.minus d = some r) ∧
      (0 < d → r._size + d < size_type_modulus →
        ∃ r1, r.minus_assign d = some r1 ∧ r.minus d = some r1 ∧
          r1._ptr = r._ptr - d ∧ (r1._size : Int) = r._size + d ∧
          r1.end_offset = r.end_offset) ∧
      (1 ≤ r._size →
        ∃ r1, r.pre_increment = some r1 ∧ r.post_increment = some (r, r1) ∧
          r1._ptr = r._ptr + 1 ∧ r1._size + 1 = r._size ∧ r1.end_offset = r.end_offset) ∧
      (r._size + 1 < size_type_modulus →
        ∃ r1, r.pre_decrement = some r1 ∧ r.post_decrement = some (r, r1) ∧
          r1._ptr = r._ptr - 1 ∧ r1._size = r._size + 1 ∧ r1.end_offset = r.end_offset) := by
  have hm := size_type_modulus_cast
  have hn1 : ((r._size : Nat) : Int) < (size_type_modulus : Nat) := by exact_mod_cast hn
  refine ⟨fun h0 h1 => ?_, fun h0 h1 => ?_, fun h1 => ?_, fun h1 => ?_⟩
  · have e := array_reference.plus_assign_in_range r d hn h0 h1
    have hsz : (((r._size : Int) - d).toNat : Int) = r._size - d :=
      Int.toNat_of_nonneg (by omega)
    refine ⟨_, e, e, rfl, hsz, ?_, ?_⟩
    · simp only [array_reference.end_offset, hsz]
      omega
    · rcases lt_or_eq_of_le h0 with hpos | hz
      · have e2 := array_reference.minus_assign_in_range
          { _ptr := r._ptr + d, _size := ((r._size : Int) - d).toNat } d hpos
          (by simp only [hsz]; omega)
        unfold array_reference.minus
        rw [e2]
        simp only [hsz]
        cases r
        simp
      · subst hz
        unfold array_reference.minus
        simp only [Int.sub_zero, Int.add_zero, Int.toNat_ofNat]
        exact array_reference.minus_assign_zero r hn
  · have e := array_reference.minus_assign_in_range r d h0 h1
    have hsz : (((r._size : Int) + d).toNat : Int) = r._size + d :=
      Int.toNat_of_nonneg (by omega)
    refine ⟨_, e, e, rfl, hsz, ?_⟩
    simp only [array_reference.end_offset, hsz]
    omega
  · have e := array_reference.plus_assign_in_range r 1 hn (by decide) (by omega)
    have hsz : (((r._size : Int) - 1).toNat : Int) = r._size - 1 :=
      Int.toNat_of_nonneg (by omega)
    refine ⟨_, e, ?_, rfl, ?_, ?_⟩
    · unfold array_reference.post_increment array_reference.pre_increment
      rw [e]
      rfl
    · show ((r._size : Int) - 1).toNat + 1 = r._size
      omega
    · simp only [array_reference.end_offset, hsz]
      omega
  · have e := array_reference.minus_assign_in_range r 1 (by decide) (by omega)
    have hsz : (((r._size : Int) + 1).toNat : Int) = r._size + 1 :=
      Int.toNat_of_nonneg (by omega)
    refine ⟨_, e, ?_, rfl, ?_, ?_⟩
    · unfold array_reference.post_decrement array_reference.pre_decrement
      rw [e]
      rfl
    · show ((r._size : Int) + 1).toNat = r._size + 1
      omega
    · simp only [array_reference.end_offset, hsz]
      omega

/-- On the reference with start 4 and size 3: `+= 2` gives start 6 and size 1, and `- 2`
applied to that gives the reference back. -/
theorem array_reference_end_fixed_witness :
    (3 : Nat) < size_type_modulus ∧
      ∃ r1, array_reference.plus_assign { _ptr := 4, _size := 3 } 2 = some r1 ∧
        array_reference.plus { _ptr := 4, _size := 3 } 2 = some r1 ∧
        r1._ptr = 4 + 2 ∧ (r1._size : Int) = 3 - 2 ∧
        r1.end_offset = array_reference.end_offset { _ptr := 4, _size := 3 } ∧
        r1.minus 2 = some { _ptr := 4, _size := 3 } :=
  ⟨by decide,
    (array_reference_end_fixed { _ptr := 4, _size := 3 } 2 (by decide)).1 (by decide)
      (by decide)⟩

/-! ## `numeric_cast` on plain integers -/

/-- C32, as stated, fails where the integer part wraps to zero in the type: at `unsigned char`
the string `-256` has the integer part 256, which is not zero, yet `read_integer_value`
leaves 0 in `integer_part` (2, 25, then 256 reduced modulo `2 ^ 8`), the test before `negate`
fails, nothing is thrown and 0 is returned. -/
theorem numeric_cast_wrapped_minus_counterexample :
    decimal_value [50, 53, 54] = 256 ∧
      numeric_cast_parts { is_signed := false, bits := 8 } (fun _ => none) [45, 50, 53, 54] =
        some { integer_part := 0, fractional_part := 0, fractionNonZero := false } ∧
      numeric_cast { is_signed := false, bits := 8 } (fun _ => none) [45, 50, 53, 54] =
        some (Except.ok 0) ∧
      ¬ (∀ (T : NumericType) (pow : Nat → Option Int) (digits : List Nat),
        T.is_standard → T.is_signed = false → (∀ c ∈ digits, details.is_digit c = true) →
        (numeric_cast T pow (45 :: digits) =
            some (Except.error std_exception.invalid_argument) ↔
          decimal_value digits ≠ 0)) := by
  have hd : ∀ c ∈ [50, 53, 54], details.is_digit c = true := by decide
  have hparts := numeric_cast_parts_plain { is_signed := false, bits := 8 } (fun _ => none)
    ([45] ++ [50, 53, 54]) 1 0 (skip_sign_plain [45] [50, 53, 54] (Or.inr (Or.inr rfl)) hd)
    (details.skip_digits_append [45] [50, 53, 54] hd)
    (details.read_integer_value_unsigned { is_signed := false, bits := 8 } rfl (by decide)
      [45] [50, 53, 54] hd)
  have hcast := numeric_cast_unsigned_plain { is_signed := false, bits := 8 } rfl (by decide)
    (fun _ => none) [50, 53, 54] hd
  have hval : numeric_cast { is_signed := false, bits := 8 } (fun _ => none)
      [45, 50, 53, 54] = some (Except.ok 0) := by
    rw [hcast]
    rfl
  refine ⟨by decide, hparts, hval, fun h => ?_⟩
  have h1 := (h { is_signed := false, bits := 8 } (fun _ => none) [50, 53, 54] (by decide) rfl
    hd).mpr (by decide)
  rw [hval] at h1
  have h2 := Option.some.inj h1
  cases h2

/-- C32 (amended). The function `numeric_cast` on plain integers, at every integer type of 8,
16, 32 or 64 bits and for every `std::pow`. At a signed type, for every string made of an
optional `+` or `-` followed by decimal digits only whose magnitude the type holds, it returns
the decimal value of the digits, negated exactly when the string starts with `-` and the value
is not zero. At an unsigned type, on a string with a leading `-`, it throws
`std::invalid_argument` exactly when `integer_part`, the integer part as the type stores it,
is not zero or `fractionNonZero` is set, and returns the sum of the two parts otherwise;
`fractionNonZero` is set by `read_fractional_value` exactly when one of the characters it
reads differs from `0`; on `-` followed by digits it throws exactly when the value of the
digits reduced modulo `2 ^ bits` is not zero, and `-0` yields 0. -/
theorem numeric_cast_plain_integers (T : NumericType) (hw : T.is_standard)
    (pow : Nat → Option Int) :
    (T.is_signed = true → ∀ sign digits : List Nat,
        (sign = [] ∨ sign = [43] ∨ sign = [45]) →
        (∀ c ∈ digits, details.is_digit c = true) →
        (decimal_value digits : Int) ≤ T.max →
        numeric_cast T pow (sign ++ digits) =
          some (Except.ok (if sign = [45] ∧ decimal_value digits ≠ 0
            then -(decimal_value digits : Int) else (decimal_value digits : Int)))) ∧
      (T.is_signed = false → ∀ s : List Nat, details.char_at s 0 = 45 →
        (numeric_cast T pow s = some (Except.error std_exception.invalid_argument) ↔
          ∃ v, numeric_cast_parts T pow s = some v ∧
            (v.integer_part ≠ 0 ∨ v.fractionNonZero = true)) ∧
        (∀ v, numeric_cast_parts T pow s = some v →
          ¬ (v.integer_part ≠ 0 ∨ v.fractionNonZero = true) →
          numeric_cast T pow s =
            some (Except.ok ((v.integer_part + v.fractional_part) % (2 : Int) ^ T.bits)))) ∧
      (∀ (s : List Nat) (front back : Nat) (value : Int) (isNonZero : Bool) (r : Int × Bool),
        details.read_fractional_value T s front (some back) value isNonZero = some r →
        r.2 = (isNonZero ||
          (List.range (back - front)).any (fun k => details.char_at s (front + k) != 48))) ∧
      (T.is_signed = false → ∀ digits : List Nat,
        (∀ c ∈ digits, details.is_digit c = true) →
        numeric_cast T pow (45 :: digits) =
          if decimal_value digits % 2 ^ T.bits = 0 then some (Except.ok 0)
          else some (Except.error std_exception.invalid_argument)) ∧
      (T.is_signed = false → numeric_cast T pow [45, 48] = some (Except.ok 0)) := by
  refine ⟨fun hs sign digits hsign hd hv =>
      numeric_cast_signed_plain T hs hw pow sign digits hsign hd hv,
    fun hu s hm => ⟨⟨fun h => ?_, fun h => ?_⟩, fun v hv hc => ?_⟩,
    fun s front back value isNonZero r h =>
      details.read_fractional_value_flag T s front back value isNonZero r h,
    fun hu digits hd => numeric_cast_unsigned_plain T hu hw pow digits hd,
    fun hu => ?_⟩
  · cases hp : numeric_cast_parts T pow s with
    | none =>
      rw [numeric_cast_unsigned_minus_undefined T pow s hp] at h
      exact absurd h (by simp)
    | some v =>
      refine ⟨v, rfl, ?_⟩
      by_contra hc
      rw [numeric_cast_unsigned_minus T hu hw pow s hm v hp, if_neg hc] at h
      have h1 := Option.some.inj h
      cases h1
  · obtain ⟨v, hv, hc⟩ := h
    rw [numeric_cast_unsigned_minus T hu hw pow s hm v hv, if_pos hc]
  · rw [numeric_cast_unsigned_minus T hu hw pow s hm v hv, if_neg hc]
  · have h := numeric_cast_unsigned_plain T hu hw pow [48] (by decide)
    rw [h]
    rfl

/-- At `int` of 32 bits the string `-12` yields -12, and at `unsigned char` the string `-0`
yields 0. -/
theorem numeric_cast_plain_integers_witness :
    numeric_cast { is_signed := true, bits := 32 } (fun _ => none) [45, 49, 50] =
        some (Except.ok (-12)) ∧
      numeric_cast { is_signed := false, bits := 8 } (fun _ => none) [45, 48] =
        some (Except.ok 0) :=
  ⟨(numeric_cast_plain_integers { is_signed := true, bits := 32 } (by decide)
      (fun _ => none)).1 rfl [45] [49, 50] (by decide) (by decide) (by decide),
    (numeric_cast_plain_integers { is_signed := false, bits := 8 } (by decide)
      (fun _ => none)).2.2.2.2 rfl⟩

end dhorn
